import Mathlib

/-!
# HPDDM `Feti` : jump operator, scaling, preconditioner and coarse projection

A shallow embedding of `src/src/FETI.hpp` and of `MatrixCSR::sameSparsity`
(`src/src/matrix.hpp`).

* A pointer `K*` is a map `Nat → K` from the offset to the stored value; a
  write is `Function.update`.
* A per-neighbour array `K**` (`dual`, `_m`, `_rbuff`) is the flat storage
  behind `dual[0]` together with the block offsets fixed by `initialize` /
  `allocateSingle` (`dual[i] = dual[i - 1] + _map[i - 1].second.size()`), so
  that `dual[i][j]` is the flat entry `offset i + j`.
* Scalars live in a commutative ring (a field where the code divides); loop
  counters are natural numbers (the neighbour and interface counts are taken
  to fit `unsigned short` / `unsigned int`).
* The pointer tables that `initialize`, `allocateSingle` and `allocateArray`
  fill are tables of addresses, natural numbers counted in entries of `K`.
* What the code calls outside these files (the Schur kernels, the local and
  coarse solvers, `Subdomain::exchange`, the eigen-solver, `csrmv`) is a
  parameter of the function that calls it; the content of a fresh `new K[n]`
  is a parameter too.
-/

namespace HPDDM

/-! ## Loops -/

/-- The loop `for(k = 0; k < n; ++k) s = body(k, s)`. -/
def loop {σ : Type} (body : Nat → σ → σ) : Nat → σ → σ
  | 0, s => s
  | n + 1, s => body n (loop body n s)

/-- The loop `for(k = lo; k < hi; ++k) s = body(k, s)`. -/
def forRange {σ : Type} (lo hi : Nat) (body : Nat → σ → σ) (s : σ) : σ :=
  loop (fun k => body (lo + k)) (hi - lo) s

/-! ## Subdomain data -/

/-- The fields of `Subdomain<K>` / `Schur` that `Feti` reads: the neighbour
list `_map` (rank of the neighbour, local indices of the shared unknowns),
the number `_dof` of interface unknowns, the threshold `_signed` and the
length `_mult` of a Lagrange multiplier. -/
structure Subdomain where
  map : List (Nat × List Nat)
  dof : Nat
  signed : Nat
  mult : Nat
deriving Repr

namespace Subdomain

/-- Number of neighbours, `_map.size()`. -/
def nbs (S : Subdomain) : Nat := S.map.length

/-- Rank of neighbour `i`, `_map[i].first`. -/
def rank (S : Subdomain) (i : Nat) : Nat := (S.map.getD i (0, [])).1

/-- Size of the interface with neighbour `i`, `_map[i].second.size()`. -/
def size (S : Subdomain) (i : Nat) : Nat := (S.map.getD i (0, [])).2.length

/-- Local index of the `j`-th unknown shared with neighbour `i`,
`_map[i].second[j]`. -/
def idx (S : Subdomain) (i j : Nat) : Nat := (S.map.getD i (0, [])).2.getD j 0

/-- Start of block `i` in the flat storage, `dual[i] - dual[0]`, as set by
`initialize` and `allocateSingle`:
`dual[i] = dual[i - 1] + _map[i - 1].second.size()`. -/
def off (S : Subdomain) : Nat → Nat
  | 0 => 0
  | i + 1 => S.off i + S.size i

/-- Sum of the interface sizes, the length a multiplier must have. -/
def total (S : Subdomain) : Nat := S.off S.nbs

end Subdomain

/-- The two buffers handed to the jump operator: `primal` and the flat
storage of `dual`. -/
structure JumpMem (K : Type) where
  primal : Nat → K
  dual : Nat → K

/-- `std::fill(p, p + n, v)`. -/
def fill {K : Type} (p : Nat → K) (n : Nat) (v : K) : Nat → K :=
  fun d => if d < n then v else p d

section Jump

variable {K : Type} [CommRing K]

/-- The expression `scale ? _m[i][j] * v : v`. -/
def scaled (S : Subdomain) (m : Nat → K) (scale : Bool) (i j : Nat) (v : K) : K :=
  if scale then m (S.off i + j) * v else v

/-- Statement `primal[_map[i].second[j]] -= scale ? _m[i][j] * dual[i][j] : dual[i][j]`. -/
def subStep (S : Subdomain) (m : Nat → K) (scale : Bool) (i j : Nat)
    (st : JumpMem K) : JumpMem K :=
  let d := S.idx i j
  { st with primal := Function.update st.primal d (st.primal d - scaled S m scale i j (st.dual (S.off i + j))) }

/-- Statement `primal[_map[i].second[j]] += scale ? _m[i][j] * dual[i][j] : dual[i][j]`. -/
def addStep (S : Subdomain) (m : Nat → K) (scale : Bool) (i j : Nat)
    (st : JumpMem K) : JumpMem K :=
  let d := S.idx i j
  { st with primal := Function.update st.primal d (st.primal d + scaled S m scale i j (st.dual (S.off i + j))) }

/-- `Feti::A<'T', scale>(primal, dual)`, lines 64-72. -/
def A_T (S : Subdomain) (m : Nat → K) (scale : Bool) (st : JumpMem K) : JumpMem K :=
  let z : JumpMem K := { st with primal := fill st.primal S.dof 0 }
  let a := forRange 0 S.signed
    (fun i s => forRange 0 (S.size i) (fun j t => subStep S m scale i j t) s) z
  forRange S.signed S.nbs
    (fun i s => forRange 0 (S.size i) (fun j t => addStep S m scale i j t) s) a

/-- The constant `Wrapper<K>::d__0`, the `beta` of the products that
overwrite their result. -/
def d__0 : K := 0

/-- The constant `Wrapper<K>::d__1`, the unit coefficient. -/
def d__1 : K := 1

/-- The constant `Wrapper<K>::d__2`. Its declaration is not in `FETI.hpp`;
`computeSolution` fixes its value: `axpy(n, d__2, _structure, 1, x, 1)` is
annotated `x = x - S \ A^T l` and the product with `d__2` on line 426 is
annotated `x = x - R^T (G Q G^T) \ ...`, so `d__2` is the coefficient of a
subtraction, `-1`. -/
def d__2 : K := -1

/-- `Wrapper<K>::axpy(&n, &alpha, x, &i__1, y, &i__1)`: `y[k] += alpha * x[k]`
for `k < n` (BLAS `axpy` with unit strides). -/
def axpy (n : Nat) (alpha : K) (x y : Nat → K) : Nat → K :=
  fun k => if k < n then y k + alpha * x k else y k

/-- Statement `dual[i][j] = -(scale ? _m[i][j] * primal[...] : primal[...])`. -/
def negStep (S : Subdomain) (m : Nat → K) (scale : Bool) (i j : Nat)
    (st : JumpMem K) : JumpMem K :=
  { st with dual := Function.update st.dual (S.off i + j) (-(scaled S m scale i j (st.primal (S.idx i j)))) }

/-- Statement `dual[i][j] = (scale ? _m[i][j] * primal[...] : primal[...])`. -/
def posStep (S : Subdomain) (m : Nat → K) (scale : Bool) (i j : Nat)
    (st : JumpMem K) : JumpMem K :=
  { st with dual := Function.update st.dual (S.off i + j) (scaled S m scale i j (st.primal (S.idx i j))) }

/-- The two neighbour loops of `A<'N', scale>`, lines 74-85, up to the
`MPI_Waitall`: block `i` of `dual` receives the signed contribution of this
subdomain and is the buffer handed to `MPI_Isend` for neighbour `i`. -/
def A_N_send (S : Subdomain) (m : Nat → K) (scale : Bool) (st : JumpMem K) : JumpMem K :=
  let a := forRange 0 S.signed
    (fun i s => forRange 0 (S.size i) (fun j t => negStep S m scale i j t) s) st
  forRange S.signed S.nbs
    (fun i s => forRange 0 (S.size i) (fun j t => posStep S m scale i j t) s) a

/-- `Feti::A<'N', scale>(primal, dual)`, lines 74-87. `rbuff` is the flat
content of `_rbuff[0]` once `MPI_Waitall` has returned: block `i` holds the
message received from neighbour `i`. -/
def A_N (S : Subdomain) (m : Nat → K) (scale : Bool) (rbuff : Nat → K)
    (st : JumpMem K) : JumpMem K :=
  let s := A_N_send S m scale st
  { s with dual := axpy S.mult d__1 rbuff s.dual }

/-- The sign of neighbour `i`: `-1` below `_signed`, `+1` from `_signed` on. -/
def sigma (S : Subdomain) (i : Nat) : K := if i < S.signed then -1 else 1

/-- The weight `w_ij`: `_m[i][j]` when `scale` holds, `1` otherwise. -/
def weight (S : Subdomain) (m : Nat → K) (scale : Bool) (i j : Nat) : K :=
  if scale then m (S.off i + j) else 1

/-- The signed, weighted sum of the dual entries attached to the unknown `d`. -/
def reduceSum (S : Subdomain) (m : Nat → K) (scale : Bool) (dual : Nat → K) (d : Nat) : K :=
  ∑ i in Finset.range S.nbs, ∑ j in Finset.range (S.size i),
    if S.idx i j = d then sigma S i * weight S m scale i j * dual (S.off i + j) else 0

/-- The pairing of a primal vector `v` with a multiplier `lam` through the
signed, weighted incidence of the subdomain:
the sum over all entries `(i, j)` of `sigma_i * w_ij * v[map[i][j]] * lam[i][j]`. -/
def jumpPairing (S : Subdomain) (m : Nat → K) (scale : Bool) (v lam : Nat → K) : K :=
  ∑ i in Finset.range S.nbs, ∑ j in Finset.range (S.size i),
    sigma S i * weight S m scale i j * v (S.idx i j) * lam (S.off i + j)

end Jump

/-! ## The ranks of the communicator and the neighbour exchange -/

/-- The subdomain-owning ranks `0, ..., n - 1` of the solver communicator:
rank `s` holds the subdomain `sub s`. -/
structure Topology where
  n : Nat
  sub : Nat → Subdomain

namespace Topology

/-- The index under which neighbour `i` of rank `s` lists rank `s` in its own
`_map`. -/
def peer (T : Topology) (s i : Nat) : Nat :=
  ((T.sub ((T.sub s).rank i)).map.map Prod.fst).indexOf s

/-- Every neighbour relation is listed by both sides, once, with interfaces
of the same size (the entries of the two sequences are aligned by position). -/
def Matched (T : Topology) : Prop :=
  ∀ s, s < T.n → ∀ i, i < (T.sub s).nbs →
    (T.sub s).rank i < T.n ∧
    T.peer s i < (T.sub ((T.sub s).rank i)).nbs ∧
    (T.sub ((T.sub s).rank i)).rank (T.peer s i) = s ∧
    T.peer ((T.sub s).rank i) (T.peer s i) = i ∧
    (T.sub ((T.sub s).rank i)).size (T.peer s i) = (T.sub s).size i

/-- The two sides of a neighbour pair have opposite roles: one lists the
pair below its `_signed`, the other from its `_signed` on. -/
def Opposite (T : Topology) : Prop :=
  ∀ s, s < T.n → ∀ i, i < (T.sub s).nbs →
    (i < (T.sub s).signed ↔ ¬ T.peer s i < (T.sub ((T.sub s).rank i)).signed)

/-- On every rank `_mult` is the sum of the interface sizes. -/
def Sized (T : Topology) : Prop :=
  ∀ s, s < T.n → (T.sub s).mult = (T.sub s).total

/-- Every shared index is an interface unknown: `_map[i].second[j] < _dof`. -/
def InRange (T : Topology) : Prop :=
  ∀ s, s < T.n → ∀ i, i < (T.sub s).nbs → ∀ j, j < (T.sub s).size i →
    (T.sub s).idx i j < (T.sub s).dof

instance (T : Topology) : Decidable T.Matched := by
  unfold Matched; infer_instance

instance (T : Topology) : Decidable T.Opposite := by
  unfold Opposite; infer_instance

instance (T : Topology) : Decidable T.Sized := by
  unfold Sized; infer_instance

instance (T : Topology) : Decidable T.InRange := by
  unfold InRange; infer_instance

end Topology

section Exchange

variable {K : Type} [CommRing K]

/-- The point-to-point transfers completed by `MPI_Waitall` (semantics of
MPI, which is not code of this repository): on rank `s` the receive posted
for neighbour `i` (`MPI_Irecv(_rbuff[i], _map[i].second.size(), ..., _map[i].first, 0, ...)`)
is matched by the send that rank `_map[i].first` posts to `s`, so that
`_rbuff[i][j]` becomes entry `j` of the block that neighbour sends to `s`.
`send t` is the flat dual storage of rank `t` when it posts its sends and
`rbuff` the previous content of the receive buffer of rank `s`. -/
def exchange (T : Topology) (send : Nat → Nat → K) (s : Nat) (rbuff : Nat → K) : Nat → K :=
  loop (fun i r => loop (fun j q => Function.update q ((T.sub s).off i + j)
      (send ((T.sub s).rank i) ((T.sub ((T.sub s).rank i)).off (T.peer s i) + j)))
    ((T.sub s).size i) r) (T.sub s).nbs rbuff

/-- `A<'N', scale>` called on all ranks: `m s` are the weights, `rb s` the
previous content of the receive buffer and `st s` the two buffers of rank
`s`. Every rank fills and sends its blocks, the transfers complete, and every
rank adds what it received. -/
def expandAll (T : Topology) (m : Nat → Nat → K) (scale : Bool) (rb : Nat → Nat → K)
    (st : Nat → JumpMem K) : Nat → JumpMem K :=
  fun s => A_N (T.sub s) (m s) scale
    (exchange T (fun t => (A_N_send (T.sub t) (m t) scale (st t)).dual) s (rb s)) (st s)

end Exchange

/-! ## Inner product of two multipliers -/

section Dot

variable {K : Type} [Field K]

/-- `Wrapper<K>::dot(&n, a, &i__1, b, &i__1)`: the BLAS dot product of the
first `n` entries (real scalars, unit strides). -/
def dot (n : Nat) (a b : Nat → K) : K := ∑ k in Finset.range n, a k * b k

/-- The value `*val` of `computeDot<excluded>` before the `MPI_Allreduce`,
lines 448-451. -/
def computeDotLocal (excluded : Bool) (mult : Nat) (a b : Nat → K) : K :=
  if !excluded then dot mult a b / 2 else 0

/-- `Feti::computeDot`: `MPI_Allreduce(MPI_IN_PLACE, val, 1, ..., MPI_SUM, comm)`
leaves on every rank the sum of the local values. The communicator holds
the `T.n` subdomain-owning ranks followed by `extra` coarse-only ranks, which
run `computeDot<true>`; `a r` and `b r` are the arguments on rank `r`. -/
def computeDot (T : Topology) (extra : Nat) (a b : Nat → Nat → K) : K :=
  ∑ r in Finset.range (T.n + extra),
    computeDotLocal (decide (T.n ≤ r)) (T.sub r).mult (a r) (b r)

end Dot

/-! ## Partition of unity -/

/-- The buffers `buildScaling` works on: `_primal`, the flat storage of `_m`
and of `_rbuff`, and the number of calls of `Subdomain<K>::exchange` made so
far. -/
structure ScalingState (K : Type) where
  primal : Nat → K
  m : Nat → K
  rbuff : Nat → K
  exchanges : Nat

/-- Statement `array[neighbor.second[j]].emplace_back(neighbor.first, j)` for
the neighbour of index `i`. -/
def arrayStep (S : Subdomain) (i j : Nat) (array : Nat → List (Nat × Nat)) :
    Nat → List (Nat × Nat) :=
  Function.update array (S.idx i j) (array (S.idx i j) ++ [(S.rank i, j)])

/-- Lines 225-228 of `buildScaling`: `array[d]` lists the (neighbour, index)
references to the unknown `d`; the range-based loop over `_map` visits the
neighbours in index order. -/
def buildArray (S : Subdomain) : Nat → List (Nat × Nat) :=
  loop (fun i a => loop (fun j b => arrayStep S i j b) (S.size i) a) S.nbs (fun _ => [])

/-- The number of (neighbour, index) entries of the map that refer to the
unknown `d`. -/
def refCount (S : Subdomain) (d : Nat) : Nat :=
  ∑ i in Finset.range S.nbs, ∑ j in Finset.range (S.size i), if S.idx i j = d then 1 else 0

section Scaling

variable {K : Type} [Field K]

/-- Lines 240-242: `_m[i][j] = 1.0 / (1.0 + array[_map[i].second[j]].size())`. -/
def multiplicityLoop (S : Subdomain) (array : Nat → List (Nat × Nat)) (m : Nat → K) : Nat → K :=
  loop (fun i a => loop (fun j b => Function.update b (S.off i + j)
      (1 / (1 + ((array (S.idx i j)).length : K)))) (S.size i) a) S.nbs m

/-- Lines 235-237: `_m[i][j] = std::real(_rbuff[i][j] / _primal[_map[i].second[j]])`
(real scalars). -/
def ratioLoop (S : Subdomain) (rbuff primal : Nat → K) (m : Nat → K) : Nat → K :=
  loop (fun i a => loop (fun j b => Function.update b (S.off i + j)
      (rbuff (S.off i + j) / primal (S.idx i j))) (S.size i) a) S.nbs m

/-- `std::copy_n(src + shift, n, dst)`. -/
def copy_n (src : Nat → K) (shift n : Nat) (dst : Nat → K) : Nat → K :=
  fun d => if d < n then src (shift + d) else dst d

/-- `Feti::buildScaling(scaling, rho)`, lines 223-244. `initialize()` only
allocates, so the buffers start from the contents of `st`. The collaborators
`Schur::stiffnessScaling` and `Subdomain<K>::exchange` are not part of
`FETI.hpp` and are parameters: `stiffnessScaling p` is what the former leaves
in `_primal`, `exch p r` what the latter leaves in `_primal` and `_rbuff`;
`bi_m` is the interior count `_bi->_m`. -/
def buildScaling (S : Subdomain) (bi_m : Nat) (stiffnessScaling : (Nat → K) → Nat → K)
    (exch : (Nat → K) → (Nat → K) → (Nat → K) × (Nat → K))
    (scaling : Char) (rho : Option (Nat → K)) (st : ScalingState K) : ScalingState K :=
  let array := buildArray S
  if (scaling = 'r' ∧ rho.isSome) ∨ scaling = 'k' then
    let p := if scaling = 'k' then stiffnessScaling st.primal
      else copy_n (rho.getD (fun _ => 0)) bi_m S.dof st.primal
    let e := exch p st.rbuff
    { primal := e.1, m := ratioLoop S e.2 e.1 st.m, rbuff := e.2,
      exchanges := st.exchanges + 1 }
  else
    { st with m := multiplicityLoop S array st.m }

end Scaling

/-! ## The solver object, the preconditioner and the projection -/

/-- The enumeration `FetiPrcndtnr` of the local preconditioners. -/
inductive FetiPrcndtnr where
  | DIRICHLET
  | LUMPED
  | SUPERLUMPED
  | NONE
deriving DecidableEq, Repr

/-- The local kernels of `Schur` that `applyLocalPreconditioner` delegates
to. They are not part of `FETI.hpp`; each maps the content of the interface
vector it is given to the content it leaves there. -/
structure LocalKernels (K : Type) where
  applyLocalSchurComplement : (Nat → K) → Nat → K
  applyLocalLumpedMatrix : (Nat → K) → Nat → K
  applyLocalSuperlumpedMatrix : (Nat → K) → Nat → K

/-- The members of a `Feti` object that the operators read and write:
the subdomain data, the weights `*_m`, the scratch vectors `_primal` (the
part of `_structure` after its `_bi->_m` interior entries, kept in
`interior`), `*_dual` and `_uc`, the coarse operator `_co` (absent, or
present with its local size `*getAddrLocal()`), the eigenvector storage
`_ev` (absent, or the column-major storage `*_ev`), whether `_schur` is set,
the sizes `_bi->_m` and `_a->_n`, the number of calls of `callSolver`
made so far, and the local deficiency `_deficiency`. -/
structure Feti (K : Type) where
  S : Subdomain
  m : Nat → K
  primal : Nat → K
  interior : Nat → K
  dual : Nat → K
  uc : Nat → K
  co : Option Nat
  ev : Option (Nat → K)
  schur : Bool
  bi_m : Nat
  a_n : Nat
  solves : Nat
  deficiency : Nat := 0

/-- A call `f(in, out)` on a `Feti` object: the object, the storage behind
`in`, and the storage behind `out` when the caller passes one. -/
structure Call (K : Type) where
  F : Feti K
  inp : Nat → K
  out : Option (Nat → K)

section Operators

variable {K : Type} [CommRing K]

/-- `Feti::applyLocalPreconditioner<q>(u)`, lines 286-294. -/
def applyLocalPreconditioner (q : FetiPrcndtnr) (ker : LocalKernels K) (u : Nat → K) : Nat → K :=
  match q with
  | FetiPrcndtnr.DIRICHLET => ker.applyLocalSchurComplement u
  | FetiPrcndtnr.LUMPED => ker.applyLocalLumpedMatrix u
  | FetiPrcndtnr.SUPERLUMPED => ker.applyLocalSuperlumpedMatrix u
  | FetiPrcndtnr.NONE => u

/-- `Feti::precond<q>(in, out)`, lines 302-307. `rbuff` is what the expand
receives from the neighbours. -/
def precond (q : FetiPrcndtnr) (ker : LocalKernels K) (rbuff : Nat → K) (c : Call K) : Call K :=
  let a := A_T c.F.S c.F.m true ⟨c.F.primal, c.inp⟩
  let p := applyLocalPreconditioner q ker a.primal
  match c.out with
  | some o =>
    let b := A_N c.F.S c.F.m true rbuff ⟨p, o⟩
    { F := { c.F with primal := b.primal }, inp := a.dual, out := some b.dual }
  | none =>
    let b := A_N c.F.S c.F.m true rbuff ⟨p, a.dual⟩
    { F := { c.F with primal := b.primal }, inp := b.dual, out := none }

/-- The constant `transa`, "not transposed". -/
def transa : Char := 'N'

/-- The constant `transb`, "transposed". -/
def transb : Char := 'T'

/-- `Wrapper<K>::gemv(&trans, &m, &n, &alpha, A, &lda, x, &i__1, &beta, y, &i__1)`,
the BLAS product with the column-major `m × n` matrix `A(i, j) = A[i + j * lda]`:
`y = alpha * A * x + beta * y` for `'N'`, `y = alpha * A^T * x + beta * y`
otherwise. -/
def gemv (trans : Char) (m n : Nat) (alpha : K) (A : Nat → K) (lda : Nat) (x : Nat → K)
    (beta : K) (y : Nat → K) : Nat → K :=
  if trans = 'N' then
    fun i => if i < m
      then alpha * (∑ j in Finset.range n, A (i + j * lda) * x j) + beta * y i else y i
  else
    fun j => if j < n
      then alpha * (∑ i in Finset.range m, A (i + j * lda) * x i) + beta * y j else y j

/-- The local matrix of the products in `project`: `*_ev` with leading
dimension `_dof` when `_schur` is set, `*_ev + _bi->_m` with leading
dimension `_a->_n` otherwise. -/
def evMatrix (F : Feti K) (E : Nat → K) : Nat → K :=
  if F.schur then E else fun k => E (F.bi_m + k)

/-- The leading dimension that goes with `evMatrix`. -/
def evLda (F : Feti K) : Nat := if F.schur then F.S.dof else F.a_n

/-- Lines 326-340 of `project` up to the call of `callSolver`: the content
of `_uc` handed to the coarse solver. `dualArg` is the multiplier that is
reduced (`_dual` or `in`) and `loc` the local coarse size. -/
def ucInput (loc : Nat) (dualArg : Nat → K) (F : Feti K) : Nat → K :=
  match F.ev with
  | some E =>
    gemv transb F.S.dof loc d__1 (evMatrix F E) (evLda F)
      (A_T F.S F.m false ⟨F.primal, dualArg⟩).primal d__0 F.uc
  | none => F.uc

/-- Lines 326-345 of `project`: the coarse correction of `_primal`. `solve`
is what `callSolver` leaves in `_uc`. With `_ev` set this is the reduce, the
product with the transposed basis, the coarse solve and the product with the
basis (the two branches on `_schur` differ in the matrix pointer and its
leading dimension only); with no `_ev` the coarse solve and a zero fill. -/
def coarseStep (solve : (Nat → K) → Nat → K) (loc : Nat) (dualArg : Nat → K)
    (F : Feti K) : Feti K :=
  match F.ev with
  | some E =>
    let a := A_T F.S F.m false ⟨F.primal, dualArg⟩
    let uc1 := gemv transb F.S.dof loc d__1 (evMatrix F E) (evLda F) a.primal d__0 F.uc
    let uc2 := solve uc1
    { F with uc := uc2, solves := F.solves + 1,
             primal := gemv transa F.S.dof loc d__1 (evMatrix F E) (evLda F) uc2 d__0 a.primal }
  | none =>
    { F with uc := solve F.uc, solves := F.solves + 1, primal := fill F.primal F.S.dof 0 }

/-- Lines 324-325 of `project`: `if(trans == 'T') precond(in, _dual);`. -/
def projBefore (trans : Char) (q : FetiPrcndtnr) (ker : LocalKernels K) (rbPre : Nat → K)
    (c : Call K) : Call K :=
  if trans = 'T' then
    let r := precond q ker rbPre ⟨c.F, c.inp, some c.F.dual⟩
    { F := { r.F with dual := r.out.getD r.F.dual }, inp := r.inp, out := c.out }
  else c

/-- The multiplier reduced on lines 327-330: `_dual` for `'T'`, `in` otherwise. -/
def projArg (trans : Char) (c : Call K) : Nat → K :=
  if trans = 'T' then c.F.dual else c.inp

/-- Line 346 of `project`: `A<'N', 0>(_primal, _dual);`. -/
def projJump (rbJump : Nat → K) (F : Feti K) : Feti K :=
  let b := A_N F.S F.m false rbJump ⟨F.primal, F.dual⟩
  { F with primal := b.primal, dual := b.dual }

/-- Lines 347-348 of `project`: `if(trans == 'N') precond(_dual);`. -/
def projAfter (trans : Char) (q : FetiPrcndtnr) (ker : LocalKernels K) (rbPre : Nat → K)
    (F : Feti K) : Feti K :=
  if trans = 'N' then
    let r := precond q ker rbPre ⟨F, F.dual, none⟩
    { r.F with dual := r.inp }
  else F

/-- Lines 349-353 of `project`: `out[i] = in[i] - _dual[i]` for `i < _mult`
when `out` is given, `axpy(_mult, d__2, *_dual, 1, *in, 1)` otherwise. -/
def projCombine (c : Call K) (F : Feti K) : Call K :=
  match c.out with
  | some o =>
    { F := F, inp := c.inp,
      out := some (fun i => if i < F.S.mult then c.inp i - F.dual i else o i) }
  | none =>
    { F := F, inp := axpy F.S.mult d__2 F.dual c.inp, out := none }

/-- `std::copy(first, first + n, dst)`. -/
def copy (src : Nat → K) (n : Nat) (dst : Nat → K) : Nat → K :=
  fun i => if i < n then src i else dst i

/-- `Feti::project<excluded, trans>(in, out)`, lines 319-360. `solve` is
what `callSolver` leaves in `_uc`, `rbPre` what the expand inside `precond`
receives and `rbJump` what the expand of line 346 receives. -/
def project (excluded : Bool) (trans : Char) (q : FetiPrcndtnr) (ker : LocalKernels K)
    (solve : (Nat → K) → Nat → K) (rbPre rbJump : Nat → K) (c : Call K) : Call K :=
  match c.F.co with
  | some loc =>
    if !excluded then
      let c1 := projBefore trans q ker rbPre c
      let F2 := coarseStep solve loc (projArg trans c1) c1.F
      let F3 := projJump rbJump F2
      let F4 := projAfter trans q ker rbPre F3
      projCombine c1 F4
    else
      { c with F := { c.F with uc := solve c.F.uc, solves := c.F.solves + 1 } }
  | none =>
    if !excluded then
      match c.out with
      | some o => { c with out := some (copy c.inp c.F.S.mult o) }
      | none => c
    else c

/-- The multiplier in which a call leaves its result: `out` when it is
given, `in` otherwise. -/
def Call.result (c : Call K) : Nat → K := c.out.getD c.inp

/-- The content of the target multiplier of `precond` when its expand posts
the sends (line 306, the loops of `A<'N', 1>`). -/
def precondSend (q : FetiPrcndtnr) (ker : LocalKernels K) (c : Call K) : Nat → K :=
  let a := A_T c.F.S c.F.m true ⟨c.F.primal, c.inp⟩
  (A_N_send c.F.S c.F.m true
    ⟨applyLocalPreconditioner q ker a.primal, c.out.getD a.dual⟩).dual

/-- `precond` called on all ranks: rank `s` runs the call `c s` with the
kernels `ker s`, and receives what its neighbours send. -/
def precondAll (T : Topology) (q : FetiPrcndtnr) (ker : Nat → LocalKernels K)
    (rb : Nat → Nat → K) (c : Nat → Call K) : Nat → Call K :=
  fun s => precond q (ker s) (exchange T (fun t => precondSend q (ker t) (c t)) s (rb s)) (c s)

/-- Lines 324-325 of `project` on all ranks: for `'T'` every rank runs
`precond(in, _dual)` and receives what its neighbours send. `rb` is the
content of the receive buffers before the exchange. -/
def beforeAll (T : Topology) (trans : Char) (q : FetiPrcndtnr) (ker : Nat → LocalKernels K)
    (rb : Nat → Nat → K) (c : Nat → Call K) : Nat → Call K :=
  fun s => projBefore trans q (ker s)
    (exchange T (fun t => precondSend q (ker t) ⟨(c t).F, (c t).inp, some (c t).F.dual⟩) s (rb s))
    (c s)

/-- Lines 326-345 of `project` on all ranks. `callSolver` is collective:
`solver u` is what it leaves in `_uc` on every rank when rank `t` hands in
`u t`; `loc t` is the local coarse size of rank `t`. -/
def solveAll (solver : (Nat → Nat → K) → Nat → Nat → K) (loc : Nat → Nat) (trans : Char)
    (c : Nat → Call K) : Nat → Feti K :=
  fun s => coarseStep
    (fun _ => solver (fun t => ucInput (loc t) (projArg trans (c t)) (c t).F) s)
    (loc s) (projArg trans (c s)) (c s).F

/-- Line 346 of `project` on all ranks: the unscaled expand of `_primal`
into `_dual`. -/
def jumpAll (T : Topology) (rb : Nat → Nat → K) (F : Nat → Feti K) : Nat → Feti K :=
  fun s => projJump
    (exchange T (fun t => (A_N_send (F t).S (F t).m false ⟨(F t).primal, (F t).dual⟩).dual)
      s (rb s))
    (F s)

/-- Lines 347-348 of `project` on all ranks: for `'N'` every rank runs
`precond(_dual)`. -/
def afterAll (T : Topology) (trans : Char) (q : FetiPrcndtnr) (ker : Nat → LocalKernels K)
    (rb : Nat → Nat → K) (F : Nat → Feti K) : Nat → Feti K :=
  fun s => projAfter trans q (ker s)
    (exchange T (fun t => precondSend q (ker t) ⟨F t, (F t).dual, none⟩) s (rb s))
    (F s)

/-- Lines 324-348 of `project<false, trans>` on all ranks: the solver
objects before the combination with `in`; their `_dual` is the result
vector. -/
def projectObjects (T : Topology) (trans : Char) (q : FetiPrcndtnr)
    (ker : Nat → LocalKernels K) (solver : (Nat → Nat → K) → Nat → Nat → K) (loc : Nat → Nat)
    (rb : Nat → Nat → K) (c : Nat → Call K) : Nat → Feti K :=
  afterAll T trans q ker rb
    (jumpAll T rb (solveAll solver loc trans (beforeAll T trans q ker rb c)))

/-- `project<false, trans>` called on all subdomain-owning ranks of a
solver with a coarse operator: rank `s` runs the call `c s`; the neighbour
exchanges and the coarse solve tie the ranks together. -/
def projectAll (T : Topology) (trans : Char) (q : FetiPrcndtnr) (ker : Nat → LocalKernels K)
    (solver : (Nat → Nat → K) → Nat → Nat → K) (loc : Nat → Nat) (rb : Nat → Nat → K)
    (c : Nat → Call K) : Nat → Call K :=
  fun s => projCombine (beforeAll T trans q ker rb c s)
    (projectObjects T trans q ker solver loc rb c s)

/-- The coarse Gram operator `G Q G^T` of the solver objects `F`: for coarse
vectors `v`, multiply by the basis (`coarseStep` after a solve that returned
`v`), expand, apply the preconditioner (lines 341-348 of `project<false, 'N'>`),
then reduce and multiply by the transposed basis (`ucInput`). -/
def coarseGram (T : Topology) (q : FetiPrcndtnr) (ker : Nat → LocalKernels K)
    (loc : Nat → Nat) (rb : Nat → Nat → K) (F : Nat → Feti K) (v : Nat → Nat → K) :
    Nat → Nat → K :=
  fun s => ucInput (loc s)
    (afterAll T 'N' q ker rb
      (jumpAll T rb (fun t => coarseStep (fun _ => v t) (loc t) (F t).dual (F t))) s).dual
    (F s)

end Operators

/-- Two buffers hold the same values in their first `n` entries. -/
def Agree {K : Type} (n : Nat) (f g : Nat → K) : Prop := ∀ k, k < n → f k = g k

/-- Two solver objects differ in their scratch vectors and counters only. -/
def SameData {K : Type} (F G : Feti K) : Prop :=
  F.S = G.S ∧ F.m = G.m ∧ F.ev = G.ev ∧ F.schur = G.schur ∧ F.bi_m = G.bi_m ∧ F.a_n = G.a_n

/-- Both sides of every neighbour pair hold the same values in their blocks
of the multiplier `lam`. -/
def Consistent {K : Type} (T : Topology) (lam : Nat → Nat → K) : Prop :=
  ∀ s, s < T.n → ∀ i, i < (T.sub s).nbs → ∀ j, j < (T.sub s).size i →
    lam s ((T.sub s).off i + j)
      = lam ((T.sub s).rank i) ((T.sub ((T.sub s).rank i)).off (T.peer s i) + j)

instance {K : Type} [DecidableEq K] (T : Topology) (lam : Nat → Nat → K) :
    Decidable (Consistent T lam) := by
  unfold Consistent; infer_instance

/-! ## The all-reduce of `computeDot` on every rank -/

section DotRanks

variable {K : Type} [Field K]

/-- `MPI_Allreduce(MPI_IN_PLACE, val, 1, ..., MPI_SUM, comm)` on a
communicator of `size` ranks (semantics of MPI): every rank of the
communicator ends with the sum of the values `val q` of all its ranks. -/
def allreduceSum (size : Nat) (val : Nat → K) : Nat → K :=
  fun r => if r < size then ∑ q in Finset.range size, val q else val r

/-- `Feti::computeDot<excluded>(val, a, b, comm)`, lines 446-453, seen from
every rank: `computeDotOn T extra a b r` is `*val` on rank `r` after the call.
Ranks below `T.n` own a subdomain and run `computeDot<false>`, the `extra`
ranks after them run `computeDot<true>`. -/
def computeDotOn (T : Topology) (extra : Nat) (a b : Nat → Nat → K) : Nat → K :=
  allreduceSum (T.n + extra)
    (fun r => computeDotLocal (decide (T.n ≤ r)) (T.sub r).mult (a r) (b r))

end DotRanks

/-! ## Coarse operator assembly and adaptive coarse space -/

/-- The two projection builders named in `buildTwo`. -/
inductive ProjectionBuilder where
  | FetiProjection
  | FetiProjectionSimple
deriving DecidableEq, Repr

section Coarse

variable {K : Type} [CommRing K]

/-- `Feti::buildTwo<excluded>(comm, parm)`, lines 373-389, as compiled: the
lines between `#if 0` and `#endif` (the test on `P` and the branch that
builds a `FetiProjectionSimple`) are removed by the preprocessor. `P` is the
preconditioner variant of the class, `nu` is `parm[NU]`, and
`superBuildTwo b nu F` is what `super::buildTwo<excluded, 3>(s, comm, parm)`
returns for a builder `s` of kind `b` constructed from `(*this, parm[NU])`. -/
def buildTwo {R : Type} (_P : FetiPrcndtnr)
    (superBuildTwo : ProjectionBuilder → Nat → Feti K → R) (nu : Nat) (F : Feti K) : R :=
  let F1 : Feti K := if !F.schur && nu != 0 then { F with deficiency := nu } else F
  superBuildTwo ProjectionBuilder.FetiProjection nu F1

/-- Lines 470-472 of `solveGEVP`: `pt[_map[i].second[j]] = _m[i][j]`, where
`pt` is `_primal`. -/
def packWeights (F : Feti K) : Nat → K :=
  loop (fun i p => loop (fun j r => Function.update r (F.S.idx i j) (F.m (F.S.off i + j)))
    (F.S.size i) p) F.S.nbs F.primal

/-- `Feti::solveGEVP<L>(nu, threshold)`, lines 467-480; the result is the
object and the value left in `nu`. `gevp pt nu thr F` is the object that
`super::solveGEVP<L>(pt, nu, thr)` (the eigen-solver of `Schur`, not part of
`FETI.hpp`) leaves behind. -/
def solveGEVP (gevp : (Nat → K) → Nat → K → Feti K → Feti K) (nu : Nat) (_threshold : K)
    (F : Feti K) : Feti K × Nat :=
  let pt := packWeights F
  let F1 := gevp pt nu (-1) { F with primal := pt }
  let nu1 := F1.deficiency
  if nu1 = 0 ∧ F1.ev.isSome then ({ F1 with ev := none }, nu1) else (F1, nu1)

end Coarse

/-! ## Allocation of the multipliers -/

/-- Lines 193-194 of `allocateSingle`:
`mult[i] = mult[i - 1] + _map[i - 1].second.size()` for `1 ≤ i < _map.size()`.
A pointer into the storage is the address it holds. -/
def blockPointers (S : Subdomain) (tbl : Nat → Nat) : Nat → Nat :=
  forRange 1 S.nbs (fun i t => Function.update t i (t (i - 1) + S.size (i - 1))) tbl

/-- `Feti::allocateSingle(mult)`, lines 190-195: `base` is the address
returned by `new K[_mult]` and `tbl` the fresh pointer array `new K*[...]`;
the result is the pointer array `mult`. -/
def allocateSingle (S : Subdomain) (base : Nat) (tbl : Nat → Nat) : Nat → Nat :=
  blockPointers S (Function.update tbl 0 base)

/-- The pointers set by `Feti::initialize`: `_primal` and the pointer array
behind `_dual` and `_m`. For a real scalar type `allocate` makes `_m` the
second half of the array of `2 * _map.size()` pointers behind `_dual`, so
that `_dual[i]` is entry `i` and `_m[i]` entry `_map.size() + i`. -/
structure Pointers where
  primal : Nat
  tbl : Nat → Nat

namespace Pointers

/-- The pointer `_dual[i]`. -/
def dual (P : Pointers) (i : Nat) : Nat := P.tbl i

/-- The pointer `_m[i]`, for `n = _map.size()`. -/
def m (P : Pointers) (n i : Nat) : Nat := P.tbl (n + i)

end Pointers

/-- `Feti::initialize()`, lines 116-126, after the call of the parent's
`initialize<true>()`: `struct` and `work` are the addresses
`super::_structure` and `super::_work`, `mBase` the address returned by
`new ul_type[_mult]`, `bi_m` is `_bi->_m` and `tbl` the fresh pointer array. -/
def initializeFeti (S : Subdomain) (struct work mBase bi_m : Nat) (tbl : Nat → Nat) :
    Pointers :=
  let t0 := Function.update (Function.update tbl 0 work) (S.nbs + 0) mBase
  { primal := struct + bi_m,
    tbl := forRange 1 S.nbs (fun i t =>
      let t1 := Function.update t i (t (i - 1) + S.size (i - 1))
      Function.update t1 (S.nbs + i) (t1 (S.nbs + (i - 1)) + S.size (i - 1))) t0 }

/-- The two levels of pointers set by `allocateArray`: `arr i` is `array[i]`
as an index into the array of `N * _map.size()` pointers `*array`, and `tbl`
is that array of pointers into the storage. -/
structure ArrayPointers where
  arr : Nat → Nat
  tbl : Nat → Nat

/-- The pointer `array[i][j]`. -/
def ArrayPointers.ptr (A : ArrayPointers) (i j : Nat) : Nat := A.tbl (A.arr i + j)

/-- Lines 210-213 of `allocateArray`, the body of the loop over `i`:
`array[i] = *array + i * _map.size()`, `*array[i] = **array + i * _mult`, and
the pointers of the blocks `1, ..., _map.size() - 1` of vector `i`. -/
def allocateRow (S : Subdomain) (i : Nat) (A : ArrayPointers) : ArrayPointers :=
  let A1 : ArrayPointers := { A with arr := Function.update A.arr i (A.arr 0 + i * S.nbs) }
  let A2 : ArrayPointers :=
    { A1 with tbl := Function.update A1.tbl (A1.arr i) (A1.tbl (A1.arr 0) + i * S.mult) }
  forRange 1 S.nbs (fun j B =>
    let p := B.tbl (B.arr i + (j - 1)) + S.size (j - 1)
    { B with tbl := Function.update B.tbl (B.arr i + j) p }) A2

/-- `Feti::allocateArray<N>(array)`, lines 205-215: `base` is the address
returned by `new K[N * _mult]`; `arr` and `tbl` are the previous contents of
`array` and of the fresh pointer array, whose address `*array` is index `0`. -/
def allocateArray (S : Subdomain) (N base : Nat) (arr tbl : Nat → Nat) : ArrayPointers :=
  let a0 : ArrayPointers := { arr := Function.update arr 0 0, tbl := tbl }
  let a1 : ArrayPointers := { a0 with tbl := Function.update a0.tbl (a0.arr 0) base }
  forRange 0 N (fun i A => allocateRow S i A) a1

/-! ## Sparse matrices (`matrix.hpp`) -/

/-- The fields of `MatrixCSR<K>` (`matrix.hpp`, lines 43-65). The arrays `_a`,
`_ia`, `_ja` are given by their contents; `iaAt` and `jaAt` are the addresses
held by the pointers `_ia` and `_ja`, which `sameSparsity` compares. -/
structure MatrixCSR (K : Type) where
  free : Bool
  a : Nat → K
  ia : Nat → Nat
  ja : Nat → Nat
  iaAt : Nat
  jaAt : Nat
  n : Nat
  m : Nat
  nnz : Nat
  sym : Bool

/-- The local variables of the comparison loops of `sameSparsity`: the cursor
`k` into the pattern of the calling object, the fresh array `a`, the flag
`same`. -/
structure SparsityState (K : Type) where
  k : Nat
  a : Nat → K
  same : Bool

section Sparsity

variable {K : Type} [LinearOrderedRing K]

/-- Lines 92-93, `while(k < _ia[i + 1] && _ja[k] < A->_ja[j]) a[k++] = K();`
with `hi = _ia[i + 1]` and `col = A->_ja[j]`. Every pass increases `k`, so
`hi - k` passes are enough; the first argument counts the passes left. -/
def skipLoop (ja : Nat → Nat) (hi col : Nat) : Nat → Nat × (Nat → K) → Nat × (Nat → K)
  | 0, s => s
  | fuel + 1, s =>
    if s.1 < hi ∧ ja s.1 < col then
      skipLoop ja hi col fuel (s.1 + 1, Function.update s.2 s.1 0)
    else s

/-- Lines 92-99, the body of the loop over the entries `j` of row `i` of `A`:
the `while` loop, then the comparison of `_ja[k]` with `A->_ja[j]`. -/
def entryStep (eps : K) (self A : MatrixCSR K) (i j : Nat) (st : SparsityState K) :
    SparsityState K :=
  let w := skipLoop self.ja (self.ia (i + 1)) (A.ja j) (self.ia (i + 1) - st.k) (st.k, st.a)
  if self.ja w.1 ≠ A.ja j then
    if |A.a j| > eps then { k := w.1, a := w.2, same := false }
    else { k := w.1, a := w.2, same := st.same }
  else { k := w.1 + 1, a := Function.update w.2 w.1 (A.a j), same := st.same }

/-- Lines 90-101, one pass of `for(int i = 0; i < _n && same; ++i)`: the loop
stops at the first `i` reached with `same` false, so a pass with `same` false
does nothing; otherwise the loop over `j` runs from `A->_ia[i]` with
`k = _ia[i]`. -/
def rowStep (eps : K) (self A : MatrixCSR K) (i : Nat) (st : SparsityState K) :
    SparsityState K :=
  if st.same then
    forRange (A.ia i) (A.ia (i + 1)) (entryStep eps self A i)
      { k := self.ia i, a := st.a, same := st.same }
  else st

/-- `MatrixCSR::sameSparsity(A)`, lines 83-119, called on `self`: the returned
flag and the matrix `A` after the call. `eps` is `HPDDM_EPS` and `a0` the
content of the array returned by `new K[_nnz]`. -/
def sameSparsity (eps : K) (self A : MatrixCSR K) (a0 : Nat → K) : Bool × MatrixCSR K :=
  if A.sym = self.sym ∧ self.nnz ≤ A.nnz then
    if A.iaAt = self.iaAt ∧ A.jaAt = self.jaAt then (true, A)
    else
      let r := loop (rowStep eps self A) self.n { k := 0, a := a0, same := true }
      if r.same then
        (true, { A with nnz := self.nnz, a := r.a, ia := self.ia, ja := self.ja,
                        iaAt := self.iaAt, jaAt := self.jaAt, free := false })
      else (false, A)
  else (false, A)

end Sparsity

/-- Well-formed 0-based CSR storage: the row pointers start at `0`, end at
`nnz` and do not decrease; the column indices are below `m` and strictly
increasing in every row. -/
def MatrixCSR.WellFormed {K : Type} (A : MatrixCSR K) : Prop :=
  A.ia 0 = 0 ∧ A.ia A.n = A.nnz ∧ (∀ i, i < A.n → A.ia i ≤ A.ia (i + 1)) ∧
  ∀ i, i < A.n → ∀ j, j < A.ia (i + 1) → A.ia i ≤ j →
    A.ja j < A.m ∧ (A.ia i < j → A.ja (j - 1) < A.ja j)

instance {K : Type} (A : MatrixCSR K) : Decidable A.WellFormed := by
  unfold MatrixCSR.WellFormed
  infer_instance

/-- The matrix stores an entry at row `i`, column `c`. -/
def MatrixCSR.Stores {K : Type} (A : MatrixCSR K) (i c : Nat) : Prop :=
  ∃ j, j < A.ia (i + 1) ∧ A.ia i ≤ j ∧ A.ja j = c

instance {K : Type} (A : MatrixCSR K) (i c : Nat) : Decidable (A.Stores i c) := by
  unfold MatrixCSR.Stores
  infer_instance

/-! ## The operator, the initialisation and the recovery of the solution -/

section Solves

variable {K : Type} [CommRing K]

/-- The vector `_structure` of a solver object: `_bi->_m` interior entries
followed by `_primal`. -/
def structureVec (F : Feti K) : Nat → K :=
  fun d => if d < F.bi_m then F.interior d else F.primal (d - F.bi_m)

/-- The in-place solve `super::_p.solve(super::_structure)`. `psolve` is the
action of the local solver `_p` (`MklPardisoSub::solve`, the solve phase of
PARDISO on the factorised local matrix); its result overwrites `_structure`,
that is the interior entries and `_primal`. -/
def solveStructure (psolve : (Nat → K) → Nat → K) (F : Feti K) : Feti K :=
  let v := psolve (structureVec F)
  { F with interior := fun d => if d < F.bi_m then v d else F.interior d,
           primal := fun d => v (F.bi_m + d) }

/-- Lines 253-255 of `apply`, which `start` and `computeSolution` repeat:
`A<'T', 0>(_primal, in)`, the zero fill of the interior entries of
`_structure`, and the in-place local solve. -/
def reduceSolve (psolve : (Nat → K) → Nat → K) (F : Feti K) (inp : Nat → K) : Feti K :=
  let a := A_T F.S F.m false ⟨F.primal, inp⟩
  solveStructure psolve { F with primal := a.primal, interior := fill F.interior F.bi_m 0 }

/-- `Feti::apply(in, out)`, lines 252-257. `psolve` is the action of the
local solver and `rbuff` what the expand receives from the neighbours. -/
def apply (psolve : (Nat → K) → Nat → K) (rbuff : Nat → K) (c : Call K) : Call K :=
  let a := A_T c.F.S c.F.m false ⟨c.F.primal, c.inp⟩
  let F2 := reduceSolve psolve c.F c.inp
  match c.out with
  | some o =>
    let b := A_N c.F.S c.F.m false rbuff ⟨F2.primal, o⟩
    { F := { F2 with primal := b.primal }, inp := a.dual, out := some b.dual }
  | none =>
    let b := A_N c.F.S c.F.m false rbuff ⟨F2.primal, a.dual⟩
    { F := { F2 with primal := b.primal }, inp := b.dual, out := none }

/-- The content of the target multiplier of `apply` when its expand posts the
sends (line 256, the loops of `A<'N', 0>`). -/
def applySend (psolve : (Nat → K) → Nat → K) (c : Call K) : Nat → K :=
  let a := A_T c.F.S c.F.m false ⟨c.F.primal, c.inp⟩
  (A_N_send c.F.S c.F.m false ⟨(reduceSolve psolve c.F c.inp).primal, c.out.getD a.dual⟩).dual

/-- `apply` called on all ranks: rank `s` runs the call `c s` with the local
solver `psolve s` and receives what its neighbours send. -/
def applyAll (T : Topology) (psolve : Nat → (Nat → K) → Nat → K) (rb : Nat → Nat → K)
    (c : Nat → Call K) : Nat → Call K :=
  fun s => apply (psolve s) (exchange T (fun t => applySend (psolve t) (c t)) s (rb s)) (c s)

end Solves

/-- What a call of `start` or `computeSolution` takes from outside
`FETI.hpp`: the local kernels of the preconditioner, the local solvers `_p`
(`psolve`, both the in-place and the two-argument `solve` run the same solve
phase) and `_s` (`ssolve`), the product `Wrapper<K>::csrmv` with the block
`_bi` (transposition flag, sizes, coefficients and symmetry flag as passed,
then `x`, `beta`, `y`), `Schur::condensateEffort(f, nullptr)` as a change of
the object, what `callSolver` leaves in `_uc` for the call made by the
function itself (`callSolver`) and for the one made inside `project`
(`callSolverP`), and what the expands of the call receive: `rbuff n` for the
`n`-th call site in source order, the calls inside `project` last. -/
structure Env (K : Type) where
  ker : LocalKernels K
  psolve : (Nat → K) → Nat → K
  ssolve : (Nat → K) → Nat → K
  csrmv : Char → Nat → Nat → K → Bool → (Nat → K) → K → (Nat → K) → Nat → K
  condensateEffort : (Nat → K) → Feti K → Feti K
  callSolver : (Nat → K) → Nat → K
  callSolverP : (Nat → K) → Nat → K
  rbuff : Nat → Nat → K

/-- The solver object together with the vectors `x`, `l`, `r` that `start`
and `computeSolution` are called on. -/
structure Iterate (K : Type) where
  F : Feti K
  x : Nat → K
  l : Nat → K
  r : Nat → K

section StartAndRecovery

variable {K : Type} [CommRing K]

/-- `Wrapper<K>::axpby(n, alpha, x, 1, beta, y, 1)`:
`y[k] = alpha * x[k] + beta * y[k]` for `k < n`. -/
def axpby (n : Nat) (alpha : K) (x : Nat → K) (beta : K) (y : Nat → K) : Nat → K :=
  fun k => if k < n then alpha * x k + beta * y k else y k

/-- Lines 143-158 of `start`, reached with a coarse operator of local size
`loc` on a subdomain-owning rank: the coarse correction of `_primal`. -/
def startCorrection (E : Env K) (f : Nat → K) (loc : Nat) (F : Feti K) : Feti K :=
  match F.ev with
  | some ev =>
    if F.schur then
      let G := E.condensateEffort f F
      let uc1 := gemv transb G.S.dof loc d__1 ev G.S.dof G.primal d__0 G.uc
      let uc2 := E.callSolver uc1
      { G with uc := uc2, solves := G.solves + 1,
               primal := gemv transa G.S.dof loc d__1 ev G.S.dof uc2 d__0 G.primal }
    else
      let uc1 := gemv transb F.a_n loc d__1 ev F.a_n f d__0 F.uc
      let uc2 := E.callSolver uc1
      { F with uc := uc2, solves := F.solves + 1,
               primal := gemv transa F.S.dof loc d__1 (fun k => ev (F.bi_m + k)) F.a_n uc2 d__0
                 F.primal }
  | none =>
    { F with uc := E.callSolver F.uc, solves := F.solves + 1,
             primal := fill F.primal F.S.dof 0 }

/-- Lines 141-166 of `start`, the statement `if(super::_co) ...` with a
coarse operator of local size `loc`. -/
def startCoarse (excluded : Bool) (q : FetiPrcndtnr) (E : Env K) (f : Nat → K) (loc : Nat)
    (st : Iterate K) : Iterate K :=
  if !excluded then
    let F1 := startCorrection E f loc st.F
    let b := A_N F1.S F1.m false (E.rbuff 0) ⟨F1.primal, st.l⟩
    let c := precond q E.ker (E.rbuff 1) ⟨{ F1 with primal := b.primal }, b.dual, none⟩
    let a := A_T c.F.S c.F.m false ⟨c.F.primal, c.inp⟩
    { st with F := reduceSolve E.psolve c.F c.inp, l := a.dual }
  else
    { st with F := { st.F with uc := E.callSolver st.F.uc, solves := st.F.solves + 1 } }

/-- Lines 167-181 of `start`: the local solve `x = S \ f`, the residual, and
the projection when there is a coarse operator. -/
def startResidual (excluded : Bool) (q : FetiPrcndtnr) (E : Env K) (f : Nat → K)
    (st : Iterate K) : Iterate K :=
  if !excluded then
    let x1 := E.psolve f
    match st.F.co with
    | none =>
      let b := A_N st.F.S st.F.m false (E.rbuff 2) ⟨fun d => x1 (st.F.bi_m + d), st.r⟩
      { st with x := x1, r := b.dual, l := fill st.l st.F.S.mult 0 }
    | some _ =>
      let pr := axpby st.F.S.dof 1 (fun d => x1 (st.F.bi_m + d)) (-1) st.F.primal
      let b := A_N st.F.S st.F.m false (E.rbuff 2) ⟨pr, st.r⟩
      let c := project excluded 'T' q E.ker E.callSolverP (E.rbuff 3) (E.rbuff 4)
        ⟨{ st.F with primal := b.primal }, b.dual, none⟩
      { st with F := c.F, x := x1, r := c.inp }
  else
    match st.F.co with
    | some _ =>
      let c := project excluded 'T' q E.ker E.callSolverP (E.rbuff 3) (E.rbuff 4)
        ⟨st.F, st.r, none⟩
      { st with F := c.F, r := c.inp }
    | none => st

/-- `Feti::start<excluded>(x, f, l, r)`, lines 139-183. -/
def start (excluded : Bool) (q : FetiPrcndtnr) (E : Env K) (f : Nat → K) (st : Iterate K) :
    Iterate K :=
  match st.F.co with
  | some loc => startResidual excluded q E f (startCoarse excluded q E f loc st)
  | none => startResidual excluded q E f st

/-- Lines 407-428 of `computeSolution`, reached with a coarse operator of
local size `loc`: the coarse correction of `x`. The vector `_work` is the
storage of `*_dual` (`initialize`, line 120). -/
def recoverCoarse (q : FetiPrcndtnr) (E : Env K) (loc : Nat) (st : Iterate K) : Iterate K :=
  let F := st.F
  let b := A_N F.S F.m false (E.rbuff 0) ⟨fun d => st.x (F.bi_m + d), F.dual⟩
  let c := precond q E.ker (E.rbuff 1) ⟨{ F with dual := b.dual }, b.dual, none⟩
  let F1 : Feti K := { c.F with dual := c.inp }
  match F1.ev with
  | none =>
    { st with F := { F1 with uc := E.callSolver F1.uc, solves := F1.solves + 1 } }
  | some ev =>
    let a := A_T F1.S F1.m false ⟨F1.primal, F1.dual⟩
    if F1.schur then
      let uc1 := gemv transb F1.S.dof loc d__1 ev F1.S.dof a.primal d__0 F1.uc
      let uc2 := E.callSolver uc1
      let pr := gemv transa F1.S.dof loc d__1 ev F1.S.dof uc2 d__0 a.primal
      let w := E.ssolve (E.csrmv transb F1.S.dof F1.bi_m d__2 false pr d__0 a.dual)
      let x1 := axpy F1.bi_m d__2 w st.x
      let xb := axpy F1.S.dof d__2 pr (fun d => x1 (F1.bi_m + d))
      { st with F := { F1 with uc := uc2, solves := F1.solves + 1, primal := pr, dual := w },
                x := fun k => if k < F1.bi_m then x1 k else xb (k - F1.bi_m) }
    else
      let uc1 := gemv transb F1.S.dof loc d__1 (fun k => ev (F1.bi_m + k)) F1.a_n a.primal d__0
        F1.uc
      let uc2 := E.callSolver uc1
      { st with F := { F1 with uc := uc2, solves := F1.solves + 1, primal := a.primal,
                               dual := a.dual },
                x := gemv transa F1.a_n loc d__2 ev F1.a_n uc2 d__1 st.x }

/-- The content of `_structure` handed to the local solve on lines 403-404 of
`computeSolution` (and 254-255 of `apply`): the result of
`A<'T', 0>(_primal, l)` behind interior entries filled with zero. -/
def reducedRhs (F : Feti K) (l : Nat → K) : Nat → K :=
  structureVec
    { F with primal := (A_T F.S F.m false ⟨F.primal, l⟩).primal,
             interior := fill F.interior F.bi_m 0 }

/-- `Feti::computeSolution<excluded>(x, l)`, lines 400-433. -/
def computeSolution (excluded : Bool) (q : FetiPrcndtnr) (E : Env K) (st : Iterate K) :
    Iterate K :=
  if !excluded then
    let a := A_T st.F.S st.F.m false ⟨st.F.primal, st.l⟩
    let F2 := reduceSolve E.psolve st.F st.l
    let x1 := axpy F2.a_n d__2 (structureVec F2) st.x
    let st1 : Iterate K := { st with F := F2, l := a.dual, x := x1 }
    match st.F.co with
    | some loc => recoverCoarse q E loc st1
    | none => st1
  else
    match st.F.co with
    | some _ =>
      { st with F := { st.F with uc := E.callSolver st.F.uc, solves := st.F.solves + 1 } }
    | none => st

end StartAndRecovery

/-! ## Concrete data used to exercise the statements -/

/-- A subdomain with three neighbours; unknown `1` is shared with all of them. -/
def exS : Subdomain := ⟨[(0, [0, 1]), (2, [1, 2]), (3, [1])], 3, 1, 5⟩

/-- Scaling weights for `exS`. -/
def exM : Nat → ℤ := fun k => (k : ℤ) + 2

/-- Buffers for `exS`. -/
def exMem : JumpMem ℤ := ⟨fun d => 100 + (d : ℤ), fun k => 10 * (k : ℤ) + 1⟩

/-- Three subdomains in a row: rank `1` shares three unknowns with rank `0`
and one with rank `2`; `_signed` counts the neighbours of lower rank. -/
def exT : Topology where
  n := 3
  sub := fun s => [⟨[(1, [2, 0, 1])], 3, 0, 3⟩,
                   ⟨[(0, [0, 1, 3]), (2, [3])], 4, 1, 4⟩,
                   ⟨[(1, [0])], 1, 1, 1⟩].getD s ⟨[], 0, 0, 0⟩

/-- Scaling weights on the ranks of `exT`. -/
def exW : Nat → Nat → ℤ := fun s k => 2 + 3 * (s : ℤ) + (k : ℤ)

/-- Buffers on the ranks of `exT`. -/
def exSt : Nat → JumpMem ℤ :=
  fun s => ⟨fun d => 10 * ((s : ℤ) + 1) + (d : ℤ), fun k => 7 + (s : ℤ) + (k : ℤ)⟩

/-- Previous content of the receive buffers on the ranks of `exT`. -/
def exRb : Nat → Nat → ℤ := fun s k => (s : ℤ) - (k : ℤ)

/-- A consistent multiplier on `exT`: ranks `0` and `1` hold `1, 2, 3` on
their common interface, ranks `1` and `2` hold `9` on theirs. -/
def exLam : Nat → Nat → ℤ := fun s k => if s = 2 ∨ k = 3 then 9 else (k : ℤ) + 1

/-- The data of `exT` in the rationals. -/
def exWQ : Nat → Nat → ℚ := fun s k => (exW s k : ℚ)

/-- The primal vectors of `exSt` in the rationals. -/
def exUQ : Nat → Nat → ℚ := fun s d => ((exSt s).primal d : ℚ)

/-- The multiplier `exLam` in the rationals. -/
def exLamQ : Nat → Nat → ℚ := fun s k => (exLam s k : ℚ)

/-- Initial buffers of `buildScaling` on `exS`. -/
def exScal : ScalingState ℚ := ⟨fun d => (d : ℚ) + 1, fun _ => 0, fun k => (k : ℚ) + 2, 0⟩

/-- A solver object on `exS` without coarse operator. -/
def exF : Feti ℤ :=
  { S := exS, m := exM, primal := exMem.primal, interior := fun _ => 0, dual := exMem.dual,
    uc := fun k => (k : ℤ), co := none, ev := none, schur := false, bi_m := 2, a_n := 5,
    solves := 0 }

/-- The object `exF` with a coarse operator of local size `0` and no
eigenvectors. -/
def exFco : Feti ℤ := { exF with co := some 0 }

/-- Local kernels that double, triple and negate. -/
def exKer : LocalKernels ℤ := ⟨fun u d => 2 * u d, fun u d => 3 * u d, fun u d => -u d⟩

/-- Solver objects on the ranks of `exT`, without coarse operator. -/
def exFQ : Nat → Feti ℚ := fun s =>
  { S := exT.sub s, m := exWQ s, primal := exUQ s, interior := fun _ => 0, dual := exWQ s,
    uc := fun _ => 0, co := none, ev := none, schur := false, bi_m := 0, a_n := (exT.sub s).dof,
    solves := 0 }

/-- Local kernels on the rationals that double, triple and negate. -/
def exKerQ : LocalKernels ℚ := ⟨fun u d => 2 * u d, fun u d => 3 * u d, fun u d => -u d⟩

/-- A second consistent multiplier on `exT`. -/
def exMu : Nat → Nat → ℤ := fun s k => if s = 2 ∨ k = 3 then -4 else 5 - 2 * (k : ℤ)

/-- The multiplier `exMu` in the rationals. -/
def exMuQ : Nat → Nat → ℚ := fun s k => (exMu s k : ℚ)

/-- Two subdomains sharing one interface of three unknowns: rank `1` is the
owning side (`_signed = 1`), rank `0` the other side (`_signed = 0`). -/
def exT2 : Topology where
  n := 2
  sub := fun s => [⟨[(1, [2, 0, 1])], 3, 0, 3⟩,
                   ⟨[(0, [0, 1, 3])], 4, 1, 3⟩].getD s ⟨[], 0, 0, 0⟩

/-- Local coarse sizes on `exT2`: one coarse unknown on rank `1`. -/
def exLoc : Nat → Nat := fun s => if s = 1 then 1 else 0

/-- Solver objects on `exT2` with unit weights: rank `1` holds one basis
vector, the indicator of its interface unknown `0`; rank `0` holds none. -/
def exF2 : Nat → Feti ℚ := fun s =>
  { S := exT2.sub s, m := fun _ => 1, primal := fun _ => 0, interior := fun _ => 0,
    dual := fun _ => 0, uc := fun _ => 0, co := some (exLoc s),
    ev := if s = 1 then some (fun k => if k = 0 then 1 else 0) else none,
    schur := true, bi_m := 0, a_n := (exT2.sub s).dof, solves := 0 }

/-- The coarse solve that goes with `exF2` and no local preconditioner: the
coarse Gram operator is multiplication by `2`. -/
def exSolver : (Nat → Nat → ℚ) → Nat → Nat → ℚ := fun v s j => v s j / 2

/-- A family of multipliers on `exT2`. -/
def exX : Nat → Nat → ℚ := fun s k => (s : ℚ) + 2 * (k : ℚ) + 1

/-- An eigen-solver that keeps `nu` vectors when `nu` is positive and none
otherwise, and allocates storage either way. -/
def exGevp : (Nat → ℤ) → Nat → ℤ → Feti ℤ → Feti ℤ :=
  fun pt nu _ F => { F with ev := some pt, deficiency := nu }

/-- The 2 x 2 diagonal pattern. -/
def exDiag : MatrixCSR ℤ :=
  { free := false, a := fun _ => 1, ia := fun i => [0, 1, 2].getD i 2,
    ja := fun k => [0, 1].getD k 0, iaAt := 10, jaAt := 20, n := 2, m := 2, nnz := 2,
    sym := false }

/-- The 2 x 2 matrix with rows `(1, 5)` and `(0, 1)`, the `0` not stored. -/
def exUpper : MatrixCSR ℤ :=
  { free := true, a := fun k => [1, 5, 1].getD k 0, ia := fun i => [0, 2, 3].getD i 3,
    ja := fun k => [0, 1, 1].getD k 0, iaAt := 30, jaAt := 40, n := 2, m := 2, nnz := 3,
    sym := false }

/-- The 2 x 3 pattern with columns `0, 1` in row `0` and column `2` in row `1`. -/
def exWide : MatrixCSR ℤ :=
  { free := false, a := fun _ => 1, ia := fun i => [0, 2, 3].getD i 3,
    ja := fun k => [0, 1, 2].getD k 0, iaAt := 10, jaAt := 20, n := 2, m := 3, nnz := 3,
    sym := false }

/-- The 2 x 3 matrix storing `4` at `(0, 0)`, `0` at `(1, 1)` and `6` at `(1, 2)`. -/
def exShort : MatrixCSR ℤ :=
  { free := true, a := fun k => [4, 0, 6].getD k 0, ia := fun i => [0, 1, 3].getD i 3,
    ja := fun k => [0, 1, 2].getD k 0, iaAt := 30, jaAt := 40, n := 2, m := 3, nnz := 3,
    sym := false }

/-- Calls of `apply` on the two ranks of `exT2`: two interior unknowns, the
weights `exW`, scratch vectors that are not zero, and the first unit vector as
the multiplier on both sides. -/
def exApply : Nat → Call ℤ := fun s =>
  { F := { S := exT2.sub s, m := exW s, primal := fun _ => 5, interior := fun _ => 4,
           dual := fun _ => 0, uc := fun _ => 0, co := none, ev := none, schur := false,
           bi_m := 2, a_n := 2 + (exT2.sub s).dof, solves := 0 },
    inp := fun k => if k = 0 then 1 else 0,
    out := none }

/-- A local solve on two interior unknowns followed by the interface: the
interface part of a right-hand side with zero interior part is returned as it
is. -/
def exPsolve : Nat → (Nat → ℤ) → Nat → ℤ :=
  fun _ v x => if x < 2 then 3 * v x + v (x + 2) else v x - v 0

/-- Collaborators over the integers: a local solve that doubles and shifts,
kernels that double, triple and negate, neighbours that send `n + k`. -/
def exEnv : Env ℤ :=
  { ker := exKer, psolve := fun v x => 2 * v x + 1, ssolve := fun v => v,
    csrmv := fun _ _ _ _ _ _ _ y => y, condensateEffort := fun _ F => F,
    callSolver := fun u => u, callSolverP := fun u => u,
    rbuff := fun n k => (n : ℤ) + (k : ℤ) }

/-- The object `exF` with vectors `x`, `l`, `r` that are not zero. -/
def exIt : Iterate ℤ :=
  { F := exF, x := fun k => (k : ℤ) + 3, l := fun k => 2 * (k : ℤ) + 1, r := fun _ => 8 }

/-- The vectors of `exIt` on the object `exFco`, which has a coarse operator
and no eigenvectors. -/
def exItCo : Iterate ℤ := { exIt with F := exFco }

/-- Buffered calls of `project` on the ranks of `exT`: every rank has a
coarse operator of local size `0` and no eigenvectors, the weights `exW`, the
buffers of `exSt` as scratch vectors and the multiplier `exLam`. -/
def exCallsCo : Nat → Call ℤ := fun s =>
  { F := { S := exT.sub s, m := exW s, primal := (exSt s).primal, interior := fun _ => 0,
           dual := (exSt s).dual, uc := fun _ => 0, co := some 0, ev := none, schur := false,
           bi_m := 0, a_n := (exT.sub s).dof, solves := 0 },
    inp := exLam s,
    out := some (fun _ => 0) }

/-! ## Theorems -/

section LoopLemmas

variable {K : Type} [CommRing K]

omit [CommRing K] in
theorem loop_succ_eq {σ : Type} (body : Nat → σ → σ) (n : Nat) (s : σ) :
    loop body (n + 1) s = body n (loop body n s) := rfl

omit [CommRing K] in
theorem loop_zero_eq {σ : Type} (body : Nat → σ → σ) (s : σ) : loop body 0 s = s := rfl

theorem forRange_zero_eq {σ : Type} (n : Nat) (body : Nat → σ → σ) (s : σ) :
    forRange 0 n body s = loop body n s := by
  simp [forRange]

/-- A loop whose body adds `c k` to the primal buffer and keeps the dual
buffer adds the sum of the `c k`. -/
theorem loop_acc (body : Nat → JumpMem K → JumpMem K) (c : Nat → (Nat → K) → Nat → K)
    (h : ∀ k s, (body k s).dual = s.dual ∧
      ∀ d, (body k s).primal d = s.primal d + c k s.dual d) (n : Nat) (s : JumpMem K) :
    (loop body n s).dual = s.dual ∧
      ∀ d, (loop body n s).primal d = s.primal d + ∑ k in Finset.range n, c k s.dual d := by
  induction n with
  | zero => simp [loop]
  | succ n ih =>
    obtain ⟨ihd, ihp⟩ := ih
    obtain ⟨hd, hp⟩ := h n (loop body n s)
    refine ⟨by simp [loop, hd, ihd], fun d => ?_⟩
    simp only [loop, hp, ihp, ihd, Finset.sum_range_succ]
    ring

theorem forRange_acc (lo hi : Nat) (body : Nat → JumpMem K → JumpMem K)
    (c : Nat → (Nat → K) → Nat → K)
    (h : ∀ k s, (body k s).dual = s.dual ∧
      ∀ d, (body k s).primal d = s.primal d + c k s.dual d) (s : JumpMem K) :
    (forRange lo hi body s).dual = s.dual ∧
      ∀ d, (forRange lo hi body s).primal d
        = s.primal d + ∑ k in Finset.range (hi - lo), c (lo + k) s.dual d :=
  loop_acc (fun k => body (lo + k)) (fun k => c (lo + k)) (fun k s => h (lo + k) s) (hi - lo) s

/-- The contribution of entry `(i, j)` of the dual to the unknown `d`. -/
theorem addStep_spec (S : Subdomain) (m : Nat → K) (scale : Bool) (i j : Nat) (s : JumpMem K) :
    (addStep S m scale i j s).dual = s.dual ∧
      ∀ d, (addStep S m scale i j s).primal d = s.primal d +
        (if S.idx i j = d then weight S m scale i j * s.dual (S.off i + j) else 0) := by
  refine ⟨rfl, fun d => ?_⟩
  by_cases hd : S.idx i j = d
  · subst hd
    cases scale <;> simp [addStep, scaled, weight]
  · have hd2 : d ≠ S.idx i j := fun e => hd e.symm
    simp [addStep, Function.update_noteq hd2, hd]

theorem subStep_spec (S : Subdomain) (m : Nat → K) (scale : Bool) (i j : Nat) (s : JumpMem K) :
    (subStep S m scale i j s).dual = s.dual ∧
      ∀ d, (subStep S m scale i j s).primal d = s.primal d +
        (if S.idx i j = d then -(weight S m scale i j * s.dual (S.off i + j)) else 0) := by
  refine ⟨rfl, fun d => ?_⟩
  by_cases hd : S.idx i j = d
  · subst hd
    cases scale <;> simp [subStep, scaled, weight, sub_eq_add_neg]
  · have hd2 : d ≠ S.idx i j := fun e => hd e.symm
    simp [subStep, Function.update_noteq hd2, hd]

/-- The unsigned sum of the dual entries of neighbour `i` attached to `d`. -/
theorem addBlock_spec (S : Subdomain) (m : Nat → K) (scale : Bool) (i : Nat) (s : JumpMem K) :
    (forRange 0 (S.size i) (fun j t => addStep S m scale i j t) s).dual = s.dual ∧
      ∀ d, (forRange 0 (S.size i) (fun j t => addStep S m scale i j t) s).primal d
        = s.primal d + ∑ j in Finset.range (S.size i),
          (if S.idx i j = d then weight S m scale i j * s.dual (S.off i + j) else 0) := by
  have h := forRange_acc 0 (S.size i) (fun j t => addStep S m scale i j t)
    (fun j dual d => if S.idx i j = d then weight S m scale i j * dual (S.off i + j) else 0)
    (fun j t => addStep_spec S m scale i j t) s
  simpa using h

theorem subBlock_spec (S : Subdomain) (m : Nat → K) (scale : Bool) (i : Nat) (s : JumpMem K) :
    (forRange 0 (S.size i) (fun j t => subStep S m scale i j t) s).dual = s.dual ∧
      ∀ d, (forRange 0 (S.size i) (fun j t => subStep S m scale i j t) s).primal d
        = s.primal d + ∑ j in Finset.range (S.size i),
          (if S.idx i j = d then -(weight S m scale i j * s.dual (S.off i + j)) else 0) := by
  have h := forRange_acc 0 (S.size i) (fun j t => subStep S m scale i j t)
    (fun j dual d => if S.idx i j = d then -(weight S m scale i j * dual (S.off i + j)) else 0)
    (fun j t => subStep_spec S m scale i j t) s
  simpa using h

/-- Splitting a signed sum over the neighbours at the threshold `s`. -/
theorem signed_sum_split (f : Nat → K) (s n : Nat) (h0 : ∀ i, n ≤ i → f i = 0) :
    ∑ i in Finset.range s, -f i + ∑ k in Finset.range (n - s), f (s + k)
      = ∑ i in Finset.range n, (if i < s then (-1 : K) else 1) * f i := by
  rcases Nat.le_total s n with hsn | hns
  · obtain ⟨t, rfl⟩ := Nat.exists_eq_add_of_le hsn
    rw [Finset.sum_range_add, Nat.add_sub_cancel_left]
    congr 1
    · exact Finset.sum_congr rfl (fun i hi => by simp [Finset.mem_range.mp hi])
    · exact Finset.sum_congr rfl (fun k _ => by simp)
  · obtain ⟨t, rfl⟩ := Nat.exists_eq_add_of_le hns
    rw [Finset.sum_range_add, Nat.sub_eq_zero_of_le hns]
    have hz : ∑ x in Finset.range t, -f (n + x) = 0 :=
      Finset.sum_eq_zero (fun k _ => by simp [h0 (n + k) (Nat.le_add_right n k)])
    rw [hz]
    simp only [Finset.range_zero, Finset.sum_empty, add_zero]
    exact Finset.sum_congr rfl (fun i hi => by
      have : i < n + t := by have := Finset.mem_range.mp hi; omega
      simp [this])

theorem Subdomain.size_eq_zero (S : Subdomain) (i : Nat) (h : S.nbs ≤ i) : S.size i = 0 := by
  unfold Subdomain.size
  rw [List.getD_eq_default _ _ h]
  rfl

/-- What `A<'T', scale>` leaves in the two buffers. -/
theorem A_T_spec (S : Subdomain) (m : Nat → K) (scale : Bool) (st : JumpMem K) :
    (A_T S m scale st).dual = st.dual ∧
      ∀ d, (A_T S m scale st).primal d
        = fill st.primal S.dof 0 d + reduceSum S m scale st.dual d := by
  have hsub := forRange_acc 0 S.signed
    (fun i s => forRange 0 (S.size i) (fun j t => subStep S m scale i j t) s)
    (fun i dual d => ∑ j in Finset.range (S.size i),
      (if S.idx i j = d then -(weight S m scale i j * dual (S.off i + j)) else 0))
    (fun i s => subBlock_spec S m scale i s)
    { st with primal := fill st.primal S.dof 0 }
  have hadd := forRange_acc S.signed S.nbs
    (fun i s => forRange 0 (S.size i) (fun j t => addStep S m scale i j t) s)
    (fun i dual d => ∑ j in Finset.range (S.size i),
      (if S.idx i j = d then weight S m scale i j * dual (S.off i + j) else 0))
    (fun i s => addBlock_spec S m scale i s)
    (forRange 0 S.signed
      (fun i s => forRange 0 (S.size i) (fun j t => subStep S m scale i j t) s)
      { st with primal := fill st.primal S.dof 0 })
  obtain ⟨hsd, hsp⟩ := hsub
  obtain ⟨had, hap⟩ := hadd
  refine ⟨by simp only [A_T]; rw [had, hsd], fun d => ?_⟩
  simp only [A_T]
  rw [hap, hsp, hsd]
  simp only [Nat.sub_zero, Nat.zero_add]
  have key := signed_sum_split
    (fun i => ∑ j in Finset.range (S.size i),
      (if S.idx i j = d then weight S m scale i j * st.dual (S.off i + j) else 0))
    S.signed S.nbs (fun i hi => by simp [S.size_eq_zero i hi])
  rw [add_assoc]
  congr 1
  simp only [reduceSum, sigma]
  refine Eq.trans ?_ (key.trans ?_)
  · congr 1
    exact Finset.sum_congr rfl (fun i _ => by
      rw [← Finset.sum_neg_distrib]
      exact Finset.sum_congr rfl (fun j _ => by split_ifs <;> simp))
  · exact Finset.sum_congr rfl (fun i _ => by
      rw [Finset.mul_sum]
      exact Finset.sum_congr rfl (fun j _ => by split_ifs <;> ring))

theorem Subdomain.off_mono (S : Subdomain) {a b : Nat} (h : a ≤ b) : S.off a ≤ S.off b := by
  induction b with
  | zero => simp [Nat.le_zero.mp h]
  | succ b ih =>
    rcases Nat.eq_or_lt_of_le h with e | l
    · rw [e]
    · exact le_trans (ih (Nat.lt_succ_iff.mp l)) (by simp [Subdomain.off])

theorem Subdomain.off_add_lt (S : Subdomain) {i j n : Nat} (hi : i < n) (hj : j < S.size i) :
    S.off i + j < S.off n :=
  lt_of_lt_of_le (by simp [Subdomain.off, hj]) (S.off_mono (Nat.succ_le_of_lt hi))

omit [CommRing K] in
/-- A loop writing `val j` at `b + j` for `j < n` into the buffer `buf` of
its state and keeping the part `ctx` of the state. -/
theorem loop_write {σ C : Type} (ctx : σ → C) (buf : σ → Nat → K)
    (body : Nat → σ → σ) (b : Nat) (val : Nat → C → K)
    (h : ∀ j s, ctx (body j s) = ctx s ∧
      buf (body j s) = Function.update (buf s) (b + j) (val j (ctx s))) (n : Nat) (s : σ) :
    ctx (loop body n s) = ctx s ∧
      ∀ x, buf (loop body n s) x
        = if b ≤ x ∧ x < b + n then val (x - b) (ctx s) else buf s x := by
  induction n with
  | zero => exact ⟨rfl, fun x => by rw [if_neg (by omega)]; rfl⟩
  | succ n ih =>
    obtain ⟨ihp, ihd⟩ := ih
    obtain ⟨hp, hd⟩ := h n (loop body n s)
    refine ⟨by simp [loop, hp, ihp], fun x => ?_⟩
    simp only [loop, hd, ihp]
    by_cases hx : x = b + n
    · subst hx
      simp
    · rw [Function.update_noteq hx, ihd]
      by_cases h1 : b ≤ x ∧ x < b + n
      · rw [if_pos h1, if_pos ⟨h1.1, by omega⟩]
      · rw [if_neg h1, if_neg (by omega)]

omit [CommRing K] in
/-- A loop over the neighbours `lo ≤ i < lo + n` whose body writes block `i`. -/
theorem forRange_blocks {σ C : Type} (ctx : σ → C) (buf : σ → Nat → K) (S : Subdomain)
    (body : Nat → σ → σ) (val : Nat → Nat → C → K)
    (h : ∀ i s, ctx (body i s) = ctx s ∧
      ∀ x, buf (body i s) x
        = if S.off i ≤ x ∧ x < S.off i + S.size i then val i (x - S.off i) (ctx s)
          else buf s x)
    (lo n : Nat) (s : σ) :
    ctx (loop (fun k => body (lo + k)) n s) = ctx s ∧
      (∀ i j, lo ≤ i → i < lo + n → j < S.size i →
        buf (loop (fun k => body (lo + k)) n s) (S.off i + j) = val i j (ctx s)) ∧
      (∀ x, x < S.off lo ∨ S.off (lo + n) ≤ x →
        buf (loop (fun k => body (lo + k)) n s) x = buf s x) := by
  induction n with
  | zero =>
    refine ⟨rfl, fun i j h1 h2 _ => absurd h2 (by omega), fun x _ => rfl⟩
  | succ n ih =>
    obtain ⟨ihp, iha, ihb⟩ := ih
    obtain ⟨hp, hd⟩ := h (lo + n) (loop (fun k => body (lo + k)) n s)
    have hoff : S.off (lo + (n + 1)) = S.off (lo + n) + S.size (lo + n) := rfl
    refine ⟨by simp [loop, hp, ihp], fun i j h1 h2 hj => ?_, fun x hx => ?_⟩
    · simp only [loop, hd, ihp]
      rcases Nat.eq_or_lt_of_le (Nat.lt_succ_iff.mp (by omega : i < lo + n + 1)) with e | l
      · subst e
        rw [if_pos ⟨by omega, by omega⟩]
        congr 1
        omega
      · have hlt : S.off i + j < S.off (lo + n) := S.off_add_lt l hj
        rw [if_neg (by omega)]
        exact iha i j h1 l hj
    · simp only [loop, hd]
      have hlo : S.off lo ≤ S.off (lo + n) := S.off_mono (Nat.le_add_right lo n)
      rw [if_neg (by omega)]
      exact ihb x (by omega)

theorem Subdomain.off_of_le (S : Subdomain) {i : Nat} (h : S.nbs ≤ i) : S.off i = S.off S.nbs := by
  induction i with
  | zero => simp [Nat.le_zero.mp h]
  | succ i ih =>
    rcases Nat.eq_or_lt_of_le h with e | l
    · rw [e]
    · have hi : S.nbs ≤ i := Nat.lt_succ_iff.mp l
      simp [Subdomain.off, S.size_eq_zero i hi, ih hi]

theorem scaled_eq (S : Subdomain) (m : Nat → K) (scale : Bool) (i j : Nat) (v : K) :
    scaled S m scale i j v = weight S m scale i j * v := by
  cases scale <;> simp [scaled, weight]

theorem negBlock_spec (S : Subdomain) (m : Nat → K) (scale : Bool) (i : Nat) (s : JumpMem K) :
    (forRange 0 (S.size i) (fun j t => negStep S m scale i j t) s).primal = s.primal ∧
      ∀ x, (forRange 0 (S.size i) (fun j t => negStep S m scale i j t) s).dual x
        = if S.off i ≤ x ∧ x < S.off i + S.size i
          then -(weight S m scale i (x - S.off i) * s.primal (S.idx i (x - S.off i)))
          else s.dual x := by
  rw [forRange_zero_eq]
  exact loop_write JumpMem.primal JumpMem.dual (fun j t => negStep S m scale i j t) (S.off i)
    (fun j p => -(weight S m scale i j * p (S.idx i j)))
    (fun j t => ⟨rfl, by simp [negStep, scaled_eq]⟩) (S.size i) s

theorem posBlock_spec (S : Subdomain) (m : Nat → K) (scale : Bool) (i : Nat) (s : JumpMem K) :
    (forRange 0 (S.size i) (fun j t => posStep S m scale i j t) s).primal = s.primal ∧
      ∀ x, (forRange 0 (S.size i) (fun j t => posStep S m scale i j t) s).dual x
        = if S.off i ≤ x ∧ x < S.off i + S.size i
          then weight S m scale i (x - S.off i) * s.primal (S.idx i (x - S.off i))
          else s.dual x := by
  rw [forRange_zero_eq]
  exact loop_write JumpMem.primal JumpMem.dual (fun j t => posStep S m scale i j t) (S.off i)
    (fun j p => weight S m scale i j * p (S.idx i j))
    (fun j t => ⟨rfl, by simp [posStep, scaled_eq]⟩) (S.size i) s

/-- What the two loops of `A<'N', scale>` leave in the buffers. -/
theorem A_N_send_spec (S : Subdomain) (m : Nat → K) (scale : Bool) (st : JumpMem K) :
    (A_N_send S m scale st).primal = st.primal ∧
      (∀ i j, i < S.nbs → j < S.size i → (A_N_send S m scale st).dual (S.off i + j)
        = sigma S i * weight S m scale i j * st.primal (S.idx i j)) ∧
      (∀ x, S.total ≤ x → (A_N_send S m scale st).dual x = st.dual x) := by
  have hneg := forRange_blocks JumpMem.primal JumpMem.dual S
    (fun i s => forRange 0 (S.size i) (fun j t => negStep S m scale i j t) s)
    (fun i j p => -(weight S m scale i j * p (S.idx i j)))
    (fun i s => negBlock_spec S m scale i s) 0 (S.signed - 0) st
  have hpos := forRange_blocks JumpMem.primal JumpMem.dual S
    (fun i s => forRange 0 (S.size i) (fun j t => posStep S m scale i j t) s)
    (fun i j p => weight S m scale i j * p (S.idx i j))
    (fun i s => posBlock_spec S m scale i s) S.signed (S.nbs - S.signed)
    (forRange 0 S.signed
      (fun i s => forRange 0 (S.size i) (fun j t => negStep S m scale i j t) s) st)
  obtain ⟨np, na, nb⟩ := hneg
  obtain ⟨pp, pa, pb⟩ := hpos
  have np2 : (forRange 0 S.signed
      (fun i s => forRange 0 (S.size i) (fun j t => negStep S m scale i j t) s) st).primal
      = st.primal := np
  refine ⟨?_, fun i j hi hj => ?_, fun x hx => ?_⟩
  · exact pp.trans np2
  · by_cases hlt : i < S.signed
    · refine (pb _ (Or.inl (S.off_add_lt hlt hj))).trans ?_
      have := na i j (Nat.zero_le i) (by omega) hj
      simp only [sigma, if_pos hlt]
      rw [neg_one_mul, neg_mul]
      exact this
    · refine (pa i j (by omega) (by omega) hj).trans ?_
      rw [np2]
      simp [sigma, hlt]
  · have hx2 : S.off S.nbs ≤ x := hx
    rcases Nat.le_total S.signed S.nbs with hsn | hns
    · refine (pb x (Or.inr (by rw [Nat.add_sub_cancel' hsn]; exact hx2))).trans ?_
      exact nb x (Or.inr (le_trans (S.off_mono (by omega)) hx2))
    · refine (pb x (Or.inr (by
        rw [Nat.sub_eq_zero_of_le hns, Nat.add_zero, S.off_of_le hns]; exact hx2))).trans ?_
      exact nb x (Or.inr (by
        rw [Nat.zero_add, Nat.sub_zero, S.off_of_le hns]; exact hx2))

omit [CommRing K] in
/-- What the exchange leaves in the receive buffer. -/
theorem exchange_spec (T : Topology) (send : Nat → Nat → K) (s : Nat) (rbuff : Nat → K)
    (i j : Nat) (hi : i < (T.sub s).nbs) (hj : j < (T.sub s).size i) :
    exchange T send s rbuff ((T.sub s).off i + j)
      = send ((T.sub s).rank i) ((T.sub ((T.sub s).rank i)).off (T.peer s i) + j) := by
  have hin : ∀ (i : Nat) (r : Nat → K),
      (fun _ : Nat → K => ()) (loop (fun j q => Function.update q ((T.sub s).off i + j)
        (send ((T.sub s).rank i) ((T.sub ((T.sub s).rank i)).off (T.peer s i) + j)))
        ((T.sub s).size i) r) = () ∧
      ∀ x, id (loop (fun j q => Function.update q ((T.sub s).off i + j)
        (send ((T.sub s).rank i) ((T.sub ((T.sub s).rank i)).off (T.peer s i) + j)))
        ((T.sub s).size i) r) x
        = if (T.sub s).off i ≤ x ∧ x < (T.sub s).off i + (T.sub s).size i
          then (fun i j (_ : Unit) => send ((T.sub s).rank i)
            ((T.sub ((T.sub s).rank i)).off (T.peer s i) + j)) i (x - (T.sub s).off i) ()
          else id r x :=
    fun i r => loop_write (fun _ : Nat → K => ()) id _ ((T.sub s).off i)
      (fun j _ => send ((T.sub s).rank i) ((T.sub ((T.sub s).rank i)).off (T.peer s i) + j))
      (fun j q => ⟨rfl, rfl⟩) ((T.sub s).size i) r
  have h := forRange_blocks (fun _ : Nat → K => ()) id (T.sub s)
    (fun i r => loop (fun j q => Function.update q ((T.sub s).off i + j)
      (send ((T.sub s).rank i) ((T.sub ((T.sub s).rank i)).off (T.peer s i) + j)))
      ((T.sub s).size i) r)
    (fun i j _ => send ((T.sub s).rank i) ((T.sub ((T.sub s).rank i)).off (T.peer s i) + j))
    hin 0 (T.sub s).nbs rbuff
  have h2 := h.2.1 i j (Nat.zero_le i) (by omega) hj
  simp only [Nat.zero_add, id] at h2
  exact h2

/-- What `A<'N', scale>` leaves in the buffers when `_mult` covers the blocks. -/
theorem A_N_spec (S : Subdomain) (m : Nat → K) (scale : Bool) (rbuff : Nat → K)
    (st : JumpMem K) (hm : S.mult = S.total) :
    (A_N S m scale rbuff st).primal = st.primal ∧
      (∀ i j, i < S.nbs → j < S.size i → (A_N S m scale rbuff st).dual (S.off i + j)
        = sigma S i * weight S m scale i j * st.primal (S.idx i j) + rbuff (S.off i + j)) ∧
      (∀ x, S.total ≤ x → (A_N S m scale rbuff st).dual x = st.dual x) := by
  obtain ⟨hp, ha, hb⟩ := A_N_send_spec S m scale st
  refine ⟨hp, fun i j hi hj => ?_, fun x hx => ?_⟩
  · have hlt : S.off i + j < S.mult := by rw [hm]; exact S.off_add_lt hi hj
    simp only [A_N, axpy, if_pos hlt, ha i j hi hj, d__1, one_mul]
  · have hnl : ¬ x < S.mult := by rw [hm]; omega
    simp only [A_N, axpy, if_neg hnl, hb x hx]

/-- Entry `j` of block `i` on rank `s` after the collective expand: the
contributions of the two sides of the interface. -/
theorem expandAll_entry (T : Topology) (m : Nat → Nat → K) (scale : Bool)
    (rb : Nat → Nat → K) (st : Nat → JumpMem K) (hT : T.Matched) (hS : T.Sized)
    (s : Nat) (hs : s < T.n) (i : Nat) (hi : i < (T.sub s).nbs)
    (j : Nat) (hj : j < (T.sub s).size i) :
    (expandAll T m scale rb st s).dual ((T.sub s).off i + j)
      = sigma (T.sub s) i * weight (T.sub s) (m s) scale i j
            * (st s).primal ((T.sub s).idx i j)
        + sigma (T.sub ((T.sub s).rank i)) (T.peer s i)
          * weight (T.sub ((T.sub s).rank i)) (m ((T.sub s).rank i)) scale (T.peer s i) j
          * (st ((T.sub s).rank i)).primal
              ((T.sub ((T.sub s).rank i)).idx (T.peer s i) j) := by
  obtain ⟨_, hpn, _, _, hsz⟩ := hT s hs i hi
  rw [expandAll, (A_N_spec (T.sub s) (m s) scale _ (st s) (hS s hs)).2.1 i j hi hj,
    exchange_spec T _ s (rb s) i j hi hj]
  congr 1
  exact (A_N_send_spec _ _ scale _).2.1 (T.peer s i) j hpn (by rw [hsz]; exact hj)

/-- Reduce at an unknown that a single entry `(i, j)` of the map refers to. -/
theorem A_T_single (S : Subdomain) (m : Nat → K) (scale : Bool) (st : JumpMem K)
    (i j : Nat) (hi : i < S.nbs) (hj : j < S.size i) (hd : S.idx i j < S.dof)
    (huniq : ∀ a b, a < S.nbs → b < S.size a → S.idx a b = S.idx i j → a = i ∧ b = j) :
    (A_T S m scale st).primal (S.idx i j)
      = sigma S i * weight S m scale i j * st.dual (S.off i + j) := by
  rw [(A_T_spec S m scale st).2, reduceSum]
  simp only [fill, if_pos hd, zero_add]
  rw [Finset.sum_eq_single i, Finset.sum_eq_single j]
  · simp
  · intro b hb hne
    rw [if_neg]
    exact fun e => hne (huniq i b hi (Finset.mem_range.mp hb) e).2
  · intro h
    exact absurd (Finset.mem_range.mpr hj) h
  · intro a ha hne
    refine Finset.sum_eq_zero (fun b hb => ?_)
    rw [if_neg]
    exact fun e => hne (huniq a b (Finset.mem_range.mp ha) (Finset.mem_range.mp hb) e).1
  · intro h
    exact absurd (Finset.mem_range.mpr hi) h

/-- The accessors of a subdomain with a single neighbour. -/
theorem Subdomain.single (S : Subdomain) (r : Nat) (ds : List Nat) (h : S.map = [(r, ds)]) :
    S.nbs = 1 ∧ S.rank 0 = r ∧ S.size 0 = ds.length ∧ (∀ j, S.idx 0 j = ds.getD j 0) ∧
      S.total = ds.length := by
  simp [Subdomain.nbs, Subdomain.rank, Subdomain.size, Subdomain.idx, Subdomain.total,
    Subdomain.off, h]

omit [CommRing K] in
theorem getD_inj_of_nodup (l : List Nat) (h : l.Nodup) (a b : Nat) (ha : a < l.length)
    (hb : b < l.length) (e : l.getD a 0 = l.getD b 0) : a = b := by
  rw [List.getD_eq_getElem l 0 ha, List.getD_eq_getElem l 0 hb] at e
  exact (List.Nodup.getElem_inj_iff h).mp e

/-- Two subdomains that list each other as their only neighbour. -/
theorem two_subdomains (T : Topology) (o p : Nat) (dsO dsN : List Nat)
    (hn : T.n = 2) (ho : o < 2) (hp : p < 2) (hop : o ≠ p)
    (hmo : (T.sub o).map = [(p, dsO)]) (hmp : (T.sub p).map = [(o, dsN)])
    (hlen : dsO.length = dsN.length)
    (hmultO : (T.sub o).mult = dsO.length) (hmultN : (T.sub p).mult = dsN.length) :
    T.Matched ∧ T.Sized ∧ T.peer o 0 = 0 ∧ T.peer p 0 = 0 := by
  obtain ⟨no, ro, so, _, tto⟩ := (T.sub o).single p dsO hmo
  obtain ⟨np, rp, sp, _, ttp⟩ := (T.sub p).single o dsN hmp
  have po : T.peer o 0 = 0 := by simp [Topology.peer, ro, hmp]
  have pp : T.peer p 0 = 0 := by simp [Topology.peer, rp, hmo]
  refine ⟨fun s hs i hi => ?_, fun s hs => ?_, po, pp⟩
  · have hs2 : s = o ∨ s = p := by omega
    rcases hs2 with rfl | rfl
    · have hi0 : i = 0 := by omega
      subst hi0
      rw [ro, po, pp, rp, np, sp, so, hn]
      exact ⟨hp, by omega, rfl, rfl, hlen.symm⟩
    · have hi0 : i = 0 := by omega
      subst hi0
      rw [rp, pp, po, ro, no, sp, so, hn]
      exact ⟨ho, by omega, rfl, rfl, hlen⟩
  · have hs2 : s = o ∨ s = p := by omega
    rcases hs2 with rfl | rfl
    · rw [hmultO, tto]
    · rw [hmultN, ttp]

omit [CommRing K] in
/-- A sum over the flat storage is the sum over the blocks. -/
theorem sum_blocks {A : Type} [AddCommMonoid A] (S : Subdomain) (f : Nat → A) (n : Nat) :
    ∑ k in Finset.range (S.off n), f k
      = ∑ i in Finset.range n, ∑ j in Finset.range (S.size i), f (S.off i + j) := by
  induction n with
  | zero => simp [Subdomain.off]
  | succ n ih => rw [Finset.sum_range_succ, ← ih, Subdomain.off, Finset.sum_range_add]

omit [CommRing K] in
/-- Summing over all (rank, neighbour) pairs is invariant under passing to
the other side of each pair. -/
theorem sum_peer {A : Type} [AddCommMonoid A] (T : Topology) (hT : T.Matched)
    (g : Nat → Nat → A) :
    ∑ s in Finset.range T.n, ∑ i in Finset.range (T.sub s).nbs,
        g ((T.sub s).rank i) (T.peer s i)
      = ∑ s in Finset.range T.n, ∑ i in Finset.range (T.sub s).nbs, g s i := by
  rw [Finset.sum_sigma', Finset.sum_sigma']
  refine Finset.sum_nbij'
    (fun x : (_ : Nat) × Nat => ⟨(T.sub x.1).rank x.2, T.peer x.1 x.2⟩)
    (fun x : (_ : Nat) × Nat => ⟨(T.sub x.1).rank x.2, T.peer x.1 x.2⟩) ?_ ?_ ?_ ?_ ?_
  · rintro ⟨s, i⟩ hx
    simp only [Finset.mem_sigma, Finset.mem_range] at hx ⊢
    obtain ⟨h1, h2, _, _, _⟩ := hT s hx.1 i hx.2
    exact ⟨h1, h2⟩
  · rintro ⟨s, i⟩ hx
    simp only [Finset.mem_sigma, Finset.mem_range] at hx ⊢
    obtain ⟨h1, h2, _, _, _⟩ := hT s hx.1 i hx.2
    exact ⟨h1, h2⟩
  · rintro ⟨s, i⟩ hx
    simp only [Finset.mem_sigma, Finset.mem_range] at hx
    obtain ⟨_, _, h3, h4, _⟩ := hT s hx.1 i hx.2
    simp only [h3, h4]
  · rintro ⟨s, i⟩ hx
    simp only [Finset.mem_sigma, Finset.mem_range] at hx
    obtain ⟨_, _, h3, h4, _⟩ := hT s hx.1 i hx.2
    simp only [h3, h4]
  · rintro ⟨s, i⟩ _
    rfl

/-- The Euclidean inner product of `v` with the reduce of `lam`. -/
theorem inner_reduce (S : Subdomain) (m : Nat → K) (scale : Bool) (v : Nat → K)
    (st : JumpMem K)
    (hr : ∀ i, i < S.nbs → ∀ j, j < S.size i → S.idx i j < S.dof) :
    ∑ d in Finset.range S.dof, v d * (A_T S m scale st).primal d
      = jumpPairing S m scale v st.dual := by
  have h1 : ∀ d ∈ Finset.range S.dof, v d * (A_T S m scale st).primal d
      = ∑ i in Finset.range S.nbs, ∑ j in Finset.range (S.size i),
          if S.idx i j = d
          then sigma S i * weight S m scale i j * v d * st.dual (S.off i + j) else 0 := by
    intro d hd
    rw [(A_T_spec S m scale st).2 d]
    simp only [fill, if_pos (Finset.mem_range.mp hd), zero_add, reduceSum, Finset.mul_sum]
    exact Finset.sum_congr rfl (fun i _ => Finset.sum_congr rfl (fun j _ => by
      split_ifs <;> ring))
  rw [Finset.sum_congr rfl h1, Finset.sum_comm, jumpPairing]
  refine Finset.sum_congr rfl (fun i hi => ?_)
  rw [Finset.sum_comm]
  refine Finset.sum_congr rfl (fun j hj => ?_)
  rw [Finset.sum_ite_eq, if_pos (Finset.mem_range.mpr
    (hr i (Finset.mem_range.mp hi) j (Finset.mem_range.mp hj)))]

/-- The dot products of the expand of `st` with a consistent multiplier,
summed over the ranks, count every pairing twice. -/
theorem dot_expand (T : Topology) (m : Nat → Nat → K) (scale : Bool)
    (rb : Nat → Nat → K) (st : Nat → JumpMem K) (lam : Nat → Nat → K)
    (hT : T.Matched) (hS : T.Sized) (hc : Consistent T lam) :
    ∑ s in Finset.range T.n, ∑ k in Finset.range (T.sub s).mult,
        (expandAll T m scale rb st s).dual k * lam s k
      = 2 * ∑ s in Finset.range T.n,
          jumpPairing (T.sub s) (m s) scale (st s).primal (lam s) := by
  have hrow : ∀ s ∈ Finset.range T.n, ∑ k in Finset.range (T.sub s).mult,
        (expandAll T m scale rb st s).dual k * lam s k
      = jumpPairing (T.sub s) (m s) scale (st s).primal (lam s)
        + ∑ i in Finset.range (T.sub s).nbs,
            (fun t a => ∑ j in Finset.range ((T.sub t).size a),
              sigma (T.sub t) a * weight (T.sub t) (m t) scale a j
                * (st t).primal ((T.sub t).idx a j) * lam t ((T.sub t).off a + j))
            ((T.sub s).rank i) (T.peer s i) := by
    intro s hs
    have hs2 := Finset.mem_range.mp hs
    rw [hS s hs2, Subdomain.total, sum_blocks, jumpPairing, ← Finset.sum_add_distrib]
    refine Finset.sum_congr rfl (fun i hi => ?_)
    have hi2 := Finset.mem_range.mp hi
    obtain ⟨_, _, _, _, hsz⟩ := hT s hs2 i hi2
    simp only []
    rw [hsz, ← Finset.sum_add_distrib]
    refine Finset.sum_congr rfl (fun j hj => ?_)
    have hj2 := Finset.mem_range.mp hj
    rw [expandAll_entry T m scale rb st hT hS s hs2 i hi2 j hj2, ← hc s hs2 i hi2 j hj2]
    ring
  rw [Finset.sum_congr rfl hrow, Finset.sum_add_distrib, two_mul]
  congr 1
  exact sum_peer T hT (fun t a => ∑ j in Finset.range ((T.sub t).size a),
    sigma (T.sub t) a * weight (T.sub t) (m t) scale a j
      * (st t).primal ((T.sub t).idx a j) * lam t ((T.sub t).off a + j))

end LoopLemmas

section DotLemmas

variable {K : Type} [Field K]

/-- The all-reduced value is half the sum of the dot products on the
subdomain-owning ranks. -/
theorem computeDot_eq (T : Topology) (extra : Nat) (a b : Nat → Nat → K) :
    computeDot T extra a b
      = (∑ s in Finset.range T.n, dot (T.sub s).mult (a s) (b s)) / 2 := by
  rw [computeDot, Finset.sum_range_add, Finset.sum_div]
  have hz : ∑ x in Finset.range extra, computeDotLocal (decide (T.n ≤ T.n + x))
      (T.sub (T.n + x)).mult (a (T.n + x)) (b (T.n + x)) = 0 :=
    Finset.sum_eq_zero (fun x _ => by simp [computeDotLocal])
  rw [hz, add_zero]
  exact Finset.sum_congr rfl (fun s hs => by
    have : ¬ T.n ≤ s := by have := Finset.mem_range.mp hs; omega
    simp [computeDotLocal, this])

omit [Field K] in
/-- Consistency is preserved by a change of scalars. -/
theorem Consistent.map {A : Type} (T : Topology) (lam : Nat → Nat → A) (f : A → K)
    (h : Consistent T lam) : Consistent T (fun s k => f (lam s k)) :=
  fun s hs i hi j hj => congrArg f (h s hs i hi j hj)

/-- A loop whose body appends `c k d` references to `array[d]`. -/
theorem loop_count (body : Nat → (Nat → List (Nat × Nat)) → Nat → List (Nat × Nat))
    (c : Nat → Nat → Nat)
    (h : ∀ k a d, (body k a d).length = (a d).length + c k d) (n : Nat)
    (a : Nat → List (Nat × Nat)) (d : Nat) :
    (loop body n a d).length = (a d).length + ∑ k in Finset.range n, c k d := by
  induction n with
  | zero => simp [loop]
  | succ n ih => rw [loop, h, ih, Finset.sum_range_succ, Nat.add_assoc]

theorem arrayStep_length (S : Subdomain) (i j : Nat) (a : Nat → List (Nat × Nat)) (d : Nat) :
    (arrayStep S i j a d).length = (a d).length + (if S.idx i j = d then 1 else 0) := by
  by_cases hd : S.idx i j = d
  · subst hd
    simp [arrayStep]
  · have hd2 : d ≠ S.idx i j := fun e => hd e.symm
    simp [arrayStep, Function.update_noteq hd2, hd]

/-- After the first loops of `buildScaling`, `array[d].size()` is the number
of references to `d`. -/
theorem buildArray_length (S : Subdomain) (d : Nat) :
    (buildArray S d).length = refCount S d := by
  have h := loop_count (fun i a => loop (fun j b => arrayStep S i j b) (S.size i) a)
    (fun i d => ∑ j in Finset.range (S.size i), if S.idx i j = d then 1 else 0)
    (fun i a d => loop_count (fun j b => arrayStep S i j b)
      (fun j d => if S.idx i j = d then 1 else 0)
      (fun j b d => arrayStep_length S i j b d) (S.size i) a d) S.nbs (fun _ => []) d
  simpa [buildArray, refCount] using h

omit [Field K] in
/-- A pair of loops writing `val i j` at entry `j` of block `i`. -/
theorem blockLoop_entry (S : Subdomain) (val : Nat → Nat → K) (m : Nat → K) (i j : Nat)
    (hi : i < S.nbs) (hj : j < S.size i) :
    loop (fun i a => loop (fun j b => Function.update b (S.off i + j) (val i j)) (S.size i) a)
      S.nbs m (S.off i + j) = val i j := by
  have hin : ∀ (i : Nat) (r : Nat → K),
      (fun _ : Nat → K => ()) (loop (fun j b => Function.update b (S.off i + j) (val i j))
        (S.size i) r) = () ∧
      ∀ x, id (loop (fun j b => Function.update b (S.off i + j) (val i j)) (S.size i) r) x
        = if S.off i ≤ x ∧ x < S.off i + S.size i
          then (fun i j (_ : Unit) => val i j) i (x - S.off i) () else id r x :=
    fun i r => loop_write (fun _ : Nat → K => ()) id _ (S.off i) (fun j _ => val i j)
      (fun j q => ⟨rfl, rfl⟩) (S.size i) r
  have h := forRange_blocks (fun _ : Nat → K => ()) id S
    (fun i a => loop (fun j b => Function.update b (S.off i + j) (val i j)) (S.size i) a)
    (fun i j _ => val i j) hin 0 S.nbs m
  have h2 := h.2.1 i j (Nat.zero_le i) (by omega) hj
  simp only [Nat.zero_add, id] at h2
  exact h2

theorem dot_comm (n : Nat) (a b : Nat → K) : dot n a b = dot n b a :=
  Finset.sum_congr rfl (fun _ _ => mul_comm _ _)

end DotLemmas

section OperatorLemmas

variable {K : Type} [CommRing K]

theorem precond_S (q : FetiPrcndtnr) (ker : LocalKernels K) (rbuff : Nat → K) (c : Call K) :
    (precond q ker rbuff c).F.S = c.F.S := by
  unfold precond
  cases c.out <;> rfl

theorem precond_inp_of_out (q : FetiPrcndtnr) (ker : LocalKernels K) (rbuff : Nat → K)
    (F : Feti K) (inp o : Nat → K) : (precond q ker rbuff ⟨F, inp, some o⟩).inp = inp :=
  (A_T_spec F.S F.m true _).1

theorem precond_ev (q : FetiPrcndtnr) (ker : LocalKernels K) (rbuff : Nat → K) (c : Call K) :
    (precond q ker rbuff c).F.ev = c.F.ev := by
  unfold precond
  cases c.out <;> rfl

theorem projBefore_spec (trans : Char) (q : FetiPrcndtnr) (ker : LocalKernels K)
    (rbPre : Nat → K) (c : Call K) :
    (projBefore trans q ker rbPre c).inp = c.inp ∧
    (projBefore trans q ker rbPre c).out = c.out ∧
    (projBefore trans q ker rbPre c).F.S = c.F.S ∧
    (projBefore trans q ker rbPre c).F.ev = c.F.ev := by
  unfold projBefore
  by_cases h : trans = 'T'
  · rw [if_pos h]
    exact ⟨precond_inp_of_out q ker rbPre c.F c.inp c.F.dual, rfl, precond_S q ker rbPre _,
      precond_ev q ker rbPre _⟩
  · rw [if_neg h]
    exact ⟨rfl, rfl, rfl, rfl⟩

theorem coarseStep_S (solve : (Nat → K) → Nat → K) (loc : Nat) (dualArg : Nat → K)
    (F : Feti K) : (coarseStep solve loc dualArg F).S = F.S := by
  unfold coarseStep
  cases F.ev <;> rfl

theorem projAfter_S (trans : Char) (q : FetiPrcndtnr) (ker : LocalKernels K) (rbPre : Nat → K)
    (F : Feti K) : (projAfter trans q ker rbPre F).S = F.S := by
  unfold projAfter
  by_cases h : trans = 'N'
  · rw [if_pos h]
    exact precond_S q ker rbPre _
  · rw [if_neg h]

/-- The object a call of `project` leaves behind does not depend on `out`,
and it keeps the subdomain data. -/
theorem project_F (trans : Char) (q : FetiPrcndtnr) (ker : LocalKernels K)
    (solve : (Nat → K) → Nat → K) (rbPre rbJump : Nat → K) (F : Feti K) (inp : Nat → K)
    (out : Option (Nat → K)) (loc : Nat) (hco : F.co = some loc) :
    (project false trans q ker solve rbPre rbJump ⟨F, inp, out⟩).F
      = (project false trans q ker solve rbPre rbJump ⟨F, inp, none⟩).F ∧
    (project false trans q ker solve rbPre rbJump ⟨F, inp, out⟩).F.S = F.S := by
  have hb : ∀ o : Option (Nat → K),
      (projBefore trans q ker rbPre ⟨F, inp, o⟩).F = (projBefore trans q ker rbPre ⟨F, inp, none⟩).F
      ∧ projArg trans (projBefore trans q ker rbPre ⟨F, inp, o⟩)
        = projArg trans (projBefore trans q ker rbPre ⟨F, inp, none⟩) := by
    intro o
    unfold projBefore projArg
    by_cases h : trans = 'T'
    · rw [if_pos h, if_pos h, if_pos h]
      exact ⟨rfl, rfl⟩
    · rw [if_neg h, if_neg h, if_neg h]
      exact ⟨rfl, rfl⟩
  have hF : ∀ o : Option (Nat → K),
      (project false trans q ker solve rbPre rbJump ⟨F, inp, o⟩).F
        = projAfter trans q ker rbPre (projJump rbJump (coarseStep solve loc
            (projArg trans (projBefore trans q ker rbPre ⟨F, inp, none⟩))
            (projBefore trans q ker rbPre ⟨F, inp, none⟩).F)) := by
    intro o
    simp only [project, hco, Bool.not_false, if_true]
    rw [(hb o).1, (hb o).2]
    unfold projCombine
    cases (projBefore trans q ker rbPre ⟨F, inp, o⟩).out <;> rfl
  refine ⟨by rw [hF out, hF none], ?_⟩
  rw [hF out, projAfter_S]
  show (coarseStep solve loc _ _).S = F.S
  rw [coarseStep_S]
  exact (projBefore_spec trans q ker rbPre ⟨F, inp, none⟩).2.2.1

/-- The collective `precond` is the scaled collective expand of the local
action applied to the scaled reduce. -/
theorem precondAll_result (T : Topology) (q : FetiPrcndtnr) (ker : Nat → LocalKernels K)
    (rb : Nat → Nat → K) (c : Nat → Call K) (hF : ∀ s, (c s).F.S = T.sub s) (s : Nat) :
    (precondAll T q ker rb c s).result
      = (expandAll T (fun t => (c t).F.m) true rb
          (fun t => ⟨applyLocalPreconditioner q (ker t)
              (A_T (T.sub t) (c t).F.m true ⟨(c t).F.primal, (c t).inp⟩).primal,
            (c t).result⟩) s).dual := by
  have hsend : (fun t => precondSend q (ker t) (c t))
      = fun t => (A_N_send (T.sub t) (c t).F.m true
          ⟨applyLocalPreconditioner q (ker t)
              (A_T (T.sub t) (c t).F.m true ⟨(c t).F.primal, (c t).inp⟩).primal,
            (c t).result⟩).dual := by
    funext t
    have hd : (A_T (T.sub t) (c t).F.m true ⟨(c t).F.primal, (c t).inp⟩).dual = (c t).inp :=
      (A_T_spec _ _ true _).1
    simp only [precondSend, hF t, hd, Call.result]
  have hd : (A_T (T.sub s) (c s).F.m true ⟨(c s).F.primal, (c s).inp⟩).dual = (c s).inp :=
    (A_T_spec _ _ true _).1
  simp only [precondAll, expandAll, hsend, precond, hF s]
  cases ho : (c s).out with
  | some o => simp only [Call.result, ho, Option.getD_some]
  | none => simp only [Call.result, ho, Option.getD_none, hd]

/-- The dot products of the collective `precond` of `x` with a consistent
multiplier `y`, summed over the ranks, are twice the sum of the local
pairings of `L (reduce x)` with `reduce y`. -/
theorem dot_precond (T : Topology) (q : FetiPrcndtnr)
    (ker : Nat → LocalKernels K) (rb : Nat → Nat → K) (c : Nat → Call K) (y p : Nat → Nat → K)
    (hT : T.Matched) (hS : T.Sized) (hR : T.InRange) (hF : ∀ s, (c s).F.S = T.sub s)
    (hy : Consistent T y) :
    ∑ s in Finset.range T.n, ∑ k in Finset.range (T.sub s).mult,
        (precondAll T q ker rb c s).result k * y s k
      = 2 * ∑ s in Finset.range T.n, ∑ d in Finset.range (T.sub s).dof,
          applyLocalPreconditioner q (ker s)
              (A_T (T.sub s) (c s).F.m true ⟨(c s).F.primal, (c s).inp⟩).primal d
            * (A_T (T.sub s) (c s).F.m true ⟨p s, y s⟩).primal d := by
  have h1 := dot_expand T (fun t => (c t).F.m) true rb
    (fun t => ⟨applyLocalPreconditioner q (ker t)
        (A_T (T.sub t) (c t).F.m true ⟨(c t).F.primal, (c t).inp⟩).primal, (c t).result⟩)
    y hT hS hy
  have h2 : ∀ s ∈ Finset.range T.n, ∑ k in Finset.range (T.sub s).mult,
        (precondAll T q ker rb c s).result k * y s k
      = ∑ k in Finset.range (T.sub s).mult,
        (expandAll T (fun t => (c t).F.m) true rb
          (fun t => ⟨applyLocalPreconditioner q (ker t)
              (A_T (T.sub t) (c t).F.m true ⟨(c t).F.primal, (c t).inp⟩).primal,
            (c t).result⟩) s).dual k * y s k :=
    fun s _ => by rw [precondAll_result T q ker rb c hF s]
  rw [Finset.sum_congr rfl h2, h1]
  congr 1
  exact Finset.sum_congr rfl (fun s hs =>
    (inner_reduce (T.sub s) ((c s).F.m) true _ ⟨p s, y s⟩ (hR s (Finset.mem_range.mp hs))).symm)

end OperatorLemmas

section ProjectLemmas

variable {K : Type} [CommRing K]

omit [CommRing K] in
theorem SameData.refl (F : Feti K) : SameData F F := ⟨rfl, rfl, rfl, rfl, rfl, rfl⟩

omit [CommRing K] in
theorem SameData.symm {F G : Feti K} (h : SameData F G) : SameData G F :=
  ⟨h.1.symm, h.2.1.symm, h.2.2.1.symm, h.2.2.2.1.symm, h.2.2.2.2.1.symm, h.2.2.2.2.2.symm⟩

omit [CommRing K] in
theorem SameData.trans {F G H : Feti K} (h : SameData F G) (g : SameData G H) : SameData F H :=
  ⟨h.1.trans g.1, h.2.1.trans g.2.1, h.2.2.1.trans g.2.2.1, h.2.2.2.1.trans g.2.2.2.1,
    h.2.2.2.2.1.trans g.2.2.2.2.1, h.2.2.2.2.2.trans g.2.2.2.2.2⟩

/-- Every entry below `off n` lies in one of the blocks `0, ..., n - 1`. -/
theorem Subdomain.block_decomp (S : Subdomain) (n k : Nat) (h : k < S.off n) :
    ∃ i, i < n ∧ ∃ j, j < S.size i ∧ k = S.off i + j := by
  induction n with
  | zero => exact absurd h (by simp [Subdomain.off])
  | succ n ih =>
    by_cases hk : k < S.off n
    · obtain ⟨i, hi, j, hj, e⟩ := ih hk
      exact ⟨i, by omega, j, hj, e⟩
    · have h2 : k < S.off n + S.size n := h
      exact ⟨n, by omega, k - S.off n, by omega, by omega⟩

/-- The reduce reads the multiplier below `total` only. -/
theorem reduceSum_congr (S : Subdomain) (m : Nat → K) (scale : Bool) (lam lam2 : Nat → K)
    (h : Agree S.total lam lam2) (d : Nat) :
    reduceSum S m scale lam d = reduceSum S m scale lam2 d := by
  unfold reduceSum
  refine Finset.sum_congr rfl (fun i hi => Finset.sum_congr rfl (fun j hj => ?_))
  rw [h _ (S.off_add_lt (Finset.mem_range.mp hi) (Finset.mem_range.mp hj))]

/-- The reduce is additive. -/
theorem reduceSum_sub (S : Subdomain) (m : Nat → K) (scale : Bool) (lam x y : Nat → K)
    (h : ∀ k, k < S.total → lam k = x k - y k) (d : Nat) :
    reduceSum S m scale lam d = reduceSum S m scale x d - reduceSum S m scale y d := by
  unfold reduceSum
  rw [← Finset.sum_sub_distrib]
  refine Finset.sum_congr rfl (fun i hi => ?_)
  rw [← Finset.sum_sub_distrib]
  refine Finset.sum_congr rfl (fun j hj => ?_)
  rw [h _ (S.off_add_lt (Finset.mem_range.mp hi) (Finset.mem_range.mp hj))]
  split_ifs <;> ring

theorem A_T_primal (S : Subdomain) (m : Nat → K) (scale : Bool) (st : JumpMem K) (d : Nat)
    (hd : d < S.dof) : (A_T S m scale st).primal d = reduceSum S m scale st.dual d := by
  rw [(A_T_spec S m scale st).2 d]
  simp [fill, hd]

/-- The content handed to the coarse solver, entry by entry. -/
theorem ucInput_entry (loc : Nat) (lam : Nat → K) (F : Feti K) (E : Nat → K)
    (hE : F.ev = some E) (j : Nat) (hj : j < loc) :
    ucInput loc lam F j
      = ∑ i in Finset.range F.S.dof,
          evMatrix F E (i + j * evLda F) * reduceSum F.S F.m false lam i := by
  simp only [ucInput, hE, gemv, transb, d__1, d__0]
  rw [if_neg (by decide), if_pos hj]
  simp only [one_mul, zero_mul, add_zero]
  exact Finset.sum_congr rfl (fun i hi => by
    rw [A_T_primal _ _ _ _ _ (Finset.mem_range.mp hi)])

omit [CommRing K] in
theorem evMatrix_congr {F G : Feti K} (h : SameData F G) (E : Nat → K) :
    evMatrix F E = evMatrix G E ∧ evLda F = evLda G := by
  obtain ⟨hS, _, _, hs, hb, ha⟩ := h
  simp only [evMatrix, evLda, hS, hs, hb, ha, and_self]

/-- The content handed to the coarse solver depends on the entries of the
multiplier below `total` and on the data of the object only. -/
theorem ucInput_congr (loc : Nat) (lam lam2 : Nat → K) (F G : Feti K) (h : SameData F G)
    (hl : Agree F.S.total lam lam2) (hev : F.ev = none → loc = 0) :
    Agree loc (ucInput loc lam F) (ucInput loc lam2 G) := by
  intro j hj
  cases hE : F.ev with
  | none => exact absurd hj (by rw [hev hE]; omega)
  | some E =>
    rw [ucInput_entry loc lam F E hE j hj, ucInput_entry loc lam2 G E (h.2.2.1 ▸ hE) j hj,
      (evMatrix_congr h E).1, (evMatrix_congr h E).2, ← h.1, ← h.2.1]
    exact Finset.sum_congr rfl (fun i _ => by rw [reduceSum_congr _ _ _ lam lam2 hl])

/-- The content handed to the coarse solver is additive in the multiplier. -/
theorem ucInput_sub (loc : Nat) (lam x y : Nat → K) (F G H : Feti K) (hG : SameData F G)
    (hH : SameData F H) (hl : ∀ k, k < F.S.total → lam k = x k - y k)
    (hev : F.ev = none → loc = 0) (j : Nat) (hj : j < loc) :
    ucInput loc lam F j = ucInput loc x G j - ucInput loc y H j := by
  cases hE : F.ev with
  | none => exact absurd hj (by rw [hev hE]; omega)
  | some E =>
    rw [ucInput_entry loc lam F E hE j hj, ucInput_entry loc x G E (hG.2.2.1 ▸ hE) j hj,
      ucInput_entry loc y H E (hH.2.2.1 ▸ hE) j hj, ← (evMatrix_congr hG E).1,
      ← (evMatrix_congr hG E).2, ← (evMatrix_congr hH E).1, ← (evMatrix_congr hH E).2,
      ← hG.1, ← hG.2.1, ← hH.1, ← hH.2.1, ← Finset.sum_sub_distrib]
    exact Finset.sum_congr rfl (fun i _ => by
      rw [reduceSum_sub _ _ _ lam x y hl]; ring)

theorem coarseStep_same (solve : (Nat → K) → Nat → K) (loc : Nat) (a : Nat → K) (F : Feti K) :
    SameData (coarseStep solve loc a F) F := by
  unfold SameData coarseStep
  cases hE : F.ev <;> simp [hE]

/-- The interface vector after the coarse step, when the solve returned `u`. -/
theorem coarseStep_primal (u : Nat → K) (loc : Nat) (a : Nat → K) (F : Feti K) (i : Nat)
    (hi : i < F.S.dof) :
    (coarseStep (fun _ => u) loc a F).primal i
      = match F.ev with
        | some E => ∑ j in Finset.range loc, evMatrix F E (i + j * evLda F) * u j
        | none => 0 := by
  unfold coarseStep
  cases hE : F.ev with
  | none => simp [fill, hi]
  | some E =>
    simp only [gemv, transa, d__1, d__0, if_true, if_pos hi]
    simp

theorem coarseStep_congr (u u2 : Nat → K) (loc : Nat) (a a2 : Nat → K) (F G : Feti K)
    (h : SameData F G) (hu : Agree loc u u2) :
    Agree F.S.dof (coarseStep (fun _ => u) loc a F).primal
      (coarseStep (fun _ => u2) loc a2 G).primal := by
  intro i hi
  rw [coarseStep_primal u loc a F i hi, coarseStep_primal u2 loc a2 G i (h.1 ▸ hi), ← h.2.2.1]
  cases hE : F.ev with
  | none => rfl
  | some E =>
    simp only []
    rw [(evMatrix_congr h E).1, (evMatrix_congr h E).2]
    exact Finset.sum_congr rfl (fun j hj => by rw [hu j (Finset.mem_range.mp hj)])

theorem coarseStep_zero (u : Nat → K) (loc : Nat) (a : Nat → K) (F : Feti K)
    (hu : ∀ j, j < loc → u j = 0) (i : Nat) (hi : i < F.S.dof) :
    (coarseStep (fun _ => u) loc a F).primal i = 0 := by
  rw [coarseStep_primal u loc a F i hi]
  cases hE : F.ev with
  | none => rfl
  | some E =>
    exact Finset.sum_eq_zero (fun j hj => by rw [hu j (Finset.mem_range.mp hj), mul_zero])

/-- The collective expand reads the interface vectors below `_dof` only. -/
theorem expandAll_congr (T : Topology) (m : Nat → Nat → K) (scale : Bool)
    (rb rb2 : Nat → Nat → K) (st st2 : Nat → JumpMem K)
    (hT : T.Matched) (hS : T.Sized) (hR : T.InRange)
    (hp : ∀ t, t < T.n → Agree (T.sub t).dof (st t).primal (st2 t).primal)
    (s : Nat) (hs : s < T.n) :
    Agree (T.sub s).mult (expandAll T m scale rb st s).dual
      (expandAll T m scale rb2 st2 s).dual := by
  intro k hk
  rw [hS s hs] at hk
  obtain ⟨i, hi, j, hj, rfl⟩ := (T.sub s).block_decomp _ k hk
  obtain ⟨h1, h2, _, _, hsz⟩ := hT s hs i hi
  rw [expandAll_entry T m scale rb st hT hS s hs i hi j hj,
    expandAll_entry T m scale rb2 st2 hT hS s hs i hi j hj,
    hp s hs _ (hR s hs i hi j hj),
    hp _ h1 _ (hR _ h1 _ h2 j (by rw [hsz]; exact hj))]

/-- The collective expand is additive in the interface vectors. -/
theorem expandAll_sub (T : Topology) (m : Nat → Nat → K) (scale : Bool)
    (rb rb1 rb2 : Nat → Nat → K) (st st1 st2 : Nat → JumpMem K)
    (hT : T.Matched) (hS : T.Sized) (hR : T.InRange)
    (hp : ∀ t, t < T.n → ∀ d, d < (T.sub t).dof →
      (st t).primal d = (st1 t).primal d - (st2 t).primal d)
    (s : Nat) (hs : s < T.n) (k : Nat) (hk : k < (T.sub s).mult) :
    (expandAll T m scale rb st s).dual k
      = (expandAll T m scale rb1 st1 s).dual k - (expandAll T m scale rb2 st2 s).dual k := by
  rw [hS s hs] at hk
  obtain ⟨i, hi, j, hj, rfl⟩ := (T.sub s).block_decomp _ k hk
  obtain ⟨h1, h2, _, _, hsz⟩ := hT s hs i hi
  rw [expandAll_entry T m scale rb st hT hS s hs i hi j hj,
    expandAll_entry T m scale rb1 st1 hT hS s hs i hi j hj,
    expandAll_entry T m scale rb2 st2 hT hS s hs i hi j hj,
    hp s hs _ (hR s hs i hi j hj),
    hp _ h1 _ (hR _ h1 _ h2 j (by rw [hsz]; exact hj))]
  ring

/-- The collective expand of interface vectors that vanish vanishes. -/
theorem expandAll_zero (T : Topology) (m : Nat → Nat → K) (scale : Bool)
    (rb : Nat → Nat → K) (st : Nat → JumpMem K)
    (hT : T.Matched) (hS : T.Sized) (hR : T.InRange)
    (hp : ∀ t, t < T.n → ∀ d, d < (T.sub t).dof → (st t).primal d = 0)
    (s : Nat) (hs : s < T.n) (k : Nat) (hk : k < (T.sub s).mult) :
    (expandAll T m scale rb st s).dual k = 0 := by
  rw [hS s hs] at hk
  obtain ⟨i, hi, j, hj, rfl⟩ := (T.sub s).block_decomp _ k hk
  obtain ⟨h1, h2, _, _, hsz⟩ := hT s hs i hi
  rw [expandAll_entry T m scale rb st hT hS s hs i hi j hj,
    hp s hs _ (hR s hs i hi j hj),
    hp _ h1 _ (hR _ h1 _ h2 j (by rw [hsz]; exact hj))]
  ring

theorem jumpAll_same (T : Topology) (rb : Nat → Nat → K) (F : Nat → Feti K) (s : Nat) :
    SameData (jumpAll T rb F s) (F s) := ⟨rfl, rfl, rfl, rfl, rfl, rfl⟩

/-- Line 346 on all ranks is the unscaled collective expand. -/
theorem jumpAll_dual (T : Topology) (rb : Nat → Nat → K) (F : Nat → Feti K)
    (hF : ∀ t, (F t).S = T.sub t) (s : Nat) :
    (jumpAll T rb F s).dual
      = (expandAll T (fun t => (F t).m) false rb
          (fun t => ⟨(F t).primal, (F t).dual⟩) s).dual := by
  simp only [jumpAll, projJump, expandAll, hF]

theorem precond_same (q : FetiPrcndtnr) (ker : LocalKernels K) (rbuff : Nat → K) (c : Call K) :
    SameData (precond q ker rbuff c).F c.F := by
  unfold precond
  cases c.out <;> exact ⟨rfl, rfl, rfl, rfl, rfl, rfl⟩

theorem afterAll_same (T : Topology) (trans : Char) (q : FetiPrcndtnr)
    (ker : Nat → LocalKernels K) (rb : Nat → Nat → K) (F : Nat → Feti K) (s : Nat) :
    SameData (afterAll T trans q ker rb F s) (F s) := by
  unfold afterAll projAfter
  by_cases h : trans = 'N'
  · rw [if_pos h]
    exact precond_same q (ker s) _ _
  · rw [if_neg h]
    exact SameData.refl _

theorem afterAll_of_ne (T : Topology) (trans : Char) (q : FetiPrcndtnr)
    (ker : Nat → LocalKernels K) (rb : Nat → Nat → K) (F : Nat → Feti K) (s : Nat)
    (h : trans ≠ 'N') : afterAll T trans q ker rb F s = F s := by
  unfold afterAll projAfter
  rw [if_neg h]

/-- Lines 347-348 on all ranks, direction `'N'`: the collective in-place
`precond` of `_dual`. -/
theorem afterAll_dual (T : Topology) (q : FetiPrcndtnr)
    (ker : Nat → LocalKernels K) (rb : Nat → Nat → K) (F : Nat → Feti K) (s : Nat) :
    (afterAll T 'N' q ker rb F s).dual
      = (precondAll T q ker rb (fun t => ⟨F t, (F t).dual, none⟩) s).result := by
  simp only [afterAll, projAfter, if_true, precondAll, Call.result, precond, Option.getD_none]

theorem projBefore_same (trans : Char) (q : FetiPrcndtnr) (ker : LocalKernels K)
    (rbPre : Nat → K) (c : Call K) : SameData (projBefore trans q ker rbPre c).F c.F := by
  unfold projBefore
  by_cases h : trans = 'T'
  · rw [if_pos h]
    have hp := precond_same q ker rbPre ⟨c.F, c.inp, some c.F.dual⟩
    exact ⟨hp.1, hp.2.1, hp.2.2.1, hp.2.2.2.1, hp.2.2.2.2.1, hp.2.2.2.2.2⟩
  · rw [if_neg h]
    exact SameData.refl _

theorem beforeAll_of_ne (T : Topology) (trans : Char) (q : FetiPrcndtnr)
    (ker : Nat → LocalKernels K) (rb : Nat → Nat → K) (c : Nat → Call K) (s : Nat)
    (h : trans ≠ 'T') : beforeAll T trans q ker rb c s = c s := by
  unfold beforeAll projBefore
  rw [if_neg h]

/-- Lines 324-325 on all ranks, direction `'T'`: the collective `precond`
of `in` into `_dual`. -/
theorem beforeAll_spec (T : Topology) (q : FetiPrcndtnr)
    (ker : Nat → LocalKernels K) (rb : Nat → Nat → K) (c : Nat → Call K) (s : Nat) :
    (beforeAll T 'T' q ker rb c s).F.dual
        = (precondAll T q ker rb (fun t => ⟨(c t).F, (c t).inp, some (c t).F.dual⟩) s).result ∧
    (beforeAll T 'T' q ker rb c s).inp = (c s).inp ∧
    (beforeAll T 'T' q ker rb c s).out = (c s).out ∧
    SameData (beforeAll T 'T' q ker rb c s).F (c s).F := by
  refine ⟨?_, ?_, ?_, ?_⟩
  · simp only [beforeAll, projBefore, if_true, precondAll, Call.result]
    rfl
  · exact (projBefore_spec 'T' q (ker s) _ (c s)).1
  · exact (projBefore_spec 'T' q (ker s) _ (c s)).2.1
  · exact projBefore_same 'T' q (ker s) _ (c s)

/-- The scaled reduce as used by `precond`, below `_dof`. -/
theorem A_T_agree (S : Subdomain) (m : Nat → K) (scale : Bool) (p p2 lam lam2 : Nat → K)
    (h : Agree S.total lam lam2) :
    Agree S.dof (A_T S m scale ⟨p, lam⟩).primal (A_T S m scale ⟨p2, lam2⟩).primal := by
  intro d hd
  rw [A_T_primal S m scale _ d hd, A_T_primal S m scale _ d hd]
  exact reduceSum_congr S m scale lam lam2 h d

/-- The collective `precond` depends on the data of the objects and on the
entries of `in` below `_mult` only, when the local action reads its argument
below `_dof` only. -/
theorem precondAll_congr (T : Topology) (q : FetiPrcndtnr) (ker : Nat → LocalKernels K)
    (rb rb2 : Nat → Nat → K) (c c2 : Nat → Call K)
    (hT : T.Matched) (hS : T.Sized) (hR : T.InRange)
    (hF : ∀ t, (c t).F.S = T.sub t) (hSame : ∀ t, SameData (c t).F (c2 t).F)
    (hin : ∀ t, t < T.n → Agree (T.sub t).mult (c t).inp (c2 t).inp)
    (hLloc : ∀ t, t < T.n → ∀ a b : Nat → K, Agree (T.sub t).dof a b →
      Agree (T.sub t).dof (applyLocalPreconditioner q (ker t) a)
        (applyLocalPreconditioner q (ker t) b))
    (s : Nat) (hs : s < T.n) :
    Agree (T.sub s).mult (precondAll T q ker rb c s).result
      (precondAll T q ker rb2 c2 s).result := by
  have hF2 : ∀ t, (c2 t).F.S = T.sub t := fun t => (hSame t).1 ▸ hF t
  have hm : (fun t => (c2 t).F.m) = fun t => (c t).F.m := funext (fun t => (hSame t).2.1.symm)
  rw [precondAll_result T q ker rb c hF s, precondAll_result T q ker rb2 c2 hF2 s, hm]
  refine expandAll_congr T _ true rb rb2 _ _ hT hS hR (fun t ht => ?_) s hs
  simp only [← (hSame t).2.1]
  exact hLloc t ht _ _ (A_T_agree _ _ true _ _ _ _ (by rw [← hS t ht]; exact hin t ht))

/-- The collective `precond` is additive for an additive local action. -/
theorem precondAll_sub (T : Topology) (q : FetiPrcndtnr) (ker : Nat → LocalKernels K)
    (rb rb1 rb2 : Nat → Nat → K) (c c1 c2 : Nat → Call K)
    (hT : T.Matched) (hS : T.Sized) (hR : T.InRange)
    (hF : ∀ t, (c t).F.S = T.sub t) (hSame1 : ∀ t, SameData (c t).F (c1 t).F)
    (hSame2 : ∀ t, SameData (c t).F (c2 t).F)
    (hin : ∀ t, t < T.n → ∀ k, k < (T.sub t).mult → (c t).inp k = (c1 t).inp k - (c2 t).inp k)
    (hLloc : ∀ t, t < T.n → ∀ a b : Nat → K, Agree (T.sub t).dof a b →
      Agree (T.sub t).dof (applyLocalPreconditioner q (ker t) a)
        (applyLocalPreconditioner q (ker t) b))
    (hLadd : ∀ t, t < T.n → ∀ (a b : Nat → K) (d : Nat), d < (T.sub t).dof →
      applyLocalPreconditioner q (ker t) (fun i => a i - b i) d
        = applyLocalPreconditioner q (ker t) a d - applyLocalPreconditioner q (ker t) b d)
    (s : Nat) (hs : s < T.n) (k : Nat) (hk : k < (T.sub s).mult) :
    (precondAll T q ker rb c s).result k
      = (precondAll T q ker rb1 c1 s).result k - (precondAll T q ker rb2 c2 s).result k := by
  have hF1 : ∀ t, (c1 t).F.S = T.sub t := fun t => (hSame1 t).1 ▸ hF t
  have hF2 : ∀ t, (c2 t).F.S = T.sub t := fun t => (hSame2 t).1 ▸ hF t
  have hm1 : (fun t => (c1 t).F.m) = fun t => (c t).F.m :=
    funext (fun t => (hSame1 t).2.1.symm)
  have hm2 : (fun t => (c2 t).F.m) = fun t => (c t).F.m :=
    funext (fun t => (hSame2 t).2.1.symm)
  rw [precondAll_result T q ker rb c hF s, precondAll_result T q ker rb1 c1 hF1 s,
    precondAll_result T q ker rb2 c2 hF2 s, hm1, hm2]
  refine expandAll_sub T _ true rb rb1 rb2 _ _ _ hT hS hR (fun t ht d hd => ?_) s hs k hk
  simp only [← (hSame1 t).2.1, ← (hSame2 t).2.1]
  rw [← hLadd t ht _ _ d hd]
  refine hLloc t ht _ _ (fun e he => ?_) d hd
  rw [A_T_primal _ _ _ _ e he, A_T_primal _ _ _ _ e he, A_T_primal _ _ _ _ e he]
  exact reduceSum_sub _ _ true _ _ _ (fun x hx => hin t ht x (by rw [hS t ht]; exact hx)) e

/-- The collective `precond` of multipliers that vanish vanishes. -/
theorem precondAll_zero (T : Topology) (q : FetiPrcndtnr) (ker : Nat → LocalKernels K)
    (rb : Nat → Nat → K) (c : Nat → Call K)
    (hT : T.Matched) (hS : T.Sized) (hR : T.InRange)
    (hF : ∀ t, (c t).F.S = T.sub t)
    (hin : ∀ t, t < T.n → ∀ k, k < (T.sub t).mult → (c t).inp k = 0)
    (hLloc : ∀ t, t < T.n → ∀ a b : Nat → K, Agree (T.sub t).dof a b →
      Agree (T.sub t).dof (applyLocalPreconditioner q (ker t) a)
        (applyLocalPreconditioner q (ker t) b))
    (hLadd : ∀ t, t < T.n → ∀ (a b : Nat → K) (d : Nat), d < (T.sub t).dof →
      applyLocalPreconditioner q (ker t) (fun i => a i - b i) d
        = applyLocalPreconditioner q (ker t) a d - applyLocalPreconditioner q (ker t) b d)
    (s : Nat) (hs : s < T.n) (k : Nat) (hk : k < (T.sub s).mult) :
    (precondAll T q ker rb c s).result k = 0 := by
  have h := precondAll_sub T q ker rb rb rb c c c hT hS hR hF (fun t => SameData.refl _)
    (fun t => SameData.refl _) (fun t ht k hk => by rw [hin t ht k hk, sub_self])
    hLloc hLadd s hs k hk
  rw [h, sub_self]

theorem beforeAll_same (T : Topology) (trans : Char) (q : FetiPrcndtnr)
    (ker : Nat → LocalKernels K) (rb : Nat → Nat → K) (c : Nat → Call K) (s : Nat) :
    SameData (beforeAll T trans q ker rb c s).F (c s).F :=
  projBefore_same trans q (ker s) _ (c s)

theorem solveAll_same (solver : (Nat → Nat → K) → Nat → Nat → K) (loc : Nat → Nat)
    (trans : Char) (c : Nat → Call K) (s : Nat) :
    SameData (solveAll solver loc trans c s) (c s).F :=
  coarseStep_same _ _ _ _

theorem projectObjects_same (T : Topology) (trans : Char) (q : FetiPrcndtnr)
    (ker : Nat → LocalKernels K) (solver : (Nat → Nat → K) → Nat → Nat → K) (loc : Nat → Nat)
    (rb : Nat → Nat → K) (c : Nat → Call K) (s : Nat) :
    SameData (projectObjects T trans q ker solver loc rb c s) (c s).F :=
  (afterAll_same T trans q ker rb _ s).trans
    ((jumpAll_same T rb _ s).trans
      ((solveAll_same solver loc trans _ s).trans (beforeAll_same T trans q ker rb c s)))

/-- The collective buffered `project`: the object left behind and the
content of `out` below `_mult`. -/
theorem projectAll_spec (T : Topology) (trans : Char) (q : FetiPrcndtnr)
    (ker : Nat → LocalKernels K) (solver : (Nat → Nat → K) → Nat → Nat → K) (loc : Nat → Nat)
    (rb : Nat → Nat → K) (c : Nat → Call K) (s : Nat) (o : Nat → K) (ho : (c s).out = some o) :
    (projectAll T trans q ker solver loc rb c s).F
        = projectObjects T trans q ker solver loc rb c s ∧
    ∀ k, k < (c s).F.S.mult →
      (projectAll T trans q ker solver loc rb c s).result k
        = (c s).inp k - (projectObjects T trans q ker solver loc rb c s).dual k := by
  have hb := projBefore_spec trans q (ker s)
    (exchange T (fun t => precondSend q (ker t) ⟨(c t).F, (c t).inp, some (c t).F.dual⟩) s (rb s))
    (c s)
  have hout : (beforeAll T trans q ker rb c s).out = some o := hb.2.1.trans ho
  have hinp : (beforeAll T trans q ker rb c s).inp = (c s).inp := hb.1
  have hS : (projectObjects T trans q ker solver loc rb c s).S = (c s).F.S :=
    (projectObjects_same T trans q ker solver loc rb c s).1
  constructor
  · simp only [projectAll, projCombine, hout]
  · intro k hk
    simp only [projectAll, projCombine, hout, Call.result, Option.getD_some, hinp, hS, if_pos hk]

/-- Line 346 on all ranks reads the interface vectors below `_dof` only. -/
theorem jumpAll_congr (T : Topology) (rb rb2 : Nat → Nat → K) (F G : Nat → Feti K)
    (hT : T.Matched) (hS : T.Sized) (hR : T.InRange)
    (hF : ∀ t, (F t).S = T.sub t) (hSame : ∀ t, SameData (F t) (G t))
    (hp : ∀ t, t < T.n → Agree (T.sub t).dof (F t).primal (G t).primal)
    (s : Nat) (hs : s < T.n) :
    Agree (T.sub s).mult (jumpAll T rb F s).dual (jumpAll T rb2 G s).dual := by
  have hG : ∀ t, (G t).S = T.sub t := fun t => (hSame t).1 ▸ hF t
  have hm : (fun t => (G t).m) = fun t => (F t).m := funext (fun t => (hSame t).2.1.symm)
  rw [jumpAll_dual T rb F hF s, jumpAll_dual T rb2 G hG s, hm]
  exact expandAll_congr T _ false rb rb2 _ _ hT hS hR hp s hs

theorem jumpAll_zero (T : Topology) (rb : Nat → Nat → K) (F : Nat → Feti K)
    (hT : T.Matched) (hS : T.Sized) (hR : T.InRange)
    (hF : ∀ t, (F t).S = T.sub t)
    (hp : ∀ t, t < T.n → ∀ d, d < (T.sub t).dof → (F t).primal d = 0)
    (s : Nat) (hs : s < T.n) (k : Nat) (hk : k < (T.sub s).mult) :
    (jumpAll T rb F s).dual k = 0 := by
  rw [jumpAll_dual T rb F hF s]
  exact expandAll_zero T _ false rb _ hT hS hR hp s hs k hk

/-- The expand of the basis product of `v` does not depend on the scratch
contents of the objects. -/
theorem jump_coarse_congr (T : Topology) (loc : Nat → Nat) (rb rbG : Nat → Nat → K)
    (F H : Nat → Feti K) (v a a2 : Nat → Nat → K)
    (hT : T.Matched) (hS : T.Sized) (hR : T.InRange)
    (hF : ∀ t, (F t).S = T.sub t) (hH : ∀ t, SameData (H t) (F t))
    (s : Nat) (hs : s < T.n) :
    Agree (T.sub s).mult
      (jumpAll T rb (fun t => coarseStep (fun _ => v t) (loc t) (a t) (H t)) s).dual
      (jumpAll T rbG (fun t => coarseStep (fun _ => v t) (loc t) (a2 t) (F t)) s).dual := by
  have h1 : ∀ t, SameData (coarseStep (fun _ => v t) (loc t) (a t) (H t)) (F t) :=
    fun t => (coarseStep_same _ _ _ _).trans (hH t)
  have h2 : ∀ t, SameData (coarseStep (fun _ => v t) (loc t) (a2 t) (F t)) (F t) :=
    fun t => coarseStep_same _ _ _ _
  have h3 : ∀ t, t < T.n → Agree (T.sub t).dof
      (coarseStep (fun _ => v t) (loc t) (a t) (H t)).primal
      (coarseStep (fun _ => v t) (loc t) (a2 t) (F t)).primal := by
    intro t _
    have h := coarseStep_congr (v t) (v t) (loc t) (a t) (a2 t) (H t) (F t) (hH t)
      (fun _ _ => rfl)
    rw [(hH t).1, hF t] at h
    exact h
  exact jumpAll_congr T rb rbG (fun t => coarseStep (fun _ => v t) (loc t) (a t) (H t))
    (fun t => coarseStep (fun _ => v t) (loc t) (a2 t) (F t)) hT hS hR
    (fun t => (h1 t).1.trans (hF t)) (fun t => (h1 t).trans (h2 t).symm) h3 s hs

/-- The reduce and transposed basis product of a preconditioned multiplier
depends on the entries of the multiplier below `_mult` only. -/
theorem uc_precond_congr (T : Topology) (q : FetiPrcndtnr) (ker : Nat → LocalKernels K)
    (loc : Nat → Nat) (rb rb2 : Nat → Nat → K) (F G G2 : Nat → Feti K)
    (x x2 : Nat → Nat → K) (oo oo2 : Nat → Option (Nat → K))
    (hT : T.Matched) (hS : T.Sized) (hR : T.InRange)
    (hF : ∀ t, (F t).S = T.sub t)
    (hG : ∀ t, SameData (G t) (F t)) (hG2 : ∀ t, SameData (G2 t) (F t))
    (hx : ∀ t, t < T.n → Agree (T.sub t).mult (x t) (x2 t))
    (hev : ∀ t, t < T.n → (F t).ev = none → loc t = 0)
    (hLloc : ∀ t, t < T.n → ∀ a b : Nat → K, Agree (T.sub t).dof a b →
      Agree (T.sub t).dof (applyLocalPreconditioner q (ker t) a)
        (applyLocalPreconditioner q (ker t) b))
    (s : Nat) (hs : s < T.n) :
    Agree (loc s)
      (ucInput (loc s) (precondAll T q ker rb (fun t => ⟨G t, x t, oo t⟩) s).result (F s))
      (ucInput (loc s) (precondAll T q ker rb2 (fun t => ⟨G2 t, x2 t, oo2 t⟩) s).result
        (F s)) := by
  have hQ : Agree (T.sub s).mult
      (precondAll T q ker rb (fun t => ⟨G t, x t, oo t⟩) s).result
      (precondAll T q ker rb2 (fun t => ⟨G2 t, x2 t, oo2 t⟩) s).result :=
    precondAll_congr T q ker rb rb2 (fun t => ⟨G t, x t, oo t⟩) (fun t => ⟨G2 t, x2 t, oo2 t⟩)
      hT hS hR (fun t => (hG t).1.trans (hF t)) (fun t => (hG t).trans (hG2 t).symm) hx
      hLloc s hs
  have hQ2 : Agree (F s).S.total
      (precondAll T q ker rb (fun t => ⟨G t, x t, oo t⟩) s).result
      (precondAll T q ker rb2 (fun t => ⟨G2 t, x2 t, oo2 t⟩) s).result := by
    rw [hF s, ← hS s hs]
    exact hQ
  exact ucInput_congr (loc s) _ _ (F s) (F s) (SameData.refl _) hQ2 (hev s hs)

/-- The coarse Gram operator applied to `v` is the reduce and transposed
basis product of the preconditioned expand of the basis product of `v`,
whatever the scratch contents of the objects involved. -/
theorem coarseGram_link (T : Topology) (q : FetiPrcndtnr) (ker : Nat → LocalKernels K)
    (loc : Nat → Nat) (rb rb2 rbG : Nat → Nat → K) (F G H : Nat → Feti K)
    (v a : Nat → Nat → K) (oo : Nat → Option (Nat → K))
    (hT : T.Matched) (hS : T.Sized) (hR : T.InRange)
    (hF : ∀ t, (F t).S = T.sub t)
    (hG : ∀ t, SameData (G t) (F t)) (hH : ∀ t, SameData (H t) (F t))
    (hev : ∀ t, t < T.n → (F t).ev = none → loc t = 0)
    (hLloc : ∀ t, t < T.n → ∀ a b : Nat → K, Agree (T.sub t).dof a b →
      Agree (T.sub t).dof (applyLocalPreconditioner q (ker t) a)
        (applyLocalPreconditioner q (ker t) b))
    (s : Nat) (hs : s < T.n) :
    Agree (loc s)
      (ucInput (loc s)
        (precondAll T q ker rb2 (fun t => ⟨G t,
          (jumpAll T rb (fun t => coarseStep (fun _ => v t) (loc t) (a t) (H t)) t).dual,
          oo t⟩) s).result (F s))
      (coarseGram T q ker loc rbG F v s) := by
  have hJ0 : ∀ t, SameData
      (jumpAll T rbG (fun t => coarseStep (fun _ => v t) (loc t) (F t).dual (F t)) t) (F t) :=
    fun t => (jumpAll_same T rbG _ t).trans (coarseStep_same _ _ _ _)
  have h := uc_precond_congr T q ker loc rb2 rbG F G
    (jumpAll T rbG (fun t => coarseStep (fun _ => v t) (loc t) (F t).dual (F t)))
    (fun t => (jumpAll T rb (fun t => coarseStep (fun _ => v t) (loc t) (a t) (H t)) t).dual)
    (fun t => (jumpAll T rbG
      (fun t => coarseStep (fun _ => v t) (loc t) (F t).dual (F t)) t).dual)
    oo (fun _ => none) hT hS hR hF hG hJ0
    (fun t ht => jump_coarse_congr T loc rb rbG F H v a (fun t => (F t).dual) hT hS hR hF hH t ht)
    hev hLloc s hs
  intro j hj
  rw [h j hj, coarseGram, afterAll_dual]

/-- When every rank hands a vanishing vector to a coarse solver that maps
vanishing vectors to vanishing vectors, the result vector of `project`
vanishes below `_mult`. -/
theorem projectObjects_zero (T : Topology) (trans : Char) (q : FetiPrcndtnr)
    (ker : Nat → LocalKernels K) (solver : (Nat → Nat → K) → Nat → Nat → K) (loc : Nat → Nat)
    (rb : Nat → Nat → K) (c : Nat → Call K)
    (hT : T.Matched) (hS : T.Sized) (hR : T.InRange)
    (hF : ∀ t, (c t).F.S = T.sub t)
    (hLloc : ∀ t, t < T.n → ∀ a b : Nat → K, Agree (T.sub t).dof a b →
      Agree (T.sub t).dof (applyLocalPreconditioner q (ker t) a)
        (applyLocalPreconditioner q (ker t) b))
    (hLadd : ∀ t, t < T.n → ∀ (a b : Nat → K) (d : Nat), d < (T.sub t).dof →
      applyLocalPreconditioner q (ker t) (fun i => a i - b i) d
        = applyLocalPreconditioner q (ker t) a d - applyLocalPreconditioner q (ker t) b d)
    (hzero : ∀ v : Nat → Nat → K, (∀ t, t < T.n → ∀ j, j < loc t → v t j = 0) →
      ∀ t, t < T.n → ∀ j, j < loc t → solver v t j = 0)
    (huc : ∀ t, t < T.n → ∀ j, j < loc t →
      ucInput (loc t) (projArg trans (beforeAll T trans q ker rb c t))
        (beforeAll T trans q ker rb c t).F j = 0)
    (s : Nat) (hs : s < T.n) (k : Nat) (hk : k < (T.sub s).mult) :
    (projectObjects T trans q ker solver loc rb c s).dual k = 0 := by
  have hB : ∀ t, SameData (beforeAll T trans q ker rb c t).F (c t).F :=
    fun t => beforeAll_same T trans q ker rb c t
  have h2S : ∀ t, (solveAll solver loc trans (beforeAll T trans q ker rb c) t).S = T.sub t :=
    fun t => ((solveAll_same solver loc trans _ t).trans (hB t)).1.trans (hF t)
  have h2 : ∀ t, t < T.n → ∀ d, d < (T.sub t).dof →
      (solveAll solver loc trans (beforeAll T trans q ker rb c) t).primal d = 0 := by
    intro t ht d hd
    exact coarseStep_zero _ (loc t) _ _ (fun j hj => hzero _ huc t ht j hj) d
      (by rw [(hB t).1, hF t]; exact hd)
  have h3 : ∀ t, t < T.n → ∀ k, k < (T.sub t).mult →
      (jumpAll T rb (solveAll solver loc trans (beforeAll T trans q ker rb c)) t).dual k = 0 :=
    fun t ht k hk => jumpAll_zero T rb _ hT hS hR h2S h2 t ht k hk
  unfold projectObjects
  by_cases hN : trans = 'N'
  · subst hN
    rw [afterAll_dual]
    exact precondAll_zero T q ker rb _ hT hS hR
      (fun t => (jumpAll_same T rb _ t).1.trans (h2S t)) h3 hLloc hLadd s hs k hk
  · rw [afterAll_of_ne T trans q ker rb _ s hN]
    exact h3 s hs k hk

omit [CommRing K] in
theorem projArg_N (c : Call K) : projArg 'N' c = c.inp := by
  unfold projArg
  rw [if_neg (by decide)]

omit [CommRing K] in
theorem projArg_T (c : Call K) : projArg 'T' c = c.F.dual := by
  unfold projArg
  rw [if_pos rfl]

/-- Direction `'N'`: after a buffered `project`, the vector a second
`project` hands to the coarse solver vanishes. -/
theorem uc_second_N (T : Topology) (q : FetiPrcndtnr)
    (ker : Nat → LocalKernels K) (solver : (Nat → Nat → K) → Nat → Nat → K) (loc : Nat → Nat)
    (rb rbG : Nat → Nat → K) (F : Nat → Feti K) (x o : Nat → Nat → K)
    (hT : T.Matched) (hS : T.Sized) (hR : T.InRange)
    (hF : ∀ t, (F t).S = T.sub t)
    (hev : ∀ t, t < T.n → (F t).ev = none → loc t = 0)
    (hLloc : ∀ t, t < T.n → ∀ a b : Nat → K, Agree (T.sub t).dof a b →
      Agree (T.sub t).dof (applyLocalPreconditioner q (ker t) a)
        (applyLocalPreconditioner q (ker t) b))
    (hinv : ∀ v : Nat → Nat → K, ∀ t, t < T.n → ∀ j, j < loc t →
      coarseGram T q ker loc rbG F (solver v) t j = v t j)
    (t : Nat) (ht : t < T.n) (j : Nat) (hj : j < loc t) :
    ucInput (loc t)
      (projectAll T 'N' q ker solver loc rb (fun r => ⟨F r, x r, some (o r)⟩) t).result
      (projectAll T 'N' q ker solver loc rb (fun r => ⟨F r, x r, some (o r)⟩) t).F j = 0 := by
  have hP := projectAll_spec T 'N' q ker solver loc rb (fun r => ⟨F r, x r, some (o r)⟩) t
    (o t) rfl
  have hO : SameData
      (projectObjects T 'N' q ker solver loc rb (fun r => ⟨F r, x r, some (o r)⟩) t) (F t) :=
    projectObjects_same T 'N' q ker solver loc rb (fun r => ⟨F r, x r, some (o r)⟩) t
  have hB : beforeAll T 'N' q ker rb (fun r => ⟨F r, x r, some (o r)⟩)
      = fun r => ⟨F r, x r, some (o r)⟩ :=
    funext (fun r => beforeAll_of_ne T 'N' q ker rb _ r (by decide))
  rw [hP.1, ucInput_sub (loc t) _ (x t)
    (projectObjects T 'N' q ker solver loc rb (fun r => ⟨F r, x r, some (o r)⟩) t).dual
    _ (F t) (F t) hO hO
    (fun k hk => hP.2 k (by
      have : (F t).S.mult = (F t).S.total := by rw [hF t]; exact hS t ht
      rw [hO.1] at hk
      show k < (F t).S.mult
      omega))
    (fun h => hev t ht (hO.2.2.1 ▸ h)) j hj]
  have hg := coarseGram_link T q ker loc rb rb rbG F
    (jumpAll T rb (solveAll solver loc 'N' (fun r => ⟨F r, x r, some (o r)⟩)))
    F (solver (fun r => ucInput (loc r) (x r) (F r))) x (fun _ => none) hT hS hR hF
    (fun r => (jumpAll_same T rb _ r).trans (solveAll_same solver loc 'N' _ r))
    (fun r => SameData.refl _) hev hLloc t ht j hj
  have hD : (projectObjects T 'N' q ker solver loc rb (fun r => ⟨F r, x r, some (o r)⟩) t).dual
      = (precondAll T q ker rb (fun r =>
          ⟨jumpAll T rb (solveAll solver loc 'N' (fun r => ⟨F r, x r, some (o r)⟩)) r,
           (jumpAll T rb (fun r => coarseStep
              (fun _ => solver (fun r => ucInput (loc r) (x r) (F r)) r) (loc r) (x r) (F r))
              r).dual, none⟩) t).result := by
    unfold projectObjects
    rw [hB, afterAll_dual]
    rfl
  rw [hD, hg, hinv _ t ht j hj, sub_self]

/-- Direction `'T'`: let `D` be the expand of the basis product of the
coarse solution of a first `project` of `x`. For a multiplier `y` that is
`x - D` below `_mult`, the vector a `project` of `y` hands to the coarse
solver vanishes. -/
theorem uc_second_T (T : Topology) (q : FetiPrcndtnr)
    (ker : Nat → LocalKernels K) (solver : (Nat → Nat → K) → Nat → Nat → K) (loc : Nat → Nat)
    (rb rb2 rbG : Nat → Nat → K) (F G : Nat → Feti K) (x y : Nat → Nat → K)
    (oo oo2 : Nat → Option (Nat → K))
    (hT : T.Matched) (hS : T.Sized) (hR : T.InRange)
    (hF : ∀ t, (F t).S = T.sub t) (hG : ∀ t, SameData (G t) (F t))
    (hev : ∀ t, t < T.n → (F t).ev = none → loc t = 0)
    (hLloc : ∀ t, t < T.n → ∀ a b : Nat → K, Agree (T.sub t).dof a b →
      Agree (T.sub t).dof (applyLocalPreconditioner q (ker t) a)
        (applyLocalPreconditioner q (ker t) b))
    (hLadd : ∀ t, t < T.n → ∀ (a b : Nat → K) (d : Nat), d < (T.sub t).dof →
      applyLocalPreconditioner q (ker t) (fun i => a i - b i) d
        = applyLocalPreconditioner q (ker t) a d - applyLocalPreconditioner q (ker t) b d)
    (hinv : ∀ v : Nat → Nat → K, ∀ t, t < T.n → ∀ j, j < loc t →
      coarseGram T q ker loc rbG F (solver v) t j = v t j)
    (hy : ∀ r, r < T.n → ∀ k, k < (T.sub r).mult → y r k = x r k -
      (jumpAll T rb (fun r => coarseStep
          (fun _ => solver (fun r => ucInput (loc r)
            (projArg 'T' (beforeAll T 'T' q ker rb (fun r => ⟨F r, x r, oo r⟩) r))
            (beforeAll T 'T' q ker rb (fun r => ⟨F r, x r, oo r⟩) r).F) r)
          (loc r)
          (projArg 'T' (beforeAll T 'T' q ker rb (fun r => ⟨F r, x r, oo r⟩) r))
          (beforeAll T 'T' q ker rb (fun r => ⟨F r, x r, oo r⟩) r).F) r).dual k)
    (t : Nat) (ht : t < T.n) (j : Nat) (hj : j < loc t) :
    ucInput (loc t)
      (beforeAll T 'T' q ker rb2 (fun r => ⟨G r, y r, oo2 r⟩) t).F.dual
      (beforeAll T 'T' q ker rb2 (fun r => ⟨G r, y r, oo2 r⟩) t).F j = 0 := by
  have hB := fun r => beforeAll_spec T q ker rb (fun r => ⟨F r, x r, oo r⟩) r
  have hB2 := beforeAll_spec T q ker rb2 (fun r => ⟨G r, y r, oo2 r⟩) t
  have hB2F : SameData (beforeAll T 'T' q ker rb2 (fun r => ⟨G r, y r, oo2 r⟩) t).F (F t) :=
    hB2.2.2.2.trans (hG t)
  have hBF : SameData (beforeAll T 'T' q ker rb (fun r => ⟨F r, x r, oo r⟩) t).F (F t) :=
    (hB t).2.2.2
  have hg := coarseGram_link T q ker loc rb rb rbG F F
    (fun r => (beforeAll T 'T' q ker rb (fun r => ⟨F r, x r, oo r⟩) r).F)
    (solver (fun r => ucInput (loc r)
      (projArg 'T' (beforeAll T 'T' q ker rb (fun r => ⟨F r, x r, oo r⟩) r))
      (beforeAll T 'T' q ker rb (fun r => ⟨F r, x r, oo r⟩) r).F))
    (fun r => projArg 'T' (beforeAll T 'T' q ker rb (fun r => ⟨F r, x r, oo r⟩) r))
    (fun _ => none) hT hS hR hF (fun r => SameData.refl _) (fun r => (hB r).2.2.2)
    hev hLloc t ht j hj
  have hsub := precondAll_sub T q ker rb2 rb rb
    (fun r => ⟨G r, y r, some (G r).dual⟩)
    (fun r => ⟨F r, x r, some (F r).dual⟩)
    (fun r => ⟨F r, (jumpAll T rb (fun r => coarseStep
          (fun _ => solver (fun r => ucInput (loc r)
            (projArg 'T' (beforeAll T 'T' q ker rb (fun r => ⟨F r, x r, oo r⟩) r))
            (beforeAll T 'T' q ker rb (fun r => ⟨F r, x r, oo r⟩) r).F) r)
          (loc r)
          (projArg 'T' (beforeAll T 'T' q ker rb (fun r => ⟨F r, x r, oo r⟩) r))
          (beforeAll T 'T' q ker rb (fun r => ⟨F r, x r, oo r⟩) r).F) r).dual, none⟩)
    hT hS hR (fun r => (hG r).1.trans (hF r)) hG hG hy hLloc hLadd t ht
  have h1 : (beforeAll T 'T' q ker rb2 (fun r => ⟨G r, y r, oo2 r⟩) t).F.dual
      = (precondAll T q ker rb2 (fun r => ⟨G r, y r, some (G r).dual⟩) t).result := hB2.1
  have h2 : (beforeAll T 'T' q ker rb (fun r => ⟨F r, x r, oo r⟩) t).F.dual
      = (precondAll T q ker rb (fun r => ⟨F r, x r, some (F r).dual⟩) t).result := (hB t).1
  rw [ucInput_sub (loc t) _
    (beforeAll T 'T' q ker rb (fun r => ⟨F r, x r, oo r⟩) t).F.dual
    (precondAll T q ker rb (fun r => ⟨F r, (jumpAll T rb (fun r => coarseStep
          (fun _ => solver (fun r => ucInput (loc r)
            (projArg 'T' (beforeAll T 'T' q ker rb (fun r => ⟨F r, x r, oo r⟩) r))
            (beforeAll T 'T' q ker rb (fun r => ⟨F r, x r, oo r⟩) r).F) r)
          (loc r)
          (projArg 'T' (beforeAll T 'T' q ker rb (fun r => ⟨F r, x r, oo r⟩) r))
          (beforeAll T 'T' q ker rb (fun r => ⟨F r, x r, oo r⟩) r).F) r).dual, none⟩) t).result
    _ (beforeAll T 'T' q ker rb (fun r => ⟨F r, x r, oo r⟩) t).F (F t)
    (hB2F.trans hBF.symm) hB2F
    (fun k hk => by
      rw [hB2F.1, hF t, ← hS t ht] at hk
      rw [h1, h2]
      exact hsub k hk)
    (fun h => hev t ht (hB2F.2.2.1 ▸ h)) j hj]
  rw [hg, hinv _ t ht j hj, projArg_T, sub_self]

end ProjectLemmas

section Claims

variable {K : Type} [CommRing K]

/-- C1 (reduce, `A<'T', scale>`): every interface unknown `d` ends as the sum
over the entries `(i, j)` with `map[i][j] = d` of `sigma_i * w_ij * dual[i][j]`;
the old contents of `primal` play no part, an unknown referenced by no
neighbour ends at `0`, and `dual` is unchanged. -/
theorem C1_reduce (S : Subdomain) (m : Nat → K) (scale : Bool) (st : JumpMem K)
    (d : Nat) (hd : d < S.dof) :
    (A_T S m scale st).primal d = reduceSum S m scale st.dual d ∧
    (∀ p : Nat → K, (A_T S m scale { st with primal := p }).primal d
        = (A_T S m scale st).primal d) ∧
    ((∀ i, i < S.nbs → ∀ j, j < S.size i → S.idx i j ≠ d) →
        (A_T S m scale st).primal d = 0) ∧
    (A_T S m scale st).dual = st.dual := by
  have hspec : ∀ t : JumpMem K, (A_T S m scale t).primal d = reduceSum S m scale t.dual d := by
    intro t
    rw [(A_T_spec S m scale t).2 d]
    simp [fill, hd]
  refine ⟨hspec st, fun p => by rw [hspec, hspec], fun hno => ?_, (A_T_spec S m scale st).1⟩
  rw [hspec, reduceSum]
  refine Finset.sum_eq_zero (fun i hi => Finset.sum_eq_zero (fun j hj => ?_))
  rw [if_neg (hno i (Finset.mem_range.mp hi) j (Finset.mem_range.mp hj))]

/-- C1 at `exS`, unknown `1`, with scaling. -/
theorem C1_reduce_witness :
    (A_T exS exM true exMem).primal 1 = reduceSum exS exM true exMem.dual 1 ∧
    (∀ p : Nat → ℤ, (A_T exS exM true { exMem with primal := p }).primal 1
        = (A_T exS exM true exMem).primal 1) ∧
    ((∀ i, i < exS.nbs → ∀ j, j < exS.size i → exS.idx i j ≠ 1) →
        (A_T exS exM true exMem).primal 1 = 0) ∧
    (A_T exS exM true exMem).dual = exMem.dual :=
  C1_reduce exS exM true exMem 1 (by decide)

/-- C2 (expand, `A<'N', scale>`): on rank `s`, entry `j` of block `i` of
`dual` ends as `sigma_i * w_ij * primal[map[i][j]] + recv[i][j]` for whatever
was received; the value received in the collective call is the signed,
optionally scaled contribution of neighbour `i` for position `j`; the old
contents of `dual` play no part and `primal` is unchanged. -/
theorem C2_expand (T : Topology) (m : Nat → Nat → K) (scale : Bool) (rb : Nat → Nat → K)
    (st : Nat → JumpMem K) (hT : T.Matched) (hS : T.Sized)
    (s : Nat) (hs : s < T.n) (i : Nat) (hi : i < (T.sub s).nbs)
    (j : Nat) (hj : j < (T.sub s).size i) :
    (∀ rbuff : Nat → K,
      (A_N (T.sub s) (m s) scale rbuff (st s)).dual ((T.sub s).off i + j)
        = sigma (T.sub s) i * weight (T.sub s) (m s) scale i j
            * (st s).primal ((T.sub s).idx i j) + rbuff ((T.sub s).off i + j)) ∧
    exchange T (fun t => (A_N_send (T.sub t) (m t) scale (st t)).dual) s (rb s)
        ((T.sub s).off i + j)
      = sigma (T.sub ((T.sub s).rank i)) (T.peer s i)
          * weight (T.sub ((T.sub s).rank i)) (m ((T.sub s).rank i)) scale (T.peer s i) j
          * (st ((T.sub s).rank i)).primal ((T.sub ((T.sub s).rank i)).idx (T.peer s i) j) ∧
    (expandAll T m scale rb st s).dual ((T.sub s).off i + j)
      = sigma (T.sub s) i * weight (T.sub s) (m s) scale i j
            * (st s).primal ((T.sub s).idx i j)
        + sigma (T.sub ((T.sub s).rank i)) (T.peer s i)
          * weight (T.sub ((T.sub s).rank i)) (m ((T.sub s).rank i)) scale (T.peer s i) j
          * (st ((T.sub s).rank i)).primal ((T.sub ((T.sub s).rank i)).idx (T.peer s i) j) ∧
    (∀ (rbuff dl : Nat → K),
      (A_N (T.sub s) (m s) scale rbuff { st s with dual := dl }).dual ((T.sub s).off i + j)
        = (A_N (T.sub s) (m s) scale rbuff (st s)).dual ((T.sub s).off i + j)) ∧
    (∀ rbuff : Nat → K, (A_N (T.sub s) (m s) scale rbuff (st s)).primal = (st s).primal) := by
  obtain ⟨_, hpn, _, _, hsz⟩ := hT s hs i hi
  have hown : ∀ (rbuff : Nat → K) (t : JumpMem K),
      (A_N (T.sub s) (m s) scale rbuff t).dual ((T.sub s).off i + j)
        = sigma (T.sub s) i * weight (T.sub s) (m s) scale i j
            * t.primal ((T.sub s).idx i j) + rbuff ((T.sub s).off i + j) :=
    fun rbuff t => (A_N_spec (T.sub s) (m s) scale rbuff t (hS s hs)).2.1 i j hi hj
  refine ⟨fun rbuff => hown rbuff (st s), ?_, expandAll_entry T m scale rb st hT hS s hs i hi j hj,
    fun rbuff dl => ?_, fun rbuff => ?_⟩
  · rw [exchange_spec T _ s (rb s) i j hi hj]
    exact (A_N_send_spec _ _ scale _).2.1 (T.peer s i) j hpn (by rw [hsz]; exact hj)
  · rw [hown, hown]
  · exact (A_N_spec (T.sub s) (m s) scale rbuff (st s) (hS s hs)).1

/-- C2 at rank `1` of `exT`, block `0`, position `1`, with scaling. -/
theorem C2_expand_witness :
    exT.Matched ∧ exT.Sized ∧
    (expandAll exT exW true exRb exSt 1).dual ((exT.sub 1).off 0 + 1)
      = sigma (exT.sub 1) 0 * weight (exT.sub 1) (exW 1) true 0 1
            * (exSt 1).primal ((exT.sub 1).idx 0 1)
        + sigma (exT.sub ((exT.sub 1).rank 0)) (exT.peer 1 0)
          * weight (exT.sub ((exT.sub 1).rank 0)) (exW ((exT.sub 1).rank 0)) true (exT.peer 1 0) 1
          * (exSt ((exT.sub 1).rank 0)).primal
              ((exT.sub ((exT.sub 1).rank 0)).idx (exT.peer 1 0) 1) :=
  ⟨by decide, by decide,
    (C2_expand exT exW true exRb exSt (by decide) (by decide) 1 (by decide) 0 (by decide) 1
      (by decide)).2.2.1⟩

/-- C3 (amended): two subdomains `o` (owning, `_signed = 1`) and `p`
(`_signed = 0`) share one interface with distinct unknowns aligned by
position. After the unscaled expand on both, the unscaled reduce yields at
every shared unknown the local value minus the value of the other side: the
owner-minus-nonowner difference on the owning subdomain and its opposite on
the other subdomain. -/
theorem C3_expand_then_reduce (T : Topology) (o p : Nat) (dsO dsN : List Nat)
    (m rb u dl : Nat → Nat → K)
    (hn : T.n = 2) (ho : o < 2) (hp : p < 2) (hop : o ≠ p)
    (hmo : (T.sub o).map = [(p, dsO)]) (hmp : (T.sub p).map = [(o, dsN)])
    (hso : (T.sub o).signed = 1) (hsp : (T.sub p).signed = 0)
    (hlen : dsO.length = dsN.length)
    (hmultO : (T.sub o).mult = dsO.length) (hmultN : (T.sub p).mult = dsN.length)
    (hndO : dsO.Nodup) (hndN : dsN.Nodup)
    (hrO : ∀ d, d ∈ dsO → d < (T.sub o).dof) (hrN : ∀ d, d ∈ dsN → d < (T.sub p).dof)
    (j : Nat) (hj : j < dsO.length) :
    (A_T (T.sub o) (m o) false
        (expandAll T m false rb (fun s => ⟨u s, dl s⟩) o)).primal (dsO.getD j 0)
      = u o (dsO.getD j 0) - u p (dsN.getD j 0) ∧
    (A_T (T.sub p) (m p) false
        (expandAll T m false rb (fun s => ⟨u s, dl s⟩) p)).primal (dsN.getD j 0)
      = u p (dsN.getD j 0) - u o (dsO.getD j 0) := by
  obtain ⟨hT, hS, po, pp⟩ :=
    two_subdomains T o p dsO dsN hn ho hp hop hmo hmp hlen hmultO hmultN
  obtain ⟨no, ro, so, io, _⟩ := (T.sub o).single p dsO hmo
  obtain ⟨np, rp, sp, ip, _⟩ := (T.sub p).single o dsN hmp
  have hjN : j < dsN.length := hlen ▸ hj
  have eo := expandAll_entry T m false rb (fun s => ⟨u s, dl s⟩) hT hS o (hn ▸ ho) 0
    (by omega) j (by omega)
  have ep := expandAll_entry T m false rb (fun s => ⟨u s, dl s⟩) hT hS p (hn ▸ hp) 0
    (by omega) j (by omega)
  rw [ro, po] at eo
  rw [rp, pp] at ep
  have ao := A_T_single (T.sub o) (m o) false
    (expandAll T m false rb (fun s => ⟨u s, dl s⟩) o) 0 j (by omega) (by omega)
    (by rw [io]; exact hrO _ (by rw [List.getD_eq_getElem _ _ hj]; exact List.getElem_mem hj))
    (fun a b ha hb e => by
      have ha0 : a = 0 := by omega
      subst ha0
      rw [io, io] at e
      exact ⟨rfl, getD_inj_of_nodup dsO hndO b j (by omega) hj e⟩)
  have ap := A_T_single (T.sub p) (m p) false
    (expandAll T m false rb (fun s => ⟨u s, dl s⟩) p) 0 j (by omega) (by omega)
    (by rw [ip]; exact hrN _ (by rw [List.getD_eq_getElem _ _ hjN]; exact List.getElem_mem hjN))
    (fun a b ha hb e => by
      have ha0 : a = 0 := by omega
      subst ha0
      rw [ip, ip] at e
      exact ⟨rfl, getD_inj_of_nodup dsN hndN b j (by omega) hjN e⟩)
  rw [io] at ao
  rw [ip] at ap
  rw [ao, ap, eo, ep]
  simp only [sigma, weight, hso, hsp, io, ip]
  constructor <;> simp <;> ring

/-- C3 as stated fails on the non-owning subdomain: on rank `0` of `exT2`
expand then reduce leaves `-8` at the shared unknown `2`, while the
owner-minus-nonowner difference there is `8`. -/
theorem C3_counterexample :
    (A_T (exT2.sub 0) (exW 0) false
        (expandAll exT2 exW false exRb (fun s => ⟨(exSt s).primal, (exSt s).dual⟩) 0)).primal 2
      = -8 ∧
    (exSt 1).primal 0 - (exSt 0).primal 2 = 8 := by
  decide

/-- C3 (amended) at `exT2`, first position of the interface. -/
theorem C3_expand_then_reduce_witness :
    (A_T (exT2.sub 1) (exW 1) false
        (expandAll exT2 exW false exRb (fun s => ⟨(exSt s).primal, (exSt s).dual⟩) 1)).primal
        ([0, 1, 3].getD 0 0)
      = (exSt 1).primal ([0, 1, 3].getD 0 0) - (exSt 0).primal ([2, 0, 1].getD 0 0) ∧
    (A_T (exT2.sub 0) (exW 0) false
        (expandAll exT2 exW false exRb (fun s => ⟨(exSt s).primal, (exSt s).dual⟩) 0)).primal
        ([2, 0, 1].getD 0 0)
      = (exSt 0).primal ([2, 0, 1].getD 0 0) - (exSt 1).primal ([0, 1, 3].getD 0 0) :=
  C3_expand_then_reduce exT2 1 0 [0, 1, 3] [2, 0, 1] exW exRb (fun s => (exSt s).primal)
    (fun s => (exSt s).dual) rfl (by decide) (by decide) (by decide) rfl rfl rfl rfl rfl rfl rfl
    (by decide) (by decide) (by decide) (by decide) 0 (by decide)

/-- C8 (amended): with no coarse operator, on a subdomain-owning rank the
buffered `project` copies `in` to `out` over the length `_mult` and leaves
`in` unchanged, and the in-place call changes nothing; on a coarse-only rank
the call changes nothing at all, `out` included. -/
theorem C8_project_no_coarse (trans : Char) (q : FetiPrcndtnr) (ker : LocalKernels K)
    (solve : (Nat → K) → Nat → K) (rbPre rbJump : Nat → K) (F : Feti K)
    (inp o : Nat → K) (out : Option (Nat → K)) (hco : F.co = none) :
    (∃ r, (project false trans q ker solve rbPre rbJump ⟨F, inp, some o⟩).out = some r ∧
      ∀ k, k < F.S.mult → r k = inp k) ∧
    (project false trans q ker solve rbPre rbJump ⟨F, inp, some o⟩).inp = inp ∧
    (project false trans q ker solve rbPre rbJump ⟨F, inp, some o⟩).F = F ∧
    project false trans q ker solve rbPre rbJump ⟨F, inp, none⟩ = ⟨F, inp, none⟩ ∧
    project true trans q ker solve rbPre rbJump ⟨F, inp, out⟩ = ⟨F, inp, out⟩ := by
  refine ⟨⟨copy inp F.S.mult o, ?_, fun k hk => ?_⟩, ?_, ?_, ?_, ?_⟩
  · simp [project, hco]
  · simp [copy, hk]
  · simp [project, hco]
  · simp [project, hco]
  · simp [project, hco]
  · simp [project, hco]

/-- C8 as stated fails on a coarse-only rank: the buffered call leaves
`out` as it was, here `0` at entry `0` where `in` holds `1`. -/
theorem C8_counterexample :
    ((project true 'N' FetiPrcndtnr.NONE exKer id exMem.dual exMem.dual
        ⟨exF, exMem.dual, some (fun _ => 0)⟩).out.getD (fun _ => 7)) 0 = 0 ∧
    exMem.dual 0 = 1 ∧ 0 < exF.S.mult ∧ exF.co = none := by
  decide

/-- C8 (amended) on `exF`. -/
theorem C8_project_no_coarse_witness :
    project true 'T' FetiPrcndtnr.LUMPED exKer id exMem.dual exMem.dual
        ⟨exF, exMem.dual, some exMem.primal⟩ = ⟨exF, exMem.dual, some exMem.primal⟩ :=
  (C8_project_no_coarse 'T' FetiPrcndtnr.LUMPED exKer id exMem.dual exMem.dual exF
    exMem.dual exMem.primal (some exMem.primal) rfl).2.2.2.2

/-- C9 (amended): on a subdomain-owning rank with a coarse operator, let
`result` be the content of `_dual` after the reduce, coarse solve, expand and
preconditioner steps (the same for both forms of the call). The buffered call
sets `out[k] = in[k] - result[k]` for `k < _mult` and leaves `in` unchanged;
the in-place call sets `in[k]` to `in[k] + d__2 * result[k] = in[k] - result[k]`,
the same projection. -/
theorem C9_project_combine (trans : Char) (q : FetiPrcndtnr) (ker : LocalKernels K)
    (solve : (Nat → K) → Nat → K) (rbPre rbJump : Nat → K) (F : Feti K)
    (inp o : Nat → K) (loc : Nat) (hco : F.co = some loc) :
    (project false trans q ker solve rbPre rbJump ⟨F, inp, some o⟩).F
      = (project false trans q ker solve rbPre rbJump ⟨F, inp, none⟩).F ∧
    (∃ r, (project false trans q ker solve rbPre rbJump ⟨F, inp, some o⟩).out = some r ∧
      ∀ k, k < F.S.mult → r k = inp k
        - (project false trans q ker solve rbPre rbJump ⟨F, inp, some o⟩).F.dual k) ∧
    (project false trans q ker solve rbPre rbJump ⟨F, inp, some o⟩).inp = inp ∧
    (project false trans q ker solve rbPre rbJump ⟨F, inp, none⟩).out = none ∧
    (∀ k, k < F.S.mult →
      (project false trans q ker solve rbPre rbJump ⟨F, inp, none⟩).inp k
        = inp k - (project false trans q ker solve rbPre rbJump ⟨F, inp, none⟩).F.dual k) := by
  have hS := fun out => (project_F trans q ker solve rbPre rbJump F inp out loc hco).2
  have hb := fun out => projBefore_spec trans q ker rbPre ⟨F, inp, out⟩
  refine ⟨(project_F trans q ker solve rbPre rbJump F inp (some o) loc hco).1, ?_, ?_, ?_, ?_⟩
  · have hS1 := hS (some o)
    simp only [project, hco, Bool.not_false, if_true, projCombine, (hb (some o)).2.1,
      (hb (some o)).1] at hS1 ⊢
    exact ⟨_, rfl, fun k hk => by rw [hS1]; simp [hk]⟩
  · simp only [project, hco, Bool.not_false, if_true, projCombine, (hb (some o)).2.1,
      (hb (some o)).1]
  · simp only [project, hco, Bool.not_false, if_true, projCombine, (hb none).2.1]
  · intro k hk
    have hS1 := hS none
    simp only [project, hco, Bool.not_false, if_true, projCombine, (hb none).2.1,
      (hb none).1] at hS1 ⊢
    rw [hS1]
    simp only [axpy, if_pos hk, d__2]
    ring

/-- C9 as stated fails for the in-place call: on `exFco` (no eigenvectors,
transposed direction) the result vector holds `5` at entry `0` and `in`
starts at `1`; the call leaves `1 - 5 = -4` there, not `1 + (-2) * 5 = -9`. -/
theorem C9_counterexample :
    (project false 'T' FetiPrcndtnr.NONE exKer id (fun _ => 0) (fun _ => 5)
        ⟨exFco, exMem.dual, none⟩).F.dual 0 = 5 ∧
    exMem.dual 0 = 1 ∧
    (project false 'T' FetiPrcndtnr.NONE exKer id (fun _ => 0) (fun _ => 5)
        ⟨exFco, exMem.dual, none⟩).inp 0 = -4 ∧
    exMem.dual 0 + (-2) * 5 = -9 := by
  decide

/-- C9 (amended) on `exFco`. -/
theorem C9_project_combine_witness :
    (project false 'T' FetiPrcndtnr.NONE exKer id (fun _ => 0) (fun _ => 5)
        ⟨exFco, exMem.dual, none⟩).inp 0
      = exMem.dual 0 - (project false 'T' FetiPrcndtnr.NONE exKer id (fun _ => 0) (fun _ => 5)
        ⟨exFco, exMem.dual, none⟩).F.dual 0 :=
  (C9_project_combine 'T' FetiPrcndtnr.NONE exKer id (fun _ => 0) (fun _ => 5) exFco
    exMem.dual exMem.primal 0 rfl).2.2.2.2 0 (by decide)

/-- The collective `project` is the per-rank `project<false, trans>` run
with what the rank receives: the coarse solution of the vectors handed in by
all ranks, and the buffers its neighbours send in the two exchanges. -/
theorem projectAll_eq_project (T : Topology) (trans : Char) (q : FetiPrcndtnr)
    (ker : Nat → LocalKernels K) (solver : (Nat → Nat → K) → Nat → Nat → K) (loc : Nat → Nat)
    (rb : Nat → Nat → K) (c : Nat → Call K) (s : Nat) (hco : (c s).F.co = some (loc s)) :
    projectAll T trans q ker solver loc rb c s
      = project false trans q (ker s)
          (fun _ => solver (fun t => ucInput (loc t)
            (projArg trans (beforeAll T trans q ker rb c t))
            (beforeAll T trans q ker rb c t).F) s)
          (if trans = 'T'
            then exchange T (fun t => precondSend q (ker t)
              ⟨(c t).F, (c t).inp, some (c t).F.dual⟩) s (rb s)
            else exchange T (fun t => precondSend q (ker t)
              ⟨jumpAll T rb (solveAll solver loc trans (beforeAll T trans q ker rb c)) t,
               (jumpAll T rb (solveAll solver loc trans (beforeAll T trans q ker rb c)) t).dual,
               none⟩) s (rb s))
          (exchange T (fun t => (A_N_send
              (solveAll solver loc trans (beforeAll T trans q ker rb c) t).S
              (solveAll solver loc trans (beforeAll T trans q ker rb c) t).m false
              ⟨(solveAll solver loc trans (beforeAll T trans q ker rb c) t).primal,
               (solveAll solver loc trans (beforeAll T trans q ker rb c) t).dual⟩).dual) s (rb s))
          (c s) := by
  simp only [project, hco, Bool.not_false, if_true]
  by_cases hT : trans = 'T'
  · subst hT
    simp only [if_true]
    have hN : ('T' : Char) ≠ 'N' := by decide
    simp only [projectAll, projectObjects, afterAll, projAfter, if_neg hN, jumpAll, solveAll,
      beforeAll]
  · simp only [if_neg hT]
    simp only [projectAll, projectObjects, afterAll, jumpAll, solveAll, beforeAll, projBefore,
      if_neg hT]

/-- C10 (buffered `project` is idempotent): on a matched topology, let the
coarse solve be a right inverse of the coarse Gram operator `G Q G^T` built
from the same basis, jump operator and preconditioner, and map vanishing
vectors to vanishing vectors; let the local preconditioner action be additive
and read its argument below `_dof` only. Then for either direction and every
family of multipliers `x`, projecting the result of `project` again gives the
same multiplier below `_mult`. -/
theorem C10_project_idempotent (T : Topology) (trans : Char) (q : FetiPrcndtnr)
    (ker : Nat → LocalKernels K) (solver : (Nat → Nat → K) → Nat → Nat → K) (loc : Nat → Nat)
    (rb rb2 rbG : Nat → Nat → K) (F : Nat → Feti K) (x o o2 : Nat → Nat → K)
    (htr : trans = 'N' ∨ trans = 'T')
    (hT : T.Matched) (hS : T.Sized) (hR : T.InRange)
    (hF : ∀ t, (F t).S = T.sub t)
    (hev : ∀ t, t < T.n → (F t).ev = none → loc t = 0)
    (hLloc : ∀ t, t < T.n → ∀ a b : Nat → K, Agree (T.sub t).dof a b →
      Agree (T.sub t).dof (applyLocalPreconditioner q (ker t) a)
        (applyLocalPreconditioner q (ker t) b))
    (hLadd : ∀ t, t < T.n → ∀ (a b : Nat → K) (d : Nat), d < (T.sub t).dof →
      applyLocalPreconditioner q (ker t) (fun i => a i - b i) d
        = applyLocalPreconditioner q (ker t) a d - applyLocalPreconditioner q (ker t) b d)
    (hzero : ∀ v : Nat → Nat → K, (∀ t, t < T.n → ∀ j, j < loc t → v t j = 0) →
      ∀ t, t < T.n → ∀ j, j < loc t → solver v t j = 0)
    (hinv : ∀ v : Nat → Nat → K, ∀ t, t < T.n → ∀ j, j < loc t →
      coarseGram T q ker loc rbG F (solver v) t j = v t j)
    (s : Nat) (hs : s < T.n) (k : Nat) (hk : k < (T.sub s).mult) :
    (projectAll T trans q ker solver loc rb2 (fun r =>
        ⟨(projectAll T trans q ker solver loc rb (fun r => ⟨F r, x r, some (o r)⟩) r).F,
         (projectAll T trans q ker solver loc rb (fun r => ⟨F r, x r, some (o r)⟩) r).result,
         some (o2 r)⟩) s).result k
      = (projectAll T trans q ker solver loc rb (fun r => ⟨F r, x r, some (o r)⟩) s).result k := by
  have hP := fun r => projectAll_spec T trans q ker solver loc rb
    (fun r => ⟨F r, x r, some (o r)⟩) r (o r) rfl
  have hPF : ∀ r, SameData
      (projectAll T trans q ker solver loc rb (fun r => ⟨F r, x r, some (o r)⟩) r).F (F r) :=
    fun r => by
      rw [(hP r).1]
      exact projectObjects_same T trans q ker solver loc rb _ r
  have hPS : ∀ r,
      (projectAll T trans q ker solver loc rb (fun r => ⟨F r, x r, some (o r)⟩) r).F.S
        = T.sub r := fun r => (hPF r).1.trans (hF r)
  have huc : ∀ t, t < T.n → ∀ j, j < loc t →
      ucInput (loc t) (projArg trans (beforeAll T trans q ker rb2 (fun r =>
        ⟨(projectAll T trans q ker solver loc rb (fun r => ⟨F r, x r, some (o r)⟩) r).F,
         (projectAll T trans q ker solver loc rb (fun r => ⟨F r, x r, some (o r)⟩) r).result,
         some (o2 r)⟩) t))
        (beforeAll T trans q ker rb2 (fun r =>
        ⟨(projectAll T trans q ker solver loc rb (fun r => ⟨F r, x r, some (o r)⟩) r).F,
         (projectAll T trans q ker solver loc rb (fun r => ⟨F r, x r, some (o r)⟩) r).result,
         some (o2 r)⟩) t).F j = 0 := by
    intro t ht j hj
    rcases htr with rfl | rfl
    · rw [beforeAll_of_ne T 'N' q ker rb2 _ t (by decide), projArg_N]
      exact uc_second_N T q ker solver loc rb rbG F x o hT hS hR hF hev hLloc hinv t ht j hj
    · rw [projArg_T]
      refine uc_second_T T q ker solver loc rb rb2 rbG F _ x _ (fun r => some (o r))
        (fun r => some (o2 r)) hT hS hR hF hPF hev hLloc hLadd hinv (fun r hr k hk => ?_)
        t ht j hj
      rw [(hP r).2 k (by show k < (F r).S.mult; rw [hF r]; exact hk)]
      congr 1
  have hz := projectObjects_zero T trans q ker solver loc rb2 (fun r =>
        ⟨(projectAll T trans q ker solver loc rb (fun r => ⟨F r, x r, some (o r)⟩) r).F,
         (projectAll T trans q ker solver loc rb (fun r => ⟨F r, x r, some (o r)⟩) r).result,
         some (o2 r)⟩) hT hS hR hPS hLloc hLadd hzero huc s hs k hk
  rw [(projectAll_spec T trans q ker solver loc rb2 _ s (o2 s) rfl).2 k
    (by show k < (projectAll T trans q ker solver loc rb
          (fun r => ⟨F r, x r, some (o r)⟩) s).F.S.mult
        rw [hPS s]; exact hk), hz, sub_zero]

end Claims

section FieldLemmas

variable {K : Type} [Field K] [CharZero K]

omit [CharZero K] in
theorem computeDot_comm (T : Topology) (extra : Nat) (a b : Nat → Nat → K) :
    computeDot T extra a b = computeDot T extra b a := by
  rw [computeDot_eq, computeDot_eq]
  exact congrArg (fun v => v / 2) (Finset.sum_congr rfl (fun s _ => dot_comm _ _ _))

/-- `computeDot` of the collective `precond` of the calls `c` with a
consistent multiplier `y`: the sum over the ranks of the Euclidean pairing of
`L (reduce in)` with `reduce y`. -/
theorem computeDot_precond (T : Topology) (extra : Nat) (q : FetiPrcndtnr)
    (ker : Nat → LocalKernels K) (rb : Nat → Nat → K) (c : Nat → Call K) (y p : Nat → Nat → K)
    (hT : T.Matched) (hS : T.Sized) (hR : T.InRange) (hF : ∀ s, (c s).F.S = T.sub s)
    (hy : Consistent T y) :
    computeDot T extra (fun s => (precondAll T q ker rb c s).result) y
      = ∑ s in Finset.range T.n, ∑ d in Finset.range (T.sub s).dof,
          applyLocalPreconditioner q (ker s)
              (A_T (T.sub s) (c s).F.m true ⟨(c s).F.primal, (c s).inp⟩).primal d
            * (A_T (T.sub s) (c s).F.m true ⟨p s, y s⟩).primal d := by
  rw [computeDot_eq]
  have h := dot_precond T q ker rb c y p hT hS hR hF hy
  have h2 : ∑ s in Finset.range T.n, dot (T.sub s).mult (precondAll T q ker rb c s).result (y s)
      = 2 * ∑ s in Finset.range T.n, ∑ d in Finset.range (T.sub s).dof,
          applyLocalPreconditioner q (ker s)
              (A_T (T.sub s) (c s).F.m true ⟨(c s).F.primal, (c s).inp⟩).primal d
            * (A_T (T.sub s) (c s).F.m true ⟨p s, y s⟩).primal d := h
  rw [h2]
  exact mul_div_cancel_left₀ _ two_ne_zero

end FieldLemmas

section FieldClaims

variable {K : Type} [Field K] [CharZero K]

/-- C4 (reduce is the transpose of expand for the half-weighted inner
product): on a matched topology, for primal vectors `u s` and a consistent
multiplier `lam`, `computeDot` of the unscaled expand of `u` with `lam` is
the sum over the subdomains of the Euclidean inner product of `u s` with the
unscaled reduce of `lam`; without the factor `1/2` the left side is twice
the right side. -/
theorem C4_reduce_transpose (T : Topology) (extra : Nat) (m rb u dl p lam : Nat → Nat → K)
    (hT : T.Matched) (hS : T.Sized) (hR : T.InRange) (hc : Consistent T lam) :
    computeDot T extra
        (fun s => (expandAll T m false rb (fun t => ⟨u t, dl t⟩) s).dual) lam
      = ∑ s in Finset.range T.n, ∑ d in Finset.range (T.sub s).dof,
          u s d * (A_T (T.sub s) (m s) false ⟨p s, lam s⟩).primal d ∧
    ∑ s in Finset.range T.n, dot (T.sub s).mult
        (expandAll T m false rb (fun t => ⟨u t, dl t⟩) s).dual (lam s)
      = 2 * ∑ s in Finset.range T.n, ∑ d in Finset.range (T.sub s).dof,
          u s d * (A_T (T.sub s) (m s) false ⟨p s, lam s⟩).primal d := by
  have hred : ∑ s in Finset.range T.n, ∑ d in Finset.range (T.sub s).dof,
        u s d * (A_T (T.sub s) (m s) false ⟨p s, lam s⟩).primal d
      = ∑ s in Finset.range T.n, jumpPairing (T.sub s) (m s) false (u s) (lam s) :=
    Finset.sum_congr rfl (fun s hs =>
      inner_reduce (T.sub s) (m s) false (u s) ⟨p s, lam s⟩ (hR s (Finset.mem_range.mp hs)))
  have hexp := dot_expand T m false rb (fun t => ⟨u t, dl t⟩) lam hT hS hc
  have hdot : ∑ s in Finset.range T.n, dot (T.sub s).mult
        (expandAll T m false rb (fun t => ⟨u t, dl t⟩) s).dual (lam s)
      = 2 * ∑ s in Finset.range T.n, jumpPairing (T.sub s) (m s) false (u s) (lam s) := hexp
  refine ⟨?_, by rw [hdot, hred]⟩
  rw [computeDot_eq, hdot, hred]
  exact mul_div_cancel_left₀ _ two_ne_zero

/-- C4 on the three subdomains of `exT` with one coarse-only rank. -/
theorem C4_reduce_transpose_witness :
    computeDot exT 1
        (fun s => (expandAll exT exWQ false exWQ (fun t => ⟨exUQ t, exWQ t⟩) s).dual) exLamQ
      = ∑ s in Finset.range exT.n, ∑ d in Finset.range (exT.sub s).dof,
          exUQ s d * (A_T (exT.sub s) (exWQ s) false ⟨exUQ s, exLamQ s⟩).primal d :=
  (C4_reduce_transpose exT 1 exWQ exWQ exUQ exWQ exUQ exLamQ (by decide) (by decide)
    (by decide) (Consistent.map exT exLam (fun z : ℤ => (z : ℚ)) (by decide))).1

end FieldClaims

section OrderedClaims

variable {K : Type} [LinearOrderedField K]

/-- C7 (the global preconditioner is symmetric positive-semidefinite for
`computeDot`): on a matched topology, for any weights, if on every rank the
local action `L` is symmetric and positive-semidefinite for the Euclidean
inner product of the interface unknowns, then for consistent multipliers `x`
and `y`, `computeDot(precond(x), y) = computeDot(x, precond(y))` and
`computeDot(precond(x), x) ≥ 0`. -/
theorem C7_precond_spsd (T : Topology) (extra : Nat) (q : FetiPrcndtnr)
    (ker : Nat → LocalKernels K) (rb : Nat → Nat → K) (F : Nat → Feti K)
    (x y : Nat → Nat → K) (o : Nat → Option (Nat → K))
    (hT : T.Matched) (hS : T.Sized) (hR : T.InRange) (hF : ∀ s, (F s).S = T.sub s)
    (hx : Consistent T x) (hy : Consistent T y)
    (hsym : ∀ s, s < T.n → ∀ a b : Nat → K,
      ∑ d in Finset.range (T.sub s).dof, applyLocalPreconditioner q (ker s) a d * b d
        = ∑ d in Finset.range (T.sub s).dof, a d * applyLocalPreconditioner q (ker s) b d)
    (hpsd : ∀ s, s < T.n → ∀ a : Nat → K,
      0 ≤ ∑ d in Finset.range (T.sub s).dof, applyLocalPreconditioner q (ker s) a d * a d) :
    computeDot T extra (fun s => (precondAll T q ker rb (fun t => ⟨F t, x t, o t⟩) s).result) y
      = computeDot T extra x
          (fun s => (precondAll T q ker rb (fun t => ⟨F t, y t, o t⟩) s).result) ∧
    0 ≤ computeDot T extra
          (fun s => (precondAll T q ker rb (fun t => ⟨F t, x t, o t⟩) s).result) x := by
  have hxy := computeDot_precond T extra q ker rb (fun t => ⟨F t, x t, o t⟩) y
    (fun t => (F t).primal) hT hS hR hF hy
  have hyx := computeDot_precond T extra q ker rb (fun t => ⟨F t, y t, o t⟩) x
    (fun t => (F t).primal) hT hS hR hF hx
  have hxx := computeDot_precond T extra q ker rb (fun t => ⟨F t, x t, o t⟩) x
    (fun t => (F t).primal) hT hS hR hF hx
  constructor
  · rw [computeDot_comm T extra x, hxy, hyx]
    refine Finset.sum_congr rfl (fun s hs => ?_)
    rw [hsym s (Finset.mem_range.mp hs)]
    exact Finset.sum_congr rfl (fun d _ => mul_comm _ _)
  · rw [hxx]
    exact Finset.sum_nonneg (fun s hs => hpsd s (Finset.mem_range.mp hs) _)

/-- C7 on `exT` with the lumped kernel `u ↦ 3 u` and the multipliers
`exLamQ`, `exMuQ`. -/
theorem C7_precond_spsd_witness :
    computeDot exT 1
        (fun s => (precondAll exT FetiPrcndtnr.LUMPED (fun _ => exKerQ) exWQ
          (fun t => ⟨exFQ t, exLamQ t, none⟩) s).result) exMuQ
      = computeDot exT 1 exLamQ
          (fun s => (precondAll exT FetiPrcndtnr.LUMPED (fun _ => exKerQ) exWQ
            (fun t => ⟨exFQ t, exMuQ t, none⟩) s).result) ∧
    0 ≤ computeDot exT 1
          (fun s => (precondAll exT FetiPrcndtnr.LUMPED (fun _ => exKerQ) exWQ
            (fun t => ⟨exFQ t, exLamQ t, none⟩) s).result) exLamQ :=
  C7_precond_spsd exT 1 FetiPrcndtnr.LUMPED (fun _ => exKerQ) exWQ exFQ exLamQ exMuQ
    (fun _ => none) (by decide) (by decide) (by decide) (fun _ => rfl)
    (Consistent.map exT exLam (fun z : ℤ => (z : ℚ)) (by decide))
    (Consistent.map exT exMu (fun z : ℤ => (z : ℚ)) (by decide))
    (fun s _ a b => Finset.sum_congr rfl (fun d _ => by
      simp only [applyLocalPreconditioner, exKerQ]; ring))
    (fun s _ a => Finset.sum_nonneg (fun d _ => by
      simp only [applyLocalPreconditioner, exKerQ]
      nlinarith [mul_self_nonneg (a d)]))

end OrderedClaims

section IdempotenceWitness

/-- C10 on `exT2` with one coarse unknown, no local preconditioner and the
exact coarse solve `v ↦ v / 2`, direction `'N'`, rank `1`, entry `0`. -/
theorem C10_project_idempotent_witness :
    (projectAll exT2 'N' FetiPrcndtnr.NONE (fun _ => exKerQ) exSolver exLoc exX (fun r =>
        ⟨(projectAll exT2 'N' FetiPrcndtnr.NONE (fun _ => exKerQ) exSolver exLoc exX
            (fun r => ⟨exF2 r, exX r, some (exX r)⟩) r).F,
         (projectAll exT2 'N' FetiPrcndtnr.NONE (fun _ => exKerQ) exSolver exLoc exX
            (fun r => ⟨exF2 r, exX r, some (exX r)⟩) r).result,
         some (exX r)⟩) 1).result 0
      = (projectAll exT2 'N' FetiPrcndtnr.NONE (fun _ => exKerQ) exSolver exLoc exX
            (fun r => ⟨exF2 r, exX r, some (exX r)⟩) 1).result 0 :=
  C10_project_idempotent exT2 'N' FetiPrcndtnr.NONE (fun _ => exKerQ) exSolver exLoc exX exX
    (fun _ _ => 0) exF2 exX exX exX (Or.inl rfl) (by decide) (by decide) (by decide)
    (fun _ => rfl)
    (fun t ht h => by
      have h2 : t = 0 ∨ t = 1 := by
        have : t < 2 := ht
        omega
      rcases h2 with rfl | rfl
      · rfl
      · simp [exF2] at h)
    (fun _ _ _ _ h => h)
    (fun _ _ _ _ _ _ => rfl)
    (fun v hv t ht j hj => by
      simp only [exSolver, hv t ht j hj, zero_div])
    (fun v t ht j hj => by
      have h2 : t = 0 ∨ t = 1 := by
        have : t < 2 := ht
        omega
      rcases h2 with rfl | rfl
      · exact absurd hj (by simp [exLoc])
      · have hj0 : j = 0 := by
          have : j < 1 := hj
          omega
        subst hj0
        simp [coarseGram, ucInput, exF2, exLoc, gemv, transb, transa, d__0, d__1, evMatrix,
          evLda, exT2, Finset.sum_range_succ, afterAll, projAfter, precond,
          applyLocalPreconditioner, jumpAll, projJump, coarseStep, A_T, A_N, A_N_send, forRange,
          loop_succ_eq, loop_zero_eq, Subdomain.size, Subdomain.nbs, Subdomain.off,
          Subdomain.idx, addStep, subStep, negStep, posStep, scaled, fill, axpy, exchange,
          precondSend, Topology.peer, Subdomain.rank, exSolver, Function.update])
    1 (by decide) 0 (by decide)

end IdempotenceWitness

section ScalingClaims

variable {K : Type} [Field K]

/-- C5 (multiplicity scaling): when `buildScaling` takes the multiplicity
branch, `m[i][j] = 1 / (1 + number of (neighbour, index) references to
map[i][j])`; for an unknown shared by exactly `n` subdomains, that is one
with `n - 1` references, every weight attached to it is `1 / n`. -/
theorem C5_multiplicity (S : Subdomain) (bi_m : Nat) (stiffnessScaling : (Nat → K) → Nat → K)
    (exch : (Nat → K) → (Nat → K) → (Nat → K) × (Nat → K))
    (scaling : Char) (rho : Option (Nat → K)) (st : ScalingState K)
    (hpol : ¬ ((scaling = 'r' ∧ rho.isSome) ∨ scaling = 'k'))
    (i j : Nat) (hi : i < S.nbs) (hj : j < S.size i) :
    (buildScaling S bi_m stiffnessScaling exch scaling rho st).m (S.off i + j)
      = 1 / (1 + (refCount S (S.idx i j) : K)) ∧
    ∀ n : Nat, refCount S (S.idx i j) = n - 1 → 1 ≤ n →
      (buildScaling S bi_m stiffnessScaling exch scaling rho st).m (S.off i + j)
        = 1 / (n : K) := by
  have hm : (buildScaling S bi_m stiffnessScaling exch scaling rho st).m (S.off i + j)
      = 1 / (1 + (refCount S (S.idx i j) : K)) := by
    simp only [buildScaling, if_neg hpol, multiplicityLoop]
    rw [blockLoop_entry S (fun i j => 1 / (1 + (((buildArray S) (S.idx i j)).length : K)))
      st.m i j hi hj, buildArray_length]
  refine ⟨hm, fun n hn h1 => ?_⟩
  rw [hm, hn, Nat.cast_sub h1]
  simp

/-- C5 on `exS`: unknown `1` is referenced by all three neighbours, so it
is shared by four subdomains and its weight towards neighbour `1` is `1/4`. -/
theorem C5_multiplicity_witness :
    (buildScaling exS 0 id (fun p r => (p, r)) 'm' none exScal).m (exS.off 1 + 0)
      = 1 / ((4 : Nat) : ℚ) :=
  (C5_multiplicity exS 0 id (fun p r => (p, r)) 'm' none exScal (by decide) 1 0
    (by decide) (by decide)).2 4 (by decide) (by decide)

end ScalingClaims

section CoarseClaims

/-- C11 (`computeDot`): every rank of the communicator ends with the sum
over all ranks of the local contributions; a subdomain-owning rank
contributes half the Euclidean dot product of its two multipliers over
`_mult` entries, a coarse-only rank contributes `0` whatever its arguments
are; hence `computeDot(x, x)` is half the sum of the squared norms on the
subdomain-owning ranks, with or without coarse-only ranks. -/
theorem C11_computeDot {K : Type} [Field K] (T : Topology) (extra : Nat)
    (a b x : Nat → Nat → K) :
    (∀ r, r < T.n + extra → computeDotOn T extra a b r
      = ∑ q in Finset.range (T.n + extra),
          computeDotLocal (decide (T.n ≤ q)) (T.sub q).mult (a q) (b q)) ∧
    (∀ r, r < T.n + extra → computeDotOn T extra a b r = computeDot T extra a b) ∧
    (∀ (mult : Nat) (u v : Nat → K),
      computeDotLocal false mult u v = (∑ k in Finset.range mult, u k * v k) / 2) ∧
    (∀ (mult : Nat) (u v : Nat → K), computeDotLocal true mult u v = 0) ∧
    computeDot T extra x x
      = 1 / 2 * ∑ s in Finset.range T.n, ∑ k in Finset.range (T.sub s).mult, x s k * x s k ∧
    computeDot T extra x x = computeDot T 0 x x ∧
    (∀ a2 b2 : Nat → Nat → K, (∀ s, s < T.n → a2 s = a s ∧ b2 s = b s) →
      computeDot T extra a2 b2 = computeDot T extra a b) := by
  refine ⟨fun r hr => ?_, fun r hr => ?_, fun _ _ _ => rfl, fun _ _ _ => rfl, ?_, ?_,
    fun a2 b2 h => ?_⟩
  · simp only [computeDotOn, allreduceSum, if_pos hr]
  · simp only [computeDotOn, allreduceSum, if_pos hr, computeDot]
  · rw [computeDot_eq]
    simp only [dot]
    ring
  · rw [computeDot_eq, computeDot_eq]
  · rw [computeDot_eq, computeDot_eq]
    congr 1
    exact Finset.sum_congr rfl (fun s hs => by
      rw [(h s (Finset.mem_range.mp hs)).1, (h s (Finset.mem_range.mp hs)).2])

/-- C11 on the three subdomains of `exT` with one coarse-only rank: the
value on the coarse-only rank `3`. -/
theorem C11_computeDot_witness :
    computeDotOn exT 1 exLamQ exMuQ 3 = computeDot exT 1 exLamQ exMuQ :=
  (C11_computeDot exT 1 exLamQ exMuQ exLamQ).2.1 3 (by decide)

/-- C20 (amended): `buildTwo` hands the standard builder `FetiProjection`
to `super::buildTwo` for every preconditioner variant, after setting the
deficiency to `parm[NU]` when `_schur` is not set and `parm[NU]` is not zero. -/
theorem C20_buildTwo {K R : Type} [CommRing K] (P : FetiPrcndtnr)
    (superBuildTwo : ProjectionBuilder → Nat → Feti K → R) (nu : Nat) (F : Feti K) :
    buildTwo P superBuildTwo nu F
      = superBuildTwo ProjectionBuilder.FetiProjection nu
          (if !F.schur && nu != 0 then { F with deficiency := nu } else F) ∧
    buildTwo P (fun b _ _ => b) nu F = ProjectionBuilder.FetiProjection :=
  ⟨rfl, rfl⟩

/-- C20 as stated fails for the variants `SUPERLUMPED` and `NONE`: the
builder handed to `super::buildTwo` is `FetiProjection`, not
`FetiProjectionSimple`. -/
theorem C20_counterexample :
    buildTwo FetiPrcndtnr.SUPERLUMPED (fun b _ _ => b) 2 exF
        ≠ ProjectionBuilder.FetiProjectionSimple ∧
    buildTwo FetiPrcndtnr.NONE (fun b _ _ => b) 2 exF
        ≠ ProjectionBuilder.FetiProjectionSimple := by
  decide

/-- C15 (`solveGEVP`): on return `nu` is the local deficiency left by the
eigen-solver; when it is `0` the object holds no eigenvector storage,
whatever the eigen-solver left, so the object is in the state without
adaptive basis; when it is not `0` the storage is the one the eigen-solver
left. -/
theorem C15_solveGEVP {K : Type} [CommRing K]
    (gevp : (Nat → K) → Nat → K → Feti K → Feti K) (nu : Nat) (threshold : K) (F : Feti K) :
    (solveGEVP gevp nu threshold F).2 = (solveGEVP gevp nu threshold F).1.deficiency ∧
    (solveGEVP gevp nu threshold F).1.deficiency
      = (gevp (packWeights F) nu (-1) { F with primal := packWeights F }).deficiency ∧
    ((solveGEVP gevp nu threshold F).1.deficiency = 0 →
      (solveGEVP gevp nu threshold F).1.ev = none) ∧
    ((solveGEVP gevp nu threshold F).1.deficiency ≠ 0 →
      (solveGEVP gevp nu threshold F).1
        = gevp (packWeights F) nu (-1) { F with primal := packWeights F }) := by
  unfold solveGEVP
  by_cases h : (gevp (packWeights F) nu (-1) { F with primal := packWeights F }).deficiency = 0
      ∧ (gevp (packWeights F) nu (-1) { F with primal := packWeights F }).ev.isSome = true
  · simp only [if_pos h]
    exact ⟨trivial, trivial, fun _ => trivial, fun hne => absurd h.1 hne⟩
  · simp only [if_neg h]
    refine ⟨trivial, trivial, fun h0 => ?_, fun _ => trivial⟩
    cases he : (gevp (packWeights F) nu (-1) { F with primal := packWeights F }).ev with
    | none => rfl
    | some E => exact absurd ⟨h0, by rw [he]; rfl⟩ h

/-- C15 on `exF` with an eigen-solver that allocates storage and keeps no
vector: the storage is released. -/
theorem C15_solveGEVP_witness :
    (solveGEVP exGevp 0 3 exF).1.ev = none :=
  (C15_solveGEVP exGevp 0 3 exF).2.2.1 (by decide)

end CoarseClaims

section AllocationLemmas

/-- The recurrence `t[c + i] = t[c + i - 1] + size (i - 1)` for `i = 1, ..., n`
fills `t[c + i]` with `t[c] + off i` and leaves the entries outside
`c + 1, ..., c + n` as they were. -/
theorem ptr_loop (S : Subdomain) (c n : Nat) (t0 : Nat → Nat) :
    (∀ i, i ≤ n →
      loop (fun k t => Function.update t (c + (1 + k)) (t (c + (1 + k - 1)) + S.size (1 + k - 1)))
        n t0 (c + i) = t0 c + S.off i) ∧
    (∀ x, x ≤ c ∨ c + n < x →
      loop (fun k t => Function.update t (c + (1 + k)) (t (c + (1 + k - 1)) + S.size (1 + k - 1)))
        n t0 x = t0 x) := by
  induction n with
  | zero =>
    refine ⟨fun i hi => ?_, fun x _ => rfl⟩
    have : i = 0 := by omega
    subst this
    simp [loop, Subdomain.off]
  | succ n ih =>
    obtain ⟨iha, ihb⟩ := ih
    refine ⟨fun i hi => ?_, fun x hx => ?_⟩
    · simp only [loop]
      by_cases hin : i = n + 1
      · subst hin
        have e1 : c + (n + 1) = c + (1 + n) := by omega
        have e2 : c + (1 + n - 1) = c + n := by omega
        have e3 : 1 + n - 1 = n := by omega
        rw [e1, Function.update_same, e2, e3, iha n (Nat.le_refl n)]
        simp [Subdomain.off, Nat.add_assoc]
      · rw [Function.update_noteq (by omega)]
        exact iha i (by omega)
    · simp only [loop]
      rw [Function.update_noteq (by omega)]
      exact ihb x (by omega)

theorem blockPointers_spec (S : Subdomain) (tbl : Nat → Nat) (i : Nat) (hi : i < S.nbs) :
    blockPointers S tbl i = tbl 0 + S.off i := by
  have h := (ptr_loop S 0 (S.nbs - 1) tbl).1 i (by omega)
  simp only [Nat.zero_add] at h
  exact h

/-- The loop of `initialize` fills both halves of the pointer array. -/
theorem init_loop (S : Subdomain) (n : Nat) (hn : n < S.nbs) (t0 : Nat → Nat) :
    ∀ i, i ≤ n →
      loop (fun k t => Function.update
          (Function.update t (1 + k) (t (1 + k - 1) + S.size (1 + k - 1))) (S.nbs + (1 + k))
          (Function.update t (1 + k) (t (1 + k - 1) + S.size (1 + k - 1)) (S.nbs + (1 + k - 1))
            + S.size (1 + k - 1))) n t0 i = t0 0 + S.off i ∧
      loop (fun k t => Function.update
          (Function.update t (1 + k) (t (1 + k - 1) + S.size (1 + k - 1))) (S.nbs + (1 + k))
          (Function.update t (1 + k) (t (1 + k - 1) + S.size (1 + k - 1)) (S.nbs + (1 + k - 1))
            + S.size (1 + k - 1))) n t0 (S.nbs + i) = t0 S.nbs + S.off i := by
  induction n with
  | zero =>
    intro i hi
    have : i = 0 := by omega
    subst this
    simp [loop, Subdomain.off]
  | succ n ih =>
    intro i hi
    have ih2 := ih (by omega)
    simp only [loop]
    have e3 : 1 + n - 1 = n := by omega
    rw [e3]
    by_cases hin : i = n + 1
    · subst hin
      constructor
      · rw [Function.update_noteq (by omega), show 1 + n = n + 1 by omega, Function.update_same,
          (ih2 n (Nat.le_refl n)).1]
        simp [Subdomain.off, Nat.add_assoc]
      · rw [show S.nbs + (1 + n) = S.nbs + (n + 1) by omega, Function.update_same,
          Function.update_noteq (by omega), (ih2 n (Nat.le_refl n)).2]
        simp [Subdomain.off, Nat.add_assoc]
    · constructor
      · rw [Function.update_noteq (by omega), Function.update_noteq (by omega)]
        exact (ih2 i (by omega)).1
      · rw [Function.update_noteq (by omega), Function.update_noteq (by omega)]
        exact (ih2 i (by omega)).2

theorem initializeFeti_spec (S : Subdomain) (struct work mBase bi_m : Nat) (tbl : Nat → Nat)
    (i : Nat) (hi : i < S.nbs) :
    (initializeFeti S struct work mBase bi_m tbl).dual i = work + S.off i ∧
    (initializeFeti S struct work mBase bi_m tbl).m S.nbs i = mBase + S.off i := by
  have h0 : Function.update (Function.update tbl 0 work) (S.nbs + 0) mBase 0 = work := by
    rw [Function.update_noteq (show (0 : Nat) ≠ S.nbs + 0 by omega), Function.update_same]
  have h1 : Function.update (Function.update tbl 0 work) (S.nbs + 0) mBase S.nbs = mBase := by
    rw [Nat.add_zero, Function.update_same]
  have hn : S.nbs - 1 < S.nbs := by omega
  have hi2 : i ≤ S.nbs - 1 := by omega
  have h := init_loop S (S.nbs - 1) hn
    (Function.update (Function.update tbl 0 work) (S.nbs + 0) mBase) i hi2
  rw [h0, h1] at h
  exact h

/-- A loop that writes the pointer array only. -/
theorem arr_loop (g : Nat → (Nat → Nat) → (Nat → Nat) → Nat → Nat) (n : Nat)
    (A : ArrayPointers) :
    loop (fun k B => ({ B with tbl := g k B.arr B.tbl } : ArrayPointers)) n A
      = { A with tbl := loop (fun k t => g k A.arr t) n A.tbl } := by
  induction n with
  | zero => rfl
  | succ n ih => simp only [loop, ih]

/-- One pass of the loop over the vectors of `allocateArray`. -/
theorem allocateRow_spec (S : Subdomain) (base v : Nat) (hn : 0 < S.nbs) (A : ArrayPointers)
    (h0 : A.arr 0 = 0) (h1 : A.tbl 0 = base) :
    (allocateRow S v A).arr = Function.update A.arr v (v * S.nbs) ∧
    (∀ j, j < S.nbs → (allocateRow S v A).tbl (v * S.nbs + j) = base + v * S.mult + S.off j) ∧
    (∀ x, x < v * S.nbs ∨ v * S.nbs + S.nbs ≤ x → (allocateRow S v A).tbl x = A.tbl x) := by
  have hrow : allocateRow S v A
      = { arr := Function.update A.arr v (v * S.nbs),
          tbl := loop (fun k t => Function.update t (v * S.nbs + (1 + k))
              (t (v * S.nbs + (1 + k - 1)) + S.size (1 + k - 1))) (S.nbs - 1)
            (Function.update A.tbl (v * S.nbs) (base + v * S.mult)) } := by
    have e : allocateRow S v A
        = { arr := Function.update A.arr v (A.arr 0 + v * S.nbs),
            tbl := loop (fun k t => Function.update t
                (Function.update A.arr v (A.arr 0 + v * S.nbs) v + (1 + k))
                (t (Function.update A.arr v (A.arr 0 + v * S.nbs) v + (1 + k - 1))
                  + S.size (1 + k - 1))) (S.nbs - 1)
              (Function.update A.tbl (Function.update A.arr v (A.arr 0 + v * S.nbs) v)
                (A.tbl (Function.update A.arr v (A.arr 0 + v * S.nbs) 0) + v * S.mult)) } :=
      arr_loop (fun k arr t => Function.update t (arr v + (1 + k))
        (t (arr v + (1 + k - 1)) + S.size (1 + k - 1))) (S.nbs - 1)
        { arr := Function.update A.arr v (A.arr 0 + v * S.nbs),
          tbl := Function.update A.tbl (Function.update A.arr v (A.arr 0 + v * S.nbs) v)
            (A.tbl (Function.update A.arr v (A.arr 0 + v * S.nbs) 0) + v * S.mult) }
    have ha0 : Function.update A.arr v (v * S.nbs) 0 = 0 := by
      by_cases hv : v = 0
      · subst hv
        simp
      · rw [Function.update_noteq (fun e => hv e.symm), h0]
    simp only [Function.update_same, h0, Nat.zero_add] at e
    simp only [ha0, h1] at e
    exact e
  rw [hrow]
  refine ⟨rfl, fun j hj => ?_, fun x hx => ?_⟩
  · have hj1 : j ≤ S.nbs - 1 := by omega
    have := (ptr_loop S (v * S.nbs) (S.nbs - 1)
      (Function.update A.tbl (v * S.nbs) (base + v * S.mult))).1 j hj1
    rw [Function.update_same] at this
    exact this
  · have hx1 : x ≤ v * S.nbs ∨ v * S.nbs + (S.nbs - 1) < x := by omega
    have hne : x ≠ v * S.nbs := by omega
    have h2 := (ptr_loop S (v * S.nbs) (S.nbs - 1)
      (Function.update A.tbl (v * S.nbs) (base + v * S.mult))).2 x hx1
    rw [Function.update_noteq hne] at h2
    exact h2

/-- After `v` passes of the loop over the vectors the first `v` vectors are
laid out. -/
theorem allocateArray_loop (S : Subdomain) (base : Nat) (hn : 0 < S.nbs) (v : Nat)
    (A : ArrayPointers) (h0 : A.arr 0 = 0) (h1 : A.tbl 0 = base) :
    (loop (fun k B => allocateRow S (0 + k) B) v A).arr 0 = 0 ∧
    (loop (fun k B => allocateRow S (0 + k) B) v A).tbl 0 = base ∧
    ∀ u, u < v →
      (loop (fun k B => allocateRow S (0 + k) B) v A).arr u = u * S.nbs ∧
      ∀ j, j < S.nbs →
        (loop (fun k B => allocateRow S (0 + k) B) v A).tbl (u * S.nbs + j)
          = base + u * S.mult + S.off j := by
  induction v with
  | zero => exact ⟨h0, h1, fun u hu => absurd hu (by omega)⟩
  | succ v ih =>
    obtain ⟨i0, i1, iu⟩ := ih
    obtain ⟨ra, rb, rc⟩ := allocateRow_spec S base v hn
      (loop (fun k B => allocateRow S (0 + k) B) v A) i0 i1
    simp only [loop, Nat.zero_add]
    simp only [Nat.zero_add] at ra rb rc iu i0 i1
    refine ⟨?_, ?_, fun u hu => ?_⟩
    · rw [ra]
      by_cases hv : v = 0
      · subst hv
        simp
      · rw [Function.update_noteq (fun e => hv e.symm)]
        exact i0
    · by_cases hv : v = 0
      · subst hv
        have := rb 0 hn
        simpa [Subdomain.off] using this
      · have hpos : S.nbs ≤ v * S.nbs := Nat.le_mul_of_pos_left _ (by omega)
        rw [rc 0 (Or.inl (by omega))]
        exact i1
    · by_cases huv : u = v
      · subst huv
        exact ⟨by rw [ra, Function.update_same], rb⟩
      · have hlt : u < v := by omega
        have hmul : (u + 1) * S.nbs ≤ v * S.nbs := Nat.mul_le_mul_right _ (by omega)
        rw [Nat.succ_mul] at hmul
        refine ⟨by rw [ra, Function.update_noteq huv]; exact (iu u hlt).1, fun j hj => ?_⟩
        rw [rc _ (Or.inl (by omega))]
        exact (iu u hlt).2 j hj

theorem allocateArray_spec (S : Subdomain) (N base : Nat) (arr tbl : Nat → Nat)
    (v j : Nat) (hv : v < N) (hj : j < S.nbs) :
    (allocateArray S N base arr tbl).ptr v j = base + v * S.mult + S.off j := by
  have h := allocateArray_loop S base (by omega) N
    { arr := Function.update arr 0 0, tbl := Function.update tbl 0 base }
    (by simp) (by simp)
  have h2 := h.2.2 v hv
  unfold ArrayPointers.ptr
  have e : allocateArray S N base arr tbl
      = loop (fun k B => allocateRow S (0 + k) B) N
          { arr := Function.update arr 0 0, tbl := Function.update tbl 0 base } := by
    simp [allocateArray, forRange]
  rw [e, h2.1]
  exact h2.2 j hj

end AllocationLemmas

section LayoutClaims

theorem Subdomain.off_eq_sum (S : Subdomain) (i : Nat) :
    S.off i = ∑ k in Finset.range i, S.size k := by
  induction i with
  | zero => rfl
  | succ i ih => rw [Finset.sum_range_succ, ← ih, Subdomain.off]

/-- C16: after `initialize` (arrays `_dual` and `_m`), `allocateSingle` and
`allocateArray<N>` (each of its `N` vectors) block `i` starts
`sum_{k<i} |map[k]|` entries after block `0`; hence the blocks are contiguous
in neighbour order, block `i` has `|map[i]|` entries, the blocks are pairwise
disjoint and cover exactly the first `sum_k |map[k]|` entries. Vector `v` of
`allocateArray<N>` starts `v * mult` entries into the shared storage, and when
`mult` is the sum of the interface sizes every entry of a vector lies before
every entry of a later vector. -/
theorem C16_dual_layout (S : Subdomain) (struct work mBase bi_m N base : Nat)
    (tbl arr : Nat → Nat) :
    (∀ i, i < S.nbs →
      (initializeFeti S struct work mBase bi_m tbl).dual i
          = work + ∑ k in Finset.range i, S.size k ∧
      (initializeFeti S struct work mBase bi_m tbl).m S.nbs i
          = mBase + ∑ k in Finset.range i, S.size k ∧
      allocateSingle S base tbl i = base + ∑ k in Finset.range i, S.size k ∧
      ∀ v, v < N →
        (allocateArray S N base arr tbl).ptr v i
          = base + v * S.mult + ∑ k in Finset.range i, S.size k) ∧
    (∀ i, ∑ k in Finset.range (i + 1), S.size k
        = ∑ k in Finset.range i, S.size k + S.size i) ∧
    (∀ i i2, i < i2 →
      ∑ k in Finset.range i, S.size k + S.size i ≤ ∑ k in Finset.range i2, S.size k) ∧
    (∀ x, x < ∑ k in Finset.range S.nbs, S.size k ↔
      ∃ i, i < S.nbs ∧ ∃ j, j < S.size i ∧ x = ∑ k in Finset.range i, S.size k + j) ∧
    (S.mult = ∑ k in Finset.range S.nbs, S.size k →
      ∀ v v2 i i2 j j2, v < v2 → v2 < N → i < S.nbs → i2 < S.nbs → j < S.size i →
        j2 < S.size i2 →
        (allocateArray S N base arr tbl).ptr v i + j
          < (allocateArray S N base arr tbl).ptr v2 i2 + j2) := by
  simp only [← Subdomain.off_eq_sum]
  refine ⟨fun i hi => ⟨(initializeFeti_spec S struct work mBase bi_m tbl i hi).1,
      (initializeFeti_spec S struct work mBase bi_m tbl i hi).2, ?_,
      fun v hv => allocateArray_spec S N base arr tbl v i hv hi⟩,
    fun i => rfl, fun i i2 h => S.off_mono (Nat.succ_le_of_lt h), fun x => ⟨fun h =>
      S.block_decomp S.nbs x h, fun h => ?_⟩, fun hm v v2 i i2 j j2 hv hv2 hi hi2 hj hj2 => ?_⟩
  · have := blockPointers_spec S (Function.update tbl 0 base) i hi
    rw [Function.update_same] at this
    exact this
  · obtain ⟨i, hi, j, hj, e⟩ := h
    rw [e]
    exact S.off_add_lt hi hj
  · rw [allocateArray_spec S N base arr tbl v i (by omega) hi,
      allocateArray_spec S N base arr tbl v2 i2 hv2 hi2]
    have h1 : S.off i + j < S.mult := by
      rw [hm]
      exact S.off_add_lt hi hj
    have h2 : (v + 1) * S.mult ≤ v2 * S.mult := Nat.mul_le_mul_right _ (by omega)
    rw [Nat.succ_mul] at h2
    omega

theorem C16_dual_layout_witness :
    (allocateArray exS 2 100 (fun _ => 0) (fun _ => 0)).ptr 0 2 + 0
      < (allocateArray exS 2 100 (fun _ => 0) (fun _ => 0)).ptr 1 0 + 1 :=
  (C16_dual_layout exS 0 0 0 0 2 100 (fun _ => 0) (fun _ => 0)).2.2.2.2 (by decide)
    0 1 2 0 0 1 (by decide) (by decide) (by decide) (by decide) (by decide) (by decide)

end LayoutClaims

section SparsityClaims

/-- The `while` loop of `sameSparsity` stops within `hi - k` passes: its
condition is false in the state returned. -/
theorem skipLoop_done {K : Type} [LinearOrderedRing K] (ja : Nat → Nat) (hi col : Nat)
    (fuel : Nat) (s : Nat × (Nat → K)) (h : hi - s.1 ≤ fuel) :
    ¬ ((skipLoop ja hi col fuel s).1 < hi ∧ ja (skipLoop ja hi col fuel s).1 < col) := by
  induction fuel generalizing s with
  | zero =>
    intro hc
    have := hc.1
    simp only [skipLoop] at this
    omega
  | succ fuel ih =>
    by_cases hc : s.1 < hi ∧ ja s.1 < col
    · simp only [skipLoop, if_pos hc]
      exact ih _ (by simp only; omega)
    · simp only [skipLoop, if_neg hc]
      exact hc

/-- A call of `sameSparsity` that returns `false` leaves `A` as it was. -/
theorem sameSparsity_false {K : Type} [LinearOrderedRing K] (eps : K) (self A : MatrixCSR K)
    (a0 : Nat → K) (h : (sameSparsity eps self A a0).1 = false) :
    (sameSparsity eps self A a0).2 = A := by
  unfold sameSparsity at h ⊢
  by_cases h1 : A.sym = self.sym ∧ self.nnz ≤ A.nnz
  · rw [if_pos h1] at h ⊢
    by_cases h2 : A.iaAt = self.iaAt ∧ A.jaAt = self.jaAt
    · rw [if_pos h2]
    · rw [if_neg h2] at h ⊢
      by_cases h3 : (loop (rowStep eps self A) self.n { k := 0, a := a0, same := true }).same
          = true
      · simp [h3] at h
      · simp [h3]
  · rw [if_neg h1]

/-- A call of `sameSparsity` that returns `true` after comparing the patterns
hands the pattern of the calling object to `A`. -/
theorem sameSparsity_true {K : Type} [LinearOrderedRing K] (eps : K) (self A : MatrixCSR K)
    (a0 : Nat → K) (hp : ¬ (A.iaAt = self.iaAt ∧ A.jaAt = self.jaAt))
    (h : (sameSparsity eps self A a0).1 = true) :
    (sameSparsity eps self A a0).2.nnz = self.nnz ∧
    (sameSparsity eps self A a0).2.ia = self.ia ∧
    (sameSparsity eps self A a0).2.ja = self.ja ∧
    (sameSparsity eps self A a0).2.free = false := by
  unfold sameSparsity at h ⊢
  by_cases h1 : A.sym = self.sym ∧ self.nnz ≤ A.nnz
  · rw [if_pos h1, if_neg hp] at h ⊢
    by_cases h3 : (loop (rowStep eps self A) self.n { k := 0, a := a0, same := true }).same
        = true
    · simp [h3]
    · simp [h3] at h
  · rw [if_neg h1] at h
    simp at h

/-- C17, a failing input: the calling object is the 2 x 2 diagonal pattern
`exDiag` and `A` is `exUpper`, which stores `5` at row `0`, column `1`, a
position outside the pattern of `exDiag`. Both are well formed, of equal
dimensions, and do not share index arrays. For every `HPDDM_EPS` below `5`
`sameSparsity` returns `true`: with `k` at the end of row `0` the test of line
94 reads `_ja[k]`, the first column index of row `1`, which is `1`, and takes
the entry for one of the pattern. -/
theorem C17_sameSparsity_accepts (eps : ℤ) (a0 : Nat → ℤ) (h : eps < 5) :
    exDiag.WellFormed ∧ exUpper.WellFormed ∧ exUpper.n = exDiag.n ∧ exUpper.m = exDiag.m ∧
    ¬ (exUpper.iaAt = exDiag.iaAt ∧ exUpper.jaAt = exDiag.jaAt) ∧
    (sameSparsity eps exDiag exUpper a0).1 = true ∧
    (1 < exUpper.ia (0 + 1) ∧ exUpper.ia 0 ≤ 1 ∧ exUpper.ja 1 = 1 ∧ eps < |exUpper.a 1|) ∧
    ¬ exDiag.Stores 0 1 := by
  refine ⟨by decide, by decide, rfl, rfl, by decide, ?_, ⟨by decide, by decide, rfl, ?_⟩,
    by decide⟩
  · simp [sameSparsity, loop, rowStep, forRange, entryStep, skipLoop, exDiag, exUpper]
  · simpa [exUpper] using h

theorem C17_sameSparsity_accepts_witness :
    (sameSparsity 0 exDiag exUpper (fun _ => 0)).1 = true :=
  (C17_sameSparsity_accepts 0 (fun _ => 0) (by decide)).2.2.2.2.2.1

/-- C18, a failing input: the calling object is the 2 x 3 pattern `exWide`
(columns `0, 1` in row `0`, column `2` in row `1`) and `A` is `exShort`, which
stores `4` at `(0, 0)`, `0` at `(1, 1)` and `6` at `(1, 2)`. Both are well
formed, with equal `sym`, as many entries, and no shared index arrays. For
every `HPDDM_EPS` that is not negative the call returns `true`, and entry `1`
of the new value array, which is position `(0, 1)` of the pattern, where `A`
stored nothing, holds what `new K[_nnz]` left there: the loop over the entries
of row `0` of `A` ends before `k` reaches it and nothing writes it. -/
theorem C18_sameSparsity_tail (eps : ℤ) (a0 : Nat → ℤ) (h : 0 ≤ eps) :
    exWide.WellFormed ∧ exShort.WellFormed ∧ exShort.sym = exWide.sym ∧
    exWide.nnz ≤ exShort.nnz ∧
    ¬ (exShort.iaAt = exWide.iaAt ∧ exShort.jaAt = exWide.jaAt) ∧
    (sameSparsity eps exWide exShort a0).1 = true ∧
    (1 < exWide.ia (0 + 1) ∧ exWide.ia 0 ≤ 1 ∧ exWide.ja 1 = 1) ∧
    ¬ exShort.Stores 0 1 ∧
    (sameSparsity eps exWide exShort a0).2.a 1 = a0 1 := by
  refine ⟨by decide, by decide, rfl, by decide, by decide, ?_, ⟨by decide, by decide, rfl⟩,
    by decide, ?_⟩
  · simp [sameSparsity, loop, rowStep, forRange, entryStep, skipLoop, exWide, exShort,
      not_lt.mpr h]
  · simp [sameSparsity, loop, rowStep, forRange, entryStep, skipLoop, exWide, exShort,
      not_lt.mpr h]

theorem C18_sameSparsity_tail_witness :
    (sameSparsity 0 exWide exShort (fun _ => 7)).2.a 1 = 7 :=
  (C18_sameSparsity_tail 0 (fun _ => 7) (by decide)).2.2.2.2.2.2.2.2

end SparsityClaims

section ApplyLemmas

variable {K : Type} [CommRing K]

theorem sigma_mul_self (S : Subdomain) (i : Nat) : (sigma S i : K) * sigma S i = 1 := by
  unfold sigma
  split_ifs <;> simp

omit [CommRing K] in
theorem structureVec_interface (F : Feti K) (d : Nat) :
    structureVec F (F.bi_m + d) = F.primal d := by
  simp [structureVec]

/-- After the reduce, the zero fill and a local solve that returns the
interface part of such a right-hand side unchanged, `_primal` holds the
unscaled reduce of the multiplier. -/
theorem reduceSolve_primal (psolve : (Nat → K) → Nat → K) (F : Feti K) (inp : Nat → K)
    (hid : ∀ v : Nat → K, (∀ x, x < F.bi_m → v x = 0) →
      ∀ d, d < F.S.dof → psolve v (F.bi_m + d) = v (F.bi_m + d))
    (d : Nat) (hd : d < F.S.dof) :
    (reduceSolve psolve F inp).primal d = (A_T F.S F.m false ⟨F.primal, inp⟩).primal d := by
  have h := hid
    (structureVec
      { F with primal := (A_T F.S F.m false ⟨F.primal, inp⟩).primal,
               interior := fill F.interior F.bi_m 0 })
    (fun x hx => by simp [structureVec, fill, hx]) d hd
  simp only [reduceSolve, solveStructure]
  rw [h]
  simp [structureVec]

/-- Entry `j` of block `i` of the result of `apply`. -/
theorem apply_entry (psolve : (Nat → K) → Nat → K) (rbuff : Nat → K) (c : Call K)
    (hm : c.F.S.mult = c.F.S.total) (i j : Nat) (hi : i < c.F.S.nbs) (hj : j < c.F.S.size i) :
    (HPDDM.apply psolve rbuff c).result (c.F.S.off i + j)
      = sigma c.F.S i * (reduceSolve psolve c.F c.inp).primal (c.F.S.idx i j)
        + rbuff (c.F.S.off i + j) := by
  cases ho : c.out with
  | none =>
    simp only [HPDDM.apply, ho, Call.result, Option.getD]
    rw [(A_N_spec c.F.S c.F.m false rbuff _ hm).2.1 i j hi hj]
    simp [weight]
  | some o =>
    simp only [HPDDM.apply, ho, Call.result, Option.getD]
    rw [(A_N_spec c.F.S c.F.m false rbuff _ hm).2.1 i j hi hj]
    simp [weight]

/-- Entry `j` of block `i` of what `apply` sends. -/
theorem applySend_entry (psolve : (Nat → K) → Nat → K) (c : Call K)
    (i j : Nat) (hi : i < c.F.S.nbs) (hj : j < c.F.S.size i) :
    applySend psolve c (c.F.S.off i + j)
      = sigma c.F.S i * (reduceSolve psolve c.F c.inp).primal (c.F.S.idx i j) := by
  simp only [applySend]
  rw [(A_N_send_spec c.F.S c.F.m false _).2.1 i j hi hj]
  simp [weight]

/-- Entry `j` of block `i` on rank `s` after the collective `apply`. -/
theorem applyAll_entry (T : Topology) (psolve : Nat → (Nat → K) → Nat → K)
    (rb : Nat → Nat → K) (c : Nat → Call K) (hF : ∀ s, (c s).F.S = T.sub s)
    (hT : T.Matched) (hS : T.Sized) (s : Nat) (hs : s < T.n) (i : Nat)
    (hi : i < (T.sub s).nbs) (j : Nat) (hj : j < (T.sub s).size i) :
    (applyAll T psolve rb c s).result ((T.sub s).off i + j)
      = sigma (T.sub s) i
          * (reduceSolve (psolve s) (c s).F (c s).inp).primal ((T.sub s).idx i j)
        + sigma (T.sub ((T.sub s).rank i)) (T.peer s i)
          * (reduceSolve (psolve ((T.sub s).rank i)) (c ((T.sub s).rank i)).F
              (c ((T.sub s).rank i)).inp).primal
              ((T.sub ((T.sub s).rank i)).idx (T.peer s i) j) := by
  obtain ⟨_, hpn, _, _, hsz⟩ := hT s hs i hi
  have h1 := apply_entry (psolve s)
    (exchange T (fun t => applySend (psolve t) (c t)) s (rb s)) (c s)
    (by rw [hF]; exact hS s hs) i j (by rw [hF]; exact hi) (by rw [hF]; exact hj)
  have h2 := applySend_entry (psolve ((T.sub s).rank i)) (c ((T.sub s).rank i))
    (T.peer s i) j (by rw [hF]; exact hpn) (by rw [hF, hsz]; exact hj)
  rw [hF] at h1 h2
  rw [applyAll, h1, exchange_spec T _ s (rb s) i j hi hj, h2]

end ApplyLemmas

section ApplyClaims

variable {K : Type} [CommRing K]

/-- The unscaled reduce on a subdomain with a single neighbour and distinct
shared unknowns. -/
theorem reduce_single (S : Subdomain) (r : Nat) (ds : List Nat) (m : Nat → K)
    (st : JumpMem K) (hmap : S.map = [(r, ds)]) (hnd : ds.Nodup)
    (hr : ∀ d, d ∈ ds → d < S.dof) (j : Nat) (hj : j < ds.length) :
    (A_T S m false st).primal (ds.getD j 0) = sigma S 0 * st.dual j := by
  obtain ⟨n1, _, s1, i1, _⟩ := S.single r ds hmap
  have h := A_T_single S m false st 0 j (by omega) (by omega)
    (by rw [i1]; exact hr _ (by rw [List.getD_eq_getElem _ _ hj]; exact List.getElem_mem hj))
    (fun a b ha hb e => by
      have ha0 : a = 0 := by omega
      subst ha0
      rw [i1, i1] at e
      exact ⟨rfl, getD_inj_of_nodup ds hnd b j (by omega) hj e⟩)
  rw [i1] at h
  rw [h]
  simp [weight, Subdomain.off]

/-- C12 (`apply` end to end): two subdomains `o` and `p` share one interface
with distinct unknowns aligned by position, the local solve returns the
interface part of a right-hand side with zero interior part unchanged, and the
multiplier `in` is the same on both sides. Then `apply` called on both ranks
leaves `2 * in` on both, in `out` when given and over `in` otherwise. The
weights `_m` of the objects, their scratch vectors and the roles `_signed` of
the two sides are arbitrary. -/
theorem C12_apply (T : Topology) (o p : Nat) (dsO dsN : List Nat)
    (psolve : Nat → (Nat → K) → Nat → K) (rb : Nat → Nat → K) (c : Nat → Call K)
    (hF : ∀ s, (c s).F.S = T.sub s)
    (hn : T.n = 2) (ho : o < 2) (hp : p < 2) (hop : o ≠ p)
    (hmo : (T.sub o).map = [(p, dsO)]) (hmp : (T.sub p).map = [(o, dsN)])
    (hlen : dsO.length = dsN.length)
    (hmultO : (T.sub o).mult = dsO.length) (hmultN : (T.sub p).mult = dsN.length)
    (hndO : dsO.Nodup) (hndN : dsN.Nodup)
    (hrO : ∀ d, d ∈ dsO → d < (T.sub o).dof) (hrN : ∀ d, d ∈ dsN → d < (T.sub p).dof)
    (hid : ∀ s (v : Nat → K), (∀ x, x < (c s).F.bi_m → v x = 0) →
      ∀ d, d < (T.sub s).dof → psolve s v ((c s).F.bi_m + d) = v ((c s).F.bi_m + d))
    (hcons : ∀ j, j < dsO.length → (c o).inp j = (c p).inp j)
    (j : Nat) (hj : j < dsO.length) :
    (applyAll T psolve rb c o).result j = 2 * (c o).inp j ∧
    (applyAll T psolve rb c p).result j = 2 * (c p).inp j := by
  obtain ⟨hT, hS, po, pp⟩ :=
    two_subdomains T o p dsO dsN hn ho hp hop hmo hmp hlen hmultO hmultN
  obtain ⟨no, ro, so, io, _⟩ := (T.sub o).single p dsO hmo
  obtain ⟨np, rp, sp, ip, _⟩ := (T.sub p).single o dsN hmp
  have hjN : j < dsN.length := hlen ▸ hj
  have eo := applyAll_entry T psolve rb c hF hT hS o (hn ▸ ho) 0 (by omega) j (by omega)
  have ep := applyAll_entry T psolve rb c hF hT hS p (hn ▸ hp) 0 (by omega) j (by omega)
  rw [ro, po, io, ip] at eo
  rw [rp, pp, io, ip] at ep
  have hdO : dsO.getD j 0 < (T.sub o).dof :=
    hrO _ (by rw [List.getD_eq_getElem _ _ hj]; exact List.getElem_mem hj)
  have hdN : dsN.getD j 0 < (T.sub p).dof :=
    hrN _ (by rw [List.getD_eq_getElem _ _ hjN]; exact List.getElem_mem hjN)
  have so2 : (reduceSolve (psolve o) (c o).F (c o).inp).primal (dsO.getD j 0)
      = sigma (T.sub o) 0 * (c o).inp j := by
    rw [reduceSolve_primal (psolve o) (c o).F (c o).inp
      (fun v hv d hd => hid o v hv d (by rw [← hF]; exact hd)) _ (by rw [hF]; exact hdO)]
    rw [hF]
    exact reduce_single (T.sub o) p dsO _ _ hmo hndO hrO j hj
  have sp2 : (reduceSolve (psolve p) (c p).F (c p).inp).primal (dsN.getD j 0)
      = sigma (T.sub p) 0 * (c p).inp j := by
    rw [reduceSolve_primal (psolve p) (c p).F (c p).inp
      (fun v hv d hd => hid p v hv d (by rw [← hF]; exact hd)) _ (by rw [hF]; exact hdN)]
    rw [hF]
    exact reduce_single (T.sub p) o dsN _ _ hmp hndN hrN j hjN
  have e0 : ∀ S : Subdomain, S.off 0 + j = j := fun S => by simp [Subdomain.off]
  rw [e0, so2, sp2, ← mul_assoc, ← mul_assoc, sigma_mul_self, sigma_mul_self] at eo
  rw [e0, so2, sp2, ← mul_assoc, ← mul_assoc, sigma_mul_self, sigma_mul_self] at ep
  rw [eo, ep, hcons j hj]
  constructor <;> ring

/-- C12 at `exT2`, whose interface has three unknowns, with the first unit
vector as multiplier: position `0` on rank `1`. -/
theorem C12_apply_witness :
    (applyAll exT2 exPsolve exRb exApply 1).result 0 = 2 * (exApply 1).inp 0 :=
  (C12_apply exT2 1 0 [0, 1, 3] [2, 0, 1] exPsolve exRb exApply (fun _ => rfl) rfl
    (by decide) (by decide) (by decide) rfl rfl rfl rfl rfl (by decide) (by decide)
    (by decide) (by decide)
    (fun s v hv d _ => by
      have h0 : v 0 = 0 := hv 0 (show 0 < 2 by decide)
      simp [exPsolve, exApply, h0])
    (fun _ _ => rfl) 0 (by decide)).1

end ApplyClaims

section StartClaims

variable {K : Type} [CommRing K]

omit [CommRing K] in
/-- The vector `_structure` after the in-place local solve. -/
theorem structureVec_solve (psolve : (Nat → K) → Nat → K) (F : Feti K) :
    structureVec (solveStructure psolve F) = psolve (structureVec F) := by
  funext k
  by_cases hk : k < F.bi_m
  · simp [structureVec, solveStructure, hk]
  · have e : F.bi_m + (k - F.bi_m) = k := by omega
    simp [structureVec, solveStructure, hk, e]

/-- The right-hand side of the local solve in `computeSolution`: zero on the
interior, the unscaled reduce of the multiplier on the interface. -/
theorem reducedRhs_spec (F : Feti K) (l : Nat → K) :
    (∀ d, d < F.bi_m → reducedRhs F l d = 0) ∧
    (∀ d, d < F.S.dof → reducedRhs F l (F.bi_m + d) = reduceSum F.S F.m false l d) := by
  refine ⟨fun d hd => by simp [reducedRhs, structureVec, fill, hd], fun d hd => ?_⟩
  simp only [reducedRhs, structureVec_interface]
  exact A_T_primal F.S F.m false _ d hd

/-- C13 (`start` without a coarse space): on a subdomain-owning rank with no
coarse operator `start` sets `x` to the local solve of `f`, the first `_mult`
entries of `l` to `0`, and `r` to the unscaled expand of the entries of `x`
after the `_bi->_m` interior ones, entry `j` of block `i` being
`sigma_i * x[_bi->_m + map[i][j]]` plus what neighbour `i` sent; the solver
object is left as it was, so no projection and no coarse solve take place. On
a coarse-only rank with no coarse operator `start` changes nothing. -/
theorem C13_start (q : FetiPrcndtnr) (E : Env K) (f : Nat → K) (st : Iterate K)
    (hco : st.F.co = none) :
    (start false q E f st).x = E.psolve f ∧
    (∀ k, k < st.F.S.mult → (start false q E f st).l k = 0) ∧
    (start false q E f st).r
      = (A_N st.F.S st.F.m false (E.rbuff 2)
          ⟨fun d => (start false q E f st).x (st.F.bi_m + d), st.r⟩).dual ∧
    (st.F.S.mult = st.F.S.total → ∀ i, i < st.F.S.nbs → ∀ j, j < st.F.S.size i →
      (start false q E f st).r (st.F.S.off i + j)
        = sigma st.F.S i * (start false q E f st).x (st.F.bi_m + st.F.S.idx i j)
          + E.rbuff 2 (st.F.S.off i + j)) ∧
    (start false q E f st).F = st.F ∧
    start true q E f st = st := by
  have hs : start false q E f st
      = { st with x := E.psolve f,
                  r := (A_N st.F.S st.F.m false (E.rbuff 2)
                    ⟨fun d => E.psolve f (st.F.bi_m + d), st.r⟩).dual,
                  l := fill st.l st.F.S.mult 0 } := by
    simp [start, startResidual, hco]
  have ht : start true q E f st = st := by
    simp [start, startResidual, hco]
  rw [hs]
  refine ⟨rfl, fun k hk => by simp [fill, hk], rfl, fun hm i hi j hj => ?_, rfl, ht⟩
  simp only []
  rw [(A_N_spec st.F.S st.F.m false (E.rbuff 2) _ hm).2.1 i j hi hj]
  simp [weight]

theorem C13_start_witness :
    (start false FetiPrcndtnr.DIRICHLET exEnv (fun k => (k : ℤ)) exIt).x
      = exEnv.psolve (fun k => (k : ℤ)) :=
  (C13_start FetiPrcndtnr.DIRICHLET exEnv (fun k => (k : ℤ)) exIt rfl).1

/-- C14 (`computeSolution` without a coarse space): on a subdomain-owning rank
with no coarse operator, `computeSolution(x, l)` subtracts from the first
`_a->_n` entries of `x` the local solve of the right-hand side that is zero on
the interior and the unscaled reduce of `l` on the interface, and leaves `l`
as it was. On a coarse-only rank `x` and `l` are left as they were. -/
theorem C14_computeSolution (q : FetiPrcndtnr) (E : Env K) (st : Iterate K) :
    (st.F.co = none →
      (∀ k, k < st.F.a_n →
        (computeSolution false q E st).x k = st.x k - E.psolve (reducedRhs st.F st.l) k) ∧
      (∀ k, st.F.a_n ≤ k → (computeSolution false q E st).x k = st.x k) ∧
      (computeSolution false q E st).l = st.l) ∧
    (∀ d, d < st.F.bi_m → reducedRhs st.F st.l d = 0) ∧
    (∀ d, d < st.F.S.dof →
      reducedRhs st.F st.l (st.F.bi_m + d) = reduceSum st.F.S st.F.m false st.l d) ∧
    (computeSolution true q E st).x = st.x ∧
    (computeSolution true q E st).l = st.l := by
  refine ⟨fun hco => ?_, (reducedRhs_spec st.F st.l).1, (reducedRhs_spec st.F st.l).2, ?_, ?_⟩
  · have hx : (computeSolution false q E st).x
        = axpy st.F.a_n d__2 (E.psolve (reducedRhs st.F st.l)) st.x := by
      simp only [computeSolution, hco, reduceSolve, structureVec_solve, reducedRhs]
      rfl
    have hl : (computeSolution false q E st).l = st.l := by
      simp only [computeSolution, hco]
      exact (A_T_spec st.F.S st.F.m false _).1
    rw [hx]
    refine ⟨fun k hk => ?_, fun k hk => ?_, hl⟩
    · simp only [axpy, if_pos hk, d__2]
      ring
    · simp only [axpy, if_neg (Nat.not_lt.mpr hk)]
  · cases h : st.F.co <;> simp [computeSolution, h]
  · cases h : st.F.co <;> simp [computeSolution, h]

theorem C14_computeSolution_witness :
    (computeSolution false FetiPrcndtnr.DIRICHLET exEnv exIt).l = exIt.l :=
  ((C14_computeSolution FetiPrcndtnr.DIRICHLET exEnv exIt).1 rfl).2.2

end StartClaims

section ConsistencyClaims

variable {K : Type} [CommRing K]

/-- C22 (dual consistency after expand): on a topology whose neighbour
relations are listed by both sides with interfaces aligned by position, after
the collective expand, scaled or not, with any primal vectors and any weights,
the two sides of every neighbour pair hold the same value at every position
of their blocks for that pair: each holds the sum of the two signed
contributions. The roles `_signed` of the two sides play no part. -/
theorem C22_expand_consistent (T : Topology) (m : Nat → Nat → K) (scale : Bool)
    (rb : Nat → Nat → K) (st : Nat → JumpMem K) (hT : T.Matched) (hS : T.Sized)
    (s : Nat) (hs : s < T.n) (i : Nat) (hi : i < (T.sub s).nbs)
    (j : Nat) (hj : j < (T.sub s).size i) :
    (expandAll T m scale rb st s).dual ((T.sub s).off i + j)
      = (expandAll T m scale rb st ((T.sub s).rank i)).dual
          ((T.sub ((T.sub s).rank i)).off (T.peer s i) + j) := by
  obtain ⟨h1, h2, h3, h4, hsz⟩ := hT s hs i hi
  rw [expandAll_entry T m scale rb st hT hS s hs i hi j hj,
    expandAll_entry T m scale rb st hT hS _ h1 _ h2 j (by rw [hsz]; exact hj), h4, h3, add_comm]

/-- C22 at rank `1` of `exT`, block `0`, position `1`, with scaling. -/
theorem C22_expand_consistent_witness :
    (expandAll exT exW true exRb exSt 1).dual ((exT.sub 1).off 0 + 1)
      = (expandAll exT exW true exRb exSt ((exT.sub 1).rank 0)).dual
          ((exT.sub ((exT.sub 1).rank 0)).off (exT.peer 1 0) + 1) :=
  C22_expand_consistent exT exW true exRb exSt (by decide) (by decide) 1 (by decide) 0
    (by decide) 1 (by decide)

end ConsistencyClaims

section EigenClaims

variable {K : Type} [CommRing K]

omit [CommRing K] in
/-- The loop over `j` of `solveGEVP` for neighbour `i`, after `n` passes: an
entry that no pass refers to is as before, and an entry holds the weight of
the last pass that refers to it. -/
theorem packRow_spec (S : Subdomain) (m : Nat → K) (i n : Nat) (p : Nat → K) :
    (∀ d, (∀ j, j < n → S.idx i j ≠ d) →
      loop (fun j r => Function.update r (S.idx i j) (m (S.off i + j))) n p d = p d) ∧
    (∀ j, j < n → (∀ b, b < n → S.idx i b = S.idx i j → b ≤ j) →
      loop (fun j r => Function.update r (S.idx i j) (m (S.off i + j))) n p (S.idx i j)
        = m (S.off i + j)) := by
  induction n with
  | zero => exact ⟨fun d _ => rfl, fun j hj => absurd hj (by omega)⟩
  | succ n ih =>
    refine ⟨fun d hd => ?_, fun j hj hl => ?_⟩
    · simp only [loop]
      rw [Function.update_noteq (fun e => hd n (by omega) e.symm)]
      exact ih.1 d (fun j hj => hd j (by omega))
    · simp only [loop]
      by_cases hjn : j = n
      · subst hjn
        rw [Function.update_same]
      · have hlt : j < n := by omega
        have hne : S.idx i j ≠ S.idx i n := fun e => by
          have := hl n (by omega) e.symm
          omega
        rw [Function.update_noteq hne]
        exact ih.2 j hlt (fun b hb e => hl b (by omega) e)

omit [CommRing K] in
/-- The vector `pt` that `solveGEVP` packs: an entry that the map does not
refer to keeps the content of `_primal`, and the entry `map[i][j]` holds
`m[i][j]` when `(i, j)` is the last pair of the map, in the order of the
loops, that refers to it. -/
theorem packWeights_spec (F : Feti K) :
    (∀ d, (∀ i, i < F.S.nbs → ∀ j, j < F.S.size i → F.S.idx i j ≠ d) →
      packWeights F d = F.primal d) ∧
    (∀ i, i < F.S.nbs → ∀ j, j < F.S.size i →
      (∀ a, a < F.S.nbs → ∀ b, b < F.S.size a → F.S.idx a b = F.S.idx i j →
        a < i ∨ (a = i ∧ b ≤ j)) →
      packWeights F (F.S.idx i j) = F.m (F.S.off i + j)) := by
  have key : ∀ n,
      (∀ d, (∀ i, i < n → ∀ j, j < F.S.size i → F.S.idx i j ≠ d) →
        loop (fun i p => loop (fun j r => Function.update r (F.S.idx i j)
          (F.m (F.S.off i + j))) (F.S.size i) p) n F.primal d = F.primal d) ∧
      (∀ i, i < n → ∀ j, j < F.S.size i →
        (∀ a, a < n → ∀ b, b < F.S.size a → F.S.idx a b = F.S.idx i j →
          a < i ∨ (a = i ∧ b ≤ j)) →
        loop (fun i p => loop (fun j r => Function.update r (F.S.idx i j)
          (F.m (F.S.off i + j))) (F.S.size i) p) n F.primal (F.S.idx i j)
          = F.m (F.S.off i + j)) := by
    intro n
    induction n with
    | zero => exact ⟨fun d _ => rfl, fun i hi => absurd hi (by omega)⟩
    | succ n ih =>
      refine ⟨fun d hd => ?_, fun i hi j hj hl => ?_⟩
      · simp only [loop]
        rw [(packRow_spec F.S F.m n (F.S.size n) _).1 d (fun j hj => hd n (by omega) j hj)]
        exact ih.1 d (fun i hi j hj => hd i (by omega) j hj)
      · simp only [loop]
        by_cases hin : i = n
        · subst hin
          exact (packRow_spec F.S F.m i (F.S.size i) _).2 j hj (fun b hb e => by
            have := hl i (by omega) b hb e
            omega)
        · have hlt : i < n := by omega
          rw [(packRow_spec F.S F.m n (F.S.size n) _).1 (F.S.idx i j) (fun b hb e => by
            have := hl n (by omega) b hb e
            omega)]
          exact ih.2 i hlt j hj (fun a ha b hb e => hl a (by omega) b hb e)
  exact key F.S.nbs

/-- C24 (amended; `solveGEVP` and its `threshold`): two calls that differ in
`threshold` only give the same object and the same `nu`. The eigen-solver is
called on the packed vector `pt`, `nu` and the constant `-1`, whatever
`threshold` is, and what the call returns is what the eigen-solver left, with
the eigenvector storage released when the deficiency is `0`. In `pt` the entry
`map[i][j]` is `m[i][j]` for the last pair `(i, j)` of the map that refers to
it, and entries that the map does not refer to keep the content of
`_primal`. -/
theorem C24_solveGEVP_threshold
    (gevp : (Nat → K) → Nat → K → Feti K → Feti K) (nu : Nat) (t1 t2 : K) (F : Feti K) :
    solveGEVP gevp nu t1 F = solveGEVP gevp nu t2 F ∧
    (solveGEVP gevp nu t1 F).1
      = (if (gevp (packWeights F) nu (-1) { F with primal := packWeights F }).deficiency = 0 ∧
            (gevp (packWeights F) nu (-1) { F with primal := packWeights F }).ev.isSome
          then { gevp (packWeights F) nu (-1) { F with primal := packWeights F } with
                 ev := none }
          else gevp (packWeights F) nu (-1) { F with primal := packWeights F }) ∧
    (solveGEVP gevp nu t1 F).2
      = (gevp (packWeights F) nu (-1) { F with primal := packWeights F }).deficiency ∧
    (∀ i, i < F.S.nbs → ∀ j, j < F.S.size i →
      (∀ a, a < F.S.nbs → ∀ b, b < F.S.size a → F.S.idx a b = F.S.idx i j →
        a < i ∨ (a = i ∧ b ≤ j)) →
      packWeights F (F.S.idx i j) = F.m (F.S.off i + j)) ∧
    (∀ d, (∀ i, i < F.S.nbs → ∀ j, j < F.S.size i → F.S.idx i j ≠ d) →
      packWeights F d = F.primal d) := by
  refine ⟨rfl, ?_, ?_, (packWeights_spec F).2, (packWeights_spec F).1⟩
  · by_cases h : (gevp (packWeights F) nu (-1) { F with primal := packWeights F }).deficiency = 0
        ∧ (gevp (packWeights F) nu (-1) { F with primal := packWeights F }).ev.isSome = true
    · simp only [solveGEVP, if_pos h]
    · simp only [solveGEVP, if_neg h]
  · by_cases h : (gevp (packWeights F) nu (-1) { F with primal := packWeights F }).deficiency = 0
        ∧ (gevp (packWeights F) nu (-1) { F with primal := packWeights F }).ev.isSome = true
    · simp only [solveGEVP, if_pos h]
    · simp only [solveGEVP, if_neg h]

/-- C24 on `exF`: entry `map[2][0] = 1` of the packed vector is `m[2][0]`,
the pair `(2, 0)` being the last of the three that refer to the unknown `1`. -/
theorem C24_solveGEVP_threshold_witness :
    packWeights exF (exF.S.idx 2 0) = exF.m (exF.S.off 2 + 0) :=
  (C24_solveGEVP_threshold exGevp 2 0 5 exF).2.2.2.1 2 (by decide) 0 (by decide) (by decide)

/-- C24 as stated fails on the packed vector: on `exF` the pairs `(0, 1)` and
`(2, 0)` of the map refer to the same unknown, and `pt[map[0][1]]` ends as
`m[2][0] = 6`, not as `m[0][1] = 3`. -/
theorem C24_counterexample :
    exF.S.idx 0 1 = exF.S.idx 2 0 ∧ packWeights exF (exF.S.idx 0 1) = 6 ∧
    exF.m (exF.S.off 0 + 1) = 3 ∧ exF.m (exF.S.off 2 + 0) = 6 := by
  decide

end EigenClaims

section SolverCallLemmas

variable {K : Type} [CommRing K]

/-- The preconditioner makes no coarse solve and keeps `_co`. -/
theorem precond_calls (q : FetiPrcndtnr) (ker : LocalKernels K) (rbuff : Nat → K) (c : Call K) :
    (precond q ker rbuff c).F.solves = c.F.solves ∧ (precond q ker rbuff c).F.co = c.F.co := by
  unfold precond
  cases c.out <;> exact ⟨rfl, rfl⟩

theorem projBefore_calls (trans : Char) (q : FetiPrcndtnr) (ker : LocalKernels K)
    (rbPre : Nat → K) (c : Call K) :
    (projBefore trans q ker rbPre c).F.solves = c.F.solves ∧
    (projBefore trans q ker rbPre c).F.co = c.F.co := by
  unfold projBefore
  by_cases h : trans = 'T'
  · rw [if_pos h]
    exact precond_calls q ker rbPre ⟨c.F, c.inp, some c.F.dual⟩
  · rw [if_neg h]
    exact ⟨rfl, rfl⟩

/-- Lines 326-345 of `project` make one coarse solve, with or without
eigenvectors and on either branch of `_schur`. -/
theorem coarseStep_calls (solve : (Nat → K) → Nat → K) (loc : Nat) (dualArg : Nat → K)
    (F : Feti K) :
    (coarseStep solve loc dualArg F).solves = F.solves + 1 ∧
    (coarseStep solve loc dualArg F).co = F.co := by
  unfold coarseStep
  cases F.ev <;> exact ⟨rfl, rfl⟩

theorem projAfter_calls (trans : Char) (q : FetiPrcndtnr) (ker : LocalKernels K)
    (rbPre : Nat → K) (F : Feti K) :
    (projAfter trans q ker rbPre F).solves = F.solves ∧
    (projAfter trans q ker rbPre F).co = F.co := by
  unfold projAfter
  by_cases h : trans = 'N'
  · rw [if_pos h]
    exact precond_calls q ker rbPre ⟨F, F.dual, none⟩
  · rw [if_neg h]
    exact ⟨rfl, rfl⟩

theorem projCombine_F (c : Call K) (F : Feti K) : (projCombine c F).F = F := by
  unfold projCombine
  cases c.out <;> rfl

/-- The coarse solves of one call of `project`. -/
theorem project_calls (excluded : Bool) (trans : Char) (q : FetiPrcndtnr)
    (ker : LocalKernels K) (solve : (Nat → K) → Nat → K) (rbPre rbJump : Nat → K)
    (c : Call K) :
    (project excluded trans q ker solve rbPre rbJump c).F.solves
      = c.F.solves + (if c.F.co.isSome then 1 else 0) ∧
    (project excluded trans q ker solve rbPre rbJump c).F.co = c.F.co := by
  cases hco : c.F.co with
  | none =>
    cases excluded
    · cases ho : c.out <;> simp [project, hco, ho]
    · simp [project, hco]
  | some loc =>
    cases excluded
    · have hb := projBefore_calls trans q ker rbPre c
      have hs := coarseStep_calls solve loc (projArg trans (projBefore trans q ker rbPre c))
        (projBefore trans q ker rbPre c).F
      have ha := projAfter_calls trans q ker rbPre
        (projJump rbJump (coarseStep solve loc (projArg trans (projBefore trans q ker rbPre c))
          (projBefore trans q ker rbPre c).F))
      have hF : (project false trans q ker solve rbPre rbJump c).F
          = projAfter trans q ker rbPre
              (projJump rbJump (coarseStep solve loc
                (projArg trans (projBefore trans q ker rbPre c))
                (projBefore trans q ker rbPre c).F)) := by
        simp only [project, hco, Bool.not_false, if_true]
        exact projCombine_F _ _
      rw [hF, ha.1, ha.2]
      simp only [projJump]
      rw [hs.1, hs.2, hb.1, hb.2, hco]
      simp
    · simp [project, hco]

/-- The reduce and the local solve make no coarse solve and keep `_co`. -/
theorem reduceSolve_calls (psolve : (Nat → K) → Nat → K) (F : Feti K) (inp : Nat → K) :
    (reduceSolve psolve F inp).solves = F.solves ∧ (reduceSolve psolve F inp).co = F.co :=
  ⟨rfl, rfl⟩

/-- Lines 143-158 of `start` make one coarse solve on every branch, when
`condensateEffort` makes none and keeps `_co`. -/
theorem startCorrection_calls (E : Env K) (f : Nat → K) (loc : Nat) (F : Feti K)
    (hce : ∀ (g : Nat → K) (G : Feti K),
      (E.condensateEffort g G).solves = G.solves ∧ (E.condensateEffort g G).co = G.co) :
    (startCorrection E f loc F).solves = F.solves + 1 ∧
    (startCorrection E f loc F).co = F.co := by
  unfold startCorrection
  cases F.ev with
  | none => exact ⟨rfl, rfl⟩
  | some ev =>
    by_cases hs : F.schur = true
    · simp only [hs, if_true]
      exact ⟨by rw [(hce f F).1], (hce f F).2⟩
    · simp only [hs, Bool.false_eq_true, if_false]
      exact ⟨trivial, trivial⟩

theorem startCoarse_calls (excluded : Bool) (q : FetiPrcndtnr) (E : Env K) (f : Nat → K)
    (loc : Nat) (st : Iterate K)
    (hce : ∀ (g : Nat → K) (G : Feti K),
      (E.condensateEffort g G).solves = G.solves ∧ (E.condensateEffort g G).co = G.co) :
    (startCoarse excluded q E f loc st).F.solves = st.F.solves + 1 ∧
    (startCoarse excluded q E f loc st).F.co = st.F.co := by
  cases excluded
  · have h1 := startCorrection_calls E f loc st.F hce
    simp only [startCoarse, Bool.not_false, if_true]
    exact ⟨(reduceSolve_calls _ _ _).1.trans ((precond_calls _ _ _ _).1.trans h1.1),
      (reduceSolve_calls _ _ _).2.trans ((precond_calls _ _ _ _).2.trans h1.2)⟩
  · exact ⟨rfl, rfl⟩

theorem startResidual_calls (excluded : Bool) (q : FetiPrcndtnr) (E : Env K) (f : Nat → K)
    (st : Iterate K) :
    (startResidual excluded q E f st).F.solves
      = st.F.solves + (if st.F.co.isSome then 1 else 0) := by
  cases hco : st.F.co with
  | none =>
    cases excluded <;> simp [startResidual, hco]
  | some loc =>
    cases excluded
    · simp only [startResidual, hco, Bool.not_false, if_true]
      rw [(project_calls false 'T' q E.ker E.callSolverP (E.rbuff 3) (E.rbuff 4) _).1]
    · simp only [startResidual, hco, Bool.not_true, Bool.false_eq_true, if_false]
      rw [(project_calls true 'T' q E.ker E.callSolverP (E.rbuff 3) (E.rbuff 4) _).1, hco]

/-- Lines 407-428 of `computeSolution` make one coarse solve on every
branch. -/
theorem recoverCoarse_calls (q : FetiPrcndtnr) (E : Env K) (loc : Nat) (st : Iterate K) :
    (recoverCoarse q E loc st).F.solves = st.F.solves + 1 := by
  have hp := precond_calls q E.ker (E.rbuff 1)
    ⟨{ st.F with dual := (A_N st.F.S st.F.m false (E.rbuff 0)
        ⟨fun d => st.x (st.F.bi_m + d), st.F.dual⟩).dual },
      (A_N st.F.S st.F.m false (E.rbuff 0) ⟨fun d => st.x (st.F.bi_m + d), st.F.dual⟩).dual,
      none⟩
  unfold recoverCoarse
  simp only []
  split
  · exact congrArg (· + 1) hp.1
  · split_ifs
    · exact congrArg (· + 1) hp.1
    · exact congrArg (· + 1) hp.1

end SolverCallLemmas

section SolverCallClaims

variable {K : Type} [CommRing K]

/-- C23 (coarse solves are matched across rank roles): for both values of
`excluded`, every direction, every state of the object (eigenvectors present or
not, `_schur` set or not) and whatever the collaborators return, one call of
`project` makes one call of `callSolver` when there is a coarse operator and
none otherwise, one call of `start` makes two, of which one before its
projection pass, and none otherwise, and one call of `computeSolution` makes
one and none otherwise; `condensateEffort` is taken to make no coarse solve and
to keep `_co`. The counts do not depend on `excluded`, so a subdomain-owning
rank and a coarse-only rank make the same number of calls. -/
theorem C23_solver_calls (excluded : Bool) (trans : Char) (q : FetiPrcndtnr)
    (ker : LocalKernels K) (solve : (Nat → K) → Nat → K) (rbPre rbJump : Nat → K)
    (c : Call K) (E : Env K) (f : Nat → K) (st : Iterate K)
    (hce : ∀ (g : Nat → K) (G : Feti K),
      (E.condensateEffort g G).solves = G.solves ∧ (E.condensateEffort g G).co = G.co) :
    (project excluded trans q ker solve rbPre rbJump c).F.solves
      = c.F.solves + (if c.F.co.isSome then 1 else 0) ∧
    (start excluded q E f st).F.solves = st.F.solves + (if st.F.co.isSome then 2 else 0) ∧
    (∀ loc, st.F.co = some loc →
      (startCoarse excluded q E f loc st).F.solves = st.F.solves + 1 ∧
      start excluded q E f st = startResidual excluded q E f (startCoarse excluded q E f loc st)) ∧
    (computeSolution excluded q E st).F.solves
      = st.F.solves + (if st.F.co.isSome then 1 else 0) := by
  refine ⟨(project_calls excluded trans q ker solve rbPre rbJump c).1, ?_, fun loc hco => ?_, ?_⟩
  · cases hco : st.F.co with
    | none =>
      simp only [start, hco]
      rw [startResidual_calls, hco]
      simp
    | some loc =>
      have h := startCoarse_calls excluded q E f loc st hce
      simp only [start, hco]
      rw [startResidual_calls, h.1, h.2, hco]
      simp
  · exact ⟨(startCoarse_calls excluded q E f loc st hce).1, by simp only [start, hco]⟩
  · cases hco : st.F.co with
    | none =>
      cases excluded <;> simp [computeSolution, hco, (reduceSolve_calls _ _ _).1]
    | some loc =>
      cases excluded
      · simp only [computeSolution, hco, Bool.not_false, if_true]
        rw [recoverCoarse_calls]
        simp [(reduceSolve_calls _ _ _).1]
      · simp [computeSolution, hco]

/-- C23 on the object `exFco`, which has a coarse operator: `start` on a
coarse-only rank. -/
theorem C23_solver_calls_witness :
    (start true FetiPrcndtnr.NONE exEnv (fun k => (k : ℤ)) exItCo).F.solves
      = 2 :=
  (C23_solver_calls true 'N' FetiPrcndtnr.NONE exKer (fun u => u) (fun _ => 0) (fun _ => 0)
    ⟨exFco, fun _ => 1, none⟩ exEnv (fun k => (k : ℤ)) exItCo (fun _ _ => ⟨rfl, rfl⟩)).2.1

end SolverCallClaims

section DegenerateClaims

variable {K : Type} [CommRing K]

/-- The unscaled or scaled reduce of a multiplier that is zero. -/
theorem reduceSum_zero (S : Subdomain) (m : Nat → K) (scale : Bool) (lam : Nat → K)
    (h : ∀ k, k < S.total → lam k = 0) (d : Nat) : reduceSum S m scale lam d = 0 := by
  rw [reduceSum_congr S m scale lam (fun _ => 0) h d]
  simp [reduceSum]

/-- Without eigenvectors on any rank the vector that `project` subtracts is
zero, when the local preconditioner maps zero to zero. -/
theorem projectObjects_degenerate (T : Topology) (trans : Char) (q : FetiPrcndtnr)
    (ker : Nat → LocalKernels K) (solver : (Nat → Nat → K) → Nat → Nat → K) (loc : Nat → Nat)
    (rb : Nat → Nat → K) (c : Nat → Call K)
    (hT : T.Matched) (hS : T.Sized) (hR : T.InRange)
    (hF : ∀ t, (c t).F.S = T.sub t)
    (hev : ∀ t, t < T.n → (c t).F.ev = none)
    (hL0 : ∀ t, t < T.n → ∀ u : Nat → K, (∀ d, d < (T.sub t).dof → u d = 0) →
      ∀ d, d < (T.sub t).dof → applyLocalPreconditioner q (ker t) u d = 0)
    (s : Nat) (hs : s < T.n) (k : Nat) (hk : k < (T.sub s).mult) :
    (projectObjects T trans q ker solver loc rb c s).dual k = 0 := by
  have hB : ∀ t, SameData (beforeAll T trans q ker rb c t).F (c t).F :=
    fun t => beforeAll_same T trans q ker rb c t
  have hGS : ∀ t, (solveAll solver loc trans (beforeAll T trans q ker rb c) t).S = T.sub t :=
    fun t => ((solveAll_same solver loc trans _ t).trans (hB t)).1.trans (hF t)
  have hG : ∀ t, t < T.n → ∀ d, d < (T.sub t).dof →
      (solveAll solver loc trans (beforeAll T trans q ker rb c) t).primal d = 0 := by
    intro t ht d hd
    have he : (beforeAll T trans q ker rb c t).F.ev = none := (hB t).2.2.1.trans (hev t ht)
    have hd2 : d < (beforeAll T trans q ker rb c t).F.S.dof := by
      rw [(hB t).1, hF t]
      exact hd
    simp only [solveAll, coarseStep, he, fill, if_pos hd2]
  have hJ : ∀ t, t < T.n → ∀ x, x < (T.sub t).mult →
      (jumpAll T rb (solveAll solver loc trans (beforeAll T trans q ker rb c)) t).dual x = 0 :=
    fun t ht x hx => jumpAll_zero T rb _ hT hS hR hGS hG t ht x hx
  have hJS : ∀ t,
      (jumpAll T rb (solveAll solver loc trans (beforeAll T trans q ker rb c)) t).S = T.sub t :=
    fun t => (jumpAll_same T rb _ t).1.trans (hGS t)
  unfold projectObjects
  by_cases hN : trans = 'N'
  · subst hN
    rw [afterAll_dual, precondAll_result T q ker rb _ hJS s]
    refine expandAll_zero T _ true rb _ hT hS hR (fun t ht d hd => ?_) s hs k hk
    refine hL0 t ht _ (fun e he => ?_) d hd
    rw [A_T_primal _ _ _ _ e he]
    exact reduceSum_zero _ _ _ _ (fun x hx => hJ t ht x (by rw [hS t ht]; exact hx)) e
  · rw [afterAll_of_ne T trans q ker rb _ s hN]
    exact hJ s hs k hk

/-- C21 (`project` without adaptive basis): every rank has a coarse operator,
no rank holds eigenvectors, and the local preconditioner maps a vector that is
zero on the interface unknowns to one. Then for every direction and every
input the collective `project` leaves `in` as it was in both forms of the
call, the buffered form leaves `out[k] = in[k]` for `k < _mult`, and every rank
makes one call of the coarse solver. -/
theorem C21_project_no_basis (T : Topology) (trans : Char) (q : FetiPrcndtnr)
    (ker : Nat → LocalKernels K) (solver : (Nat → Nat → K) → Nat → Nat → K) (loc : Nat → Nat)
    (rb : Nat → Nat → K) (c : Nat → Call K)
    (hT : T.Matched) (hS : T.Sized) (hR : T.InRange)
    (hF : ∀ t, (c t).F.S = T.sub t)
    (hco : ∀ t, t < T.n → (c t).F.co = some (loc t))
    (hev : ∀ t, t < T.n → (c t).F.ev = none)
    (hL0 : ∀ t, t < T.n → ∀ u : Nat → K, (∀ d, d < (T.sub t).dof → u d = 0) →
      ∀ d, d < (T.sub t).dof → applyLocalPreconditioner q (ker t) u d = 0)
    (s : Nat) (hs : s < T.n) :
    (∀ k, k < (T.sub s).mult →
      (projectAll T trans q ker solver loc rb c s).result k = (c s).inp k) ∧
    (projectAll T trans q ker solver loc rb c s).inp = (c s).inp ∧
    (projectAll T trans q ker solver loc rb c s).out.isSome = (c s).out.isSome ∧
    (projectAll T trans q ker solver loc rb c s).F.solves = (c s).F.solves + 1 := by
  have hz := projectObjects_degenerate T trans q ker solver loc rb c hT hS hR hF hev hL0 s hs
  have hb := projBefore_spec trans q (ker s)
    (exchange T (fun t => precondSend q (ker t) ⟨(c t).F, (c t).inp, some (c t).F.dual⟩) s (rb s))
    (c s)
  have hinp : (beforeAll T trans q ker rb c s).inp = (c s).inp := hb.1
  have hout : (beforeAll T trans q ker rb c s).out = (c s).out := hb.2.1
  have hOS : (projectObjects T trans q ker solver loc rb c s).S = T.sub s :=
    (projectObjects_same T trans q ker solver loc rb c s).1.trans (hF s)
  have hcalls : (projectAll T trans q ker solver loc rb c s).F.solves = (c s).F.solves + 1 := by
    rw [projectAll_eq_project T trans q ker solver loc rb c s (hco s hs),
      (project_calls false trans q (ker s) _ _ _ (c s)).1, hco s hs]
    simp
  cases ho : (c s).out with
  | some o =>
    rw [ho] at hout
    refine ⟨fun k hk => ?_, ?_, ?_, hcalls⟩
    · simp only [projectAll, projCombine, hout, Call.result, Option.getD_some, hOS, if_pos hk,
        hinp, hz k hk, sub_zero]
    · simp only [projectAll, projCombine, hout, hinp]
    · simp only [projectAll, projCombine, hout, Option.isSome_some]
  | none =>
    rw [ho] at hout
    have hi : (projectAll T trans q ker solver loc rb c s).inp = (c s).inp := by
      funext k
      simp only [projectAll, projCombine, hout, axpy, hOS, hinp]
      by_cases hk : k < (T.sub s).mult
      · rw [if_pos hk, hz k hk, mul_zero, add_zero]
      · rw [if_neg hk]
    refine ⟨fun k _ => ?_, hi, ?_, hcalls⟩
    · simp only [Call.result]
      rw [show (projectAll T trans q ker solver loc rb c s).out = none by
        simp only [projectAll, projCombine, hout], Option.getD_none, hi]
    · simp only [projectAll, projCombine, hout, Option.isSome_none]

/-- C21 on the three subdomains of `exT`, direction `'N'`, the Dirichlet
kernel that doubles: entry `1` of `out` on rank `1`. -/
theorem C21_project_no_basis_witness :
    (projectAll exT 'N' FetiPrcndtnr.DIRICHLET (fun _ => exKer) (fun v => v) (fun _ => 0)
        exRb exCallsCo 1).result 1 = (exCallsCo 1).inp 1 :=
  (C21_project_no_basis exT 'N' FetiPrcndtnr.DIRICHLET (fun _ => exKer) (fun v => v)
    (fun _ => 0) exRb exCallsCo (by decide) (by decide) (by decide) (fun _ => rfl)
    (fun _ _ => rfl) (fun _ _ => rfl)
    (fun _ _ u hu d hd => by
      simp only [applyLocalPreconditioner, exKer, hu d hd, mul_zero])
    1 (by decide)).1 1 (by decide)

end DegenerateClaims

end HPDDM



